import Mathlib

/-!
# Red-black tree of `trees/rbtree/redblacktree.go`

A shallow embedding of the tree engine and the proofs of its contract.

Pointers are embedded as cursors: a pointer to a node is the subtree hanging at that
node together with the chain of its ancestors (`node.Parent`, `node.Parent.Parent`, ...),
each ancestor recorded with its own fields and its other child.  `t.root` is the top of
that chain, so the assignments to `t.root` and to the `Parent` fields made by
`replaceNode` and the rotations are carried by the cursor itself.

A nil dereference (a Go panic) is `none`.

The wrappers built on the tree follow in their own namespaces: `treemap`, `hashset`,
`linkedhashset` and `treebidimap`; `btree` holds the node size of the B-tree.  The last part
of the `rbtree` definitions is a memory of nodes at addresses, on which `rotateLeft`,
`rotateRight` and `replaceNode` are embedded field assignment by field assignment.
-/

namespace rbtree

/-! ## Data model -/

/-- Go: `type color bool` with `black, red color = true, false`. -/
inductive color where
  | black
  | red
  deriving DecidableEq

/-- Modelled from the spec: the `Node` struct lives in node.go, which is not among the
sources; spec section 3 gives its fields `key`, `value`, `color`, `parent`, `left`,
`right`.  `nil` is the nil pointer; the `parent` link is the cursor path below. -/
inductive Node (K V : Type) where
  | nil : Node K V
  | mk (Key : K) (Value : V) (color : color) (Left Right : Node K V) : Node K V

/-- Which child slot of its parent a node occupies. -/
inductive Dir where
  | left
  | right
  deriving DecidableEq

/-- One ancestor on the `Parent` chain of a node: the ancestor's own fields, the slot
(`dir`) in which the chain below hangs, and the ancestor's other child. -/
structure Frame (K V : Type) where
  dir : Dir
  Key : K
  Value : V
  color : color
  other : Node K V

/-- A pointer to a node: the subtree at the node and its `Parent` chain, nearest first. -/
structure Cursor (K V : Type) where
  node : Node K V
  path : List (Frame K V)

/-- Go: `type Tree struct { root; size; comparator }`. -/
structure Tree (K V : Type) where
  root : Node K V
  size : Int
  comparator : K → K → Int

variable {K V : Type}

/-- Go: `node == nil`. -/
def Node.isNil : Node K V → Bool
  | .nil => true
  | .mk _ _ _ _ _ => false

/-- Go: `nodeColor(node)`: a nil node is black. -/
def nodeColor : Node K V → color
  | .nil => .black
  | .mk _ _ c _ _ => c

/-- Go: `node.color = c`; a nil receiver is a nil dereference. -/
def Node.setColor : Node K V → color → Option (Node K V)
  | .nil, _ => none
  | .mk k v _ l r, c => some (.mk k v c l r)

/-- Go: `node.Left.color = c`. -/
def Node.setLeftColor : Node K V → color → Option (Node K V)
  | .nil, _ => none
  | .mk k v col l r, c => do
    let l ← l.setColor c
    some (.mk k v col l r)

/-- Go: `node.Right.color = c`. -/
def Node.setRightColor : Node K V → color → Option (Node K V)
  | .nil, _ => none
  | .mk k v col l r, c => do
    let r ← r.setColor c
    some (.mk k v col l r)

/-- Go: `node.Left` as a subtree (nil dereference on a nil node). -/
def Node.getLeft : Node K V → Option (Node K V)
  | .nil => none
  | .mk _ _ _ l _ => some l

/-- Go: `node.Right` as a subtree (nil dereference on a nil node). -/
def Node.getRight : Node K V → Option (Node K V)
  | .nil => none
  | .mk _ _ _ _ r => some r

/-- The ancestor of a frame with the subtree `n` hung in the frame's slot. -/
def Frame.plug (f : Frame K V) (n : Node K V) : Node K V :=
  match f.dir with
  | .left => .mk f.Key f.Value f.color n f.other
  | .right => .mk f.Key f.Value f.color f.other n

/-- The whole tree around a subtree: follow the `Parent` chain to the top. -/
def zip : List (Frame K V) → Node K V → Node K V
  | [], n => n
  | f :: rest, n => zip rest (f.plug n)

/-- Go: `t.root`, as seen from a pointer into the tree. -/
def Cursor.root (c : Cursor K V) : Node K V := zip c.path c.node

/-- Go: `node.Parent` as a pointer; `none` when it is nil. -/
def Cursor.Parent (c : Cursor K V) : Option (Cursor K V) :=
  match c.path with
  | [] => none
  | f :: rest => some ⟨f.plug c.node, rest⟩

/-- Go: `node.Left` as a pointer (nil dereference on a nil node). -/
def Cursor.Left (c : Cursor K V) : Option (Cursor K V) :=
  match c.node with
  | .nil => none
  | .mk k v col l r => some ⟨l, ⟨.left, k, v, col, r⟩ :: c.path⟩

/-- Go: `node.Right` as a pointer (nil dereference on a nil node). -/
def Cursor.Right (c : Cursor K V) : Option (Cursor K V) :=
  match c.node with
  | .nil => none
  | .mk k v col l r => some ⟨r, ⟨.right, k, v, col, l⟩ :: c.path⟩

/-- Go: `nodeColor(node.Parent)`. -/
def Cursor.parentColor (c : Cursor K V) : color :=
  match c.path with
  | [] => .black
  | f :: _ => f.color

/-- Modelled from the spec: `grandparent()` lives in node.go, not among the sources; it is
the parent's parent, nil when there is none. -/
def Cursor.grandparent (c : Cursor K V) : Option (Cursor K V) :=
  match c.Parent with
  | none => none
  | some p => p.Parent

/-- Modelled from the spec: `sibling()` lives in node.go, not among the sources; spec
section 4.1 uses it as the parent's other child, nil when there is no parent. -/
def Cursor.sibling (c : Cursor K V) : Node K V :=
  match c.path with
  | [] => .nil
  | f :: _ => f.other

/-- The sibling as a pointer, for the statements that act on it. -/
def Cursor.siblingCursor (c : Cursor K V) : Option (Cursor K V) :=
  match c.path with
  | [] => none
  | f :: rest =>
    some ⟨f.other, { f with dir := (match f.dir with | .left => .right | .right => .left),
                            other := c.node } :: rest⟩

/-- Modelled from the spec: `uncle()` lives in node.go, not among the sources; spec
section 4.1: "uncle (parent's sibling)", nil when there is no grandparent. -/
def Cursor.uncle (c : Cursor K V) : Node K V :=
  match c.path with
  | _ :: g :: _ => g.other
  | _ => .nil

/-- Go: `node.color = col`. -/
def Cursor.setColor (c : Cursor K V) (col : color) : Option (Cursor K V) := do
  let n ← c.node.setColor col
  some { c with node := n }

/-- Go: `node.Parent.color = col`. -/
def Cursor.setParentColor (c : Cursor K V) (col : color) : Option (Cursor K V) :=
  match c.path with
  | [] => none
  | f :: rest => some { c with path := { f with color := col } :: rest }

/-- Go: `node.grandparent().color = col`. -/
def Cursor.setGrandparentColor (c : Cursor K V) (col : color) : Option (Cursor K V) :=
  match c.path with
  | f :: g :: rest => some { c with path := f :: { g with color := col } :: rest }
  | _ => none

/-- Go: `uncle.color = col`. -/
def Cursor.setUncleColor (c : Cursor K V) (col : color) : Option (Cursor K V) :=
  match c.path with
  | f :: g :: rest => do
    let u ← g.other.setColor col
    some { c with path := f :: { g with other := u } :: rest }
  | _ => none

/-- Go: `sibling.color = col`. -/
def Cursor.setSiblingColor (c : Cursor K V) (col : color) : Option (Cursor K V) :=
  match c.path with
  | [] => none
  | f :: rest => do
    let s ← f.other.setColor col
    some { c with path := { f with other := s } :: rest }

/-- Go: `sibling.Left.color = col`. -/
def Cursor.setSiblingLeftColor (c : Cursor K V) (col : color) : Option (Cursor K V) :=
  match c.path with
  | [] => none
  | f :: rest => do
    let s ← f.other.setLeftColor col
    some { c with path := { f with other := s } :: rest }

/-- Go: `sibling.Right.color = col`. -/
def Cursor.setSiblingRightColor (c : Cursor K V) (col : color) : Option (Cursor K V) :=
  match c.path with
  | [] => none
  | f :: rest => do
    let s ← f.other.setRightColor col
    some { c with path := { f with other := s } :: rest }

/-- Go: `node == node.Parent.Left` (nil dereference when there is no parent). -/
def Cursor.isLeftChild (c : Cursor K V) : Option Bool :=
  match c.path with
  | [] => none
  | f :: _ => some (decide (f.dir = .left))

/-- Go: `node == node.Parent.Right` (nil dereference when there is no parent). -/
def Cursor.isRightChild (c : Cursor K V) : Option Bool :=
  match c.path with
  | [] => none
  | f :: _ => some (decide (f.dir = .right))

/-- Go: `node.Parent == grandparent.Left` (nil dereference when there is no grandparent). -/
def Cursor.parentIsLeftChild (c : Cursor K V) : Option Bool :=
  match c.path with
  | _ :: g :: _ => some (decide (g.dir = .left))
  | _ => none

/-- Go: `node.Parent == grandparent.Right` (nil dereference when there is no grandparent). -/
def Cursor.parentIsRightChild (c : Cursor K V) : Option Bool :=
  match c.path with
  | _ :: g :: _ => some (decide (g.dir = .right))
  | _ => none

/-- Go: `a && b`; the right operand is evaluated only when the left one holds, so a nil
dereference in `b` is not reached when `a` is false. -/
def andAlso (a b : Option Bool) : Option Bool :=
  match a with
  | none => none
  | some false => some false
  | some true => b

/-- Go: `nodeColor(n.Left) == col` (nil dereference on a nil `n`). -/
def Node.leftColorIs (n : Node K V) (col : color) : Option Bool :=
  match n with
  | .nil => none
  | .mk _ _ _ l _ => some (decide (nodeColor l = col))

/-- Go: `nodeColor(n.Right) == col` (nil dereference on a nil `n`). -/
def Node.rightColorIs (n : Node K V) (col : color) : Option Bool :=
  match n with
  | .nil => none
  | .mk _ _ _ _ r => some (decide (nodeColor r = col))

/-! ## Rotations and `replaceNode` -/

/-- Go: `replaceNode(old, new)`: `new` takes the slot of `old` under `old.Parent` (or
becomes `t.root`), and `new.Parent = old.Parent`.  The result points at `new`. -/
def replaceNode (old : Cursor K V) (new : Node K V) : Cursor K V :=
  ⟨new, old.path⟩

/-- Go: `rotateLeft(node)`.  The result still points at `node`, now the left child of its
former right child. -/
def rotateLeft (node : Cursor K V) : Option (Cursor K V) :=
  match node.node with
  | .nil => none
  | .mk k v c l right =>
    match right with
    | .nil => none
    | .mk rk rv rc rl rr =>
      -- replaceNode(node, right); node.Right = right.Left; right.Left = node
      some ⟨.mk k v c l rl, ⟨.left, rk, rv, rc, rr⟩ :: (replaceNode node right).path⟩

/-- Go: `rotateRight(node)`.  The result still points at `node`, now the right child of
its former left child. -/
def rotateRight (node : Cursor K V) : Option (Cursor K V) :=
  match node.node with
  | .nil => none
  | .mk k v c left r =>
    match left with
    | .nil => none
    | .mk lk lv lc ll lr =>
      -- replaceNode(node, left); node.Left = left.Right; left.Right = node
      some ⟨.mk k v c lr r, ⟨.right, lk, lv, lc, ll⟩ :: (replaceNode node left).path⟩

/-! ## Insertion fixup -/

/-- Go: `insertCase5(node)`. -/
def insertCase5 (node : Cursor K V) : Option (Cursor K V) := do
  let node ← node.setParentColor .black
  let node ← node.setGrandparentColor .red
  let grandparent ← node.grandparent
  if ← andAlso node.isLeftChild node.parentIsLeftChild then
    rotateRight grandparent
  else if ← andAlso node.isRightChild node.parentIsRightChild then
    rotateLeft grandparent
  else
    some node

/-- Go: `insertCase4(node)`.  After `rotateLeft(node.Parent)` the statement
`node = node.Left` makes the former parent the current node, which is where the rotated
cursor points; likewise for `rotateRight`. -/
def insertCase4 (node : Cursor K V) : Option (Cursor K V) := do
  if ← andAlso node.isRightChild node.parentIsLeftChild then
    let parent ← node.Parent
    let node ← rotateLeft parent
    insertCase5 node
  else if ← andAlso node.isLeftChild node.parentIsRightChild then
    let parent ← node.Parent
    let node ← rotateRight parent
    insertCase5 node
  else
    insertCase5 node

/-- Go: `insertCase3(node)`; `insertCase1` is the recursive call on the grandparent. -/
def insertCase3 (insertCase1 : Cursor K V → Option (Cursor K V)) (node : Cursor K V) :
    Option (Cursor K V) :=
  if nodeColor node.uncle = .red then do
    let node ← node.setParentColor .black
    let node ← node.setUncleColor .black
    let node ← node.setGrandparentColor .red
    let grandparent ← node.grandparent
    insertCase1 grandparent
  else
    insertCase4 node

/-- Go: `insertCase2(node)`. -/
def insertCase2 (insertCase1 : Cursor K V → Option (Cursor K V)) (node : Cursor K V) :
    Option (Cursor K V) :=
  if node.parentColor = .black then
    some node
  else
    insertCase3 insertCase1 node

/-- Go: `insertCase1(node)`.  The recursion of the ladder is bounded by `fuel`; the callers
pass the depth of the node plus one, and `none` also stands for running out of it. -/
def insertCase1 : Nat → Cursor K V → Option (Cursor K V)
  | 0, _ => none
  | fuel + 1, node =>
    if node.path.isEmpty then
      node.setColor .black
    else
      insertCase2 (insertCase1 fuel) node

/-! ## Deletion fixup -/

/-- Go: `deleteCase6(node)`.  The pointer to `node` is recovered from the rotated parent:
`node` stays the same child of it, except when `rotateRight(node.Parent)` runs with `node`
the left child, which makes `node` the parent of its former parent. -/
def deleteCase6 (node : Cursor K V) : Option (Cursor K V) := do
  let node ← node.setSiblingColor node.parentColor
  let node ← node.setParentColor .black
  if ← andAlso node.isLeftChild (node.sibling.rightColorIs .red) then
    let node ← node.setSiblingRightColor .black
    let parent ← node.Parent
    let parent ← rotateLeft parent
    parent.Left
  else if ← node.sibling.leftColorIs .red then
    let node ← node.setSiblingLeftColor .black
    let isLeft ← node.isLeftChild
    let parent ← node.Parent
    let parent ← rotateRight parent
    if isLeft then parent.Parent else parent.Right
  else
    some node

/-- Go: `deleteCase5(node)`.  After the rotation of the sibling, the sibling's parent is
the new sibling of `node`. -/
def deleteCase5 (node : Cursor K V) : Option (Cursor K V) := do
  if ← andAlso node.isLeftChild
      (andAlso (some (decide (nodeColor node.sibling = .black)))
        (andAlso (node.sibling.leftColorIs .red) (node.sibling.rightColorIs .black))) then
    let node ← node.setSiblingColor .red
    let node ← node.setSiblingLeftColor .black
    let sibling ← node.siblingCursor
    let sibling ← rotateRight sibling
    let node ← (← sibling.Parent).siblingCursor
    deleteCase6 node
  else if ← andAlso node.isRightChild
      (andAlso (some (decide (nodeColor node.sibling = .black)))
        (andAlso (node.sibling.rightColorIs .red) (node.sibling.leftColorIs .black))) then
    let node ← node.setSiblingColor .red
    let node ← node.setSiblingRightColor .black
    let sibling ← node.siblingCursor
    let sibling ← rotateLeft sibling
    let node ← (← sibling.Parent).siblingCursor
    deleteCase6 node
  else
    deleteCase6 node

/-- Go: `deleteCase4(node)`. -/
def deleteCase4 (node : Cursor K V) : Option (Cursor K V) := do
  if ← andAlso (some (decide (node.parentColor = .red)))
      (andAlso (some (decide (nodeColor node.sibling = .black)))
        (andAlso (node.sibling.leftColorIs .black) (node.sibling.rightColorIs .black))) then
    let node ← node.setSiblingColor .red
    node.setParentColor .black
  else
    deleteCase5 node

/-- Go: `deleteCase3(node)`; `deleteCase1` is the recursive call on the parent.  On a
red-black tree that call returns with the subtree of its argument untouched
(`deleteCase1_spec`), so after it `node` is still the same child of its parent, which is
how the pointer to `node` is recovered. -/
def deleteCase3 (deleteCase1 : Cursor K V → Option (Cursor K V)) (node : Cursor K V) :
    Option (Cursor K V) := do
  if ← andAlso (some (decide (node.parentColor = .black)))
      (andAlso (some (decide (nodeColor node.sibling = .black)))
        (andAlso (node.sibling.leftColorIs .black) (node.sibling.rightColorIs .black))) then
    let node ← node.setSiblingColor .red
    let isLeft ← node.isLeftChild
    let parent ← node.Parent
    let parent ← deleteCase1 parent
    if isLeft then parent.Left else parent.Right
  else
    deleteCase4 node

/-- Go: `deleteCase2(node)`. -/
def deleteCase2 (deleteCase1 : Cursor K V → Option (Cursor K V)) (node : Cursor K V) :
    Option (Cursor K V) := do
  if nodeColor node.sibling = .red then
    let node ← node.setParentColor .red
    let node ← node.setSiblingColor .black
    if ← node.isLeftChild then
      let parent ← node.Parent
      let parent ← rotateLeft parent
      let node ← parent.Left
      deleteCase3 deleteCase1 node
    else
      let parent ← node.Parent
      let parent ← rotateRight parent
      let node ← parent.Right
      deleteCase3 deleteCase1 node
  else
    deleteCase3 deleteCase1 node

/-- Go: `deleteCase1(node)`.  The recursion of the ladder is bounded by `fuel`; the caller
passes the depth of the node plus one, and `none` also stands for running out of it. -/
def deleteCase1 : Nat → Cursor K V → Option (Cursor K V)
  | 0, _ => none
  | fuel + 1, node =>
    if node.path.isEmpty then
      some node
    else
      deleteCase2 (deleteCase1 fuel) node

/-! ## Lookup, Put, Get, Remove -/

/-- Go: the loop of `lookup(key)`, from `node` downwards; `none` is the nil result. -/
def lookupLoop (comparator : K → K → Int) (key : K) :
    Node K V → List (Frame K V) → Option (Cursor K V)
  | .nil, _ => none
  | .mk k v c l r, path =>
    let compare := comparator key k
    if compare = 0 then
      some ⟨.mk k v c l r, path⟩
    else if compare < 0 then
      lookupLoop comparator key l (⟨.left, k, v, c, r⟩ :: path)
    else
      lookupLoop comparator key r (⟨.right, k, v, c, l⟩ :: path)

/-- Go: `t.lookup(key)`. -/
def Tree.lookup (t : Tree K V) (key : K) : Option (Cursor K V) :=
  lookupLoop t.comparator key t.root []

/-- Go: `t.Get(key)`; the zero value of `V` is `default`. -/
def Tree.Get [Inhabited V] (t : Tree K V) (key : K) : V × Bool :=
  match t.lookup key with
  | some ⟨.mk _ value _ _ _, _⟩ => (value, true)
  | _ => (default, false)

/-- How the descent loop of `Put` ends: by `return` after an overwrite, or with a new
node attached (`insertedNode`, whose `Parent` is the last node visited). -/
inductive PutLoop (K V : Type) where
  | returned (t : Cursor K V)
  | inserted (insertedNode : Cursor K V)

/-- Go: the `for loop` of `Put`, from `node` downwards. -/
def putLoop (comparator : K → K → Int) (key : K) (value : V) :
    Node K V → List (Frame K V) → Option (PutLoop K V)
  | .nil, _ => none
  | .mk k v c l r, path =>
    let compare := comparator key k
    if compare = 0 then
      some (.returned ⟨.mk key value c l r, path⟩)
    else if compare < 0 then
      if l.isNil then
        some (.inserted ⟨.mk key value .red .nil .nil, ⟨.left, k, v, c, r⟩ :: path⟩)
      else
        putLoop comparator key value l (⟨.left, k, v, c, r⟩ :: path)
    else
      if r.isNil then
        some (.inserted ⟨.mk key value .red .nil .nil, ⟨.right, k, v, c, l⟩ :: path⟩)
      else
        putLoop comparator key value r (⟨.right, k, v, c, l⟩ :: path)

/-- Go: `t.Put(key, value)`. -/
def Tree.Put (t : Tree K V) (key : K) (value : V) : Option (Tree K V) :=
  if t.root.isNil then do
    -- `t.comparator(key, key)` is called here for its type assertion; its result is unused
    let insertedNode : Cursor K V := ⟨.mk key value .red .nil .nil, []⟩
    let done ← insertCase1 (insertedNode.path.length + 1) insertedNode
    some { t with root := done.root, size := t.size + 1 }
  else do
    match ← putLoop t.comparator key value t.root [] with
    | .returned done => some { t with root := done.root }
    | .inserted insertedNode =>
      let done ← insertCase1 (insertedNode.path.length + 1) insertedNode
      some { t with root := done.root, size := t.size + 1 }

/-- Modelled from the spec: `maximumNode()` lives in node.go, not among the sources; spec
section 4.1: "in-order predecessor (max of left subtree)", reached by descending the
`Right` links. -/
def maximumNode : Node K V → List (Frame K V) → Cursor K V
  | .nil, path => ⟨.nil, path⟩
  | .mk k v c l r, path =>
    if r.isNil then ⟨.mk k v c l r, path⟩
    else maximumNode r (⟨.right, k, v, c, l⟩ :: path)

/-- Go: the block `pred := node.Left.maximumNode(); node.Key = pred.Key;
node.Value = pred.Value; node = pred` of `Remove`.  The result points at `pred`, whose
ancestor `node` now carries the key and value of `pred`. -/
def swapWithPredecessor (node : Cursor K V) : Option (Cursor K V) :=
  match node.node with
  | .nil => none
  | .mk _ _ c l r =>
    match (maximumNode l []).node with
    | .nil => none
    | .mk predKey predValue _ _ _ =>
      some (maximumNode l (⟨.left, predKey, predValue, c, r⟩ :: node.path))

/-- Go: `t.Remove(key)`. -/
def Tree.Remove (t : Tree K V) (key : K) : Option (Tree K V × Bool) :=
  match t.lookup key with
  | none => some (t, false)
  | some node => do
    let node ←
      if (! (← node.node.getLeft).isNil) && (! (← node.node.getRight).isNil) then
        swapWithPredecessor node
      else
        some node
    let left ← node.node.getLeft
    let right ← node.node.getRight
    if left.isNil || right.isNil then
      let child := if right.isNil then left else right
      let node ←
        if nodeColor node.node = .black then do
          let node ← node.setColor (nodeColor child)
          deleteCase1 (node.path.length + 1) node
        else
          some node
      let child := replaceNode node child
      let child ←
        if node.path.isEmpty && ! child.node.isNil then child.setColor .black
        else some child
      some ({ t with root := child.root, size := t.size - 1 }, true)
    else
      some ({ t with root := node.root, size := t.size - 1 }, true)

/-- Go: `t.Empty()`. -/
def Tree.Empty (t : Tree K V) : Bool := decide (t.size = 0)

/-- Go: `t.Size()`. -/
def Tree.Size (t : Tree K V) : Int := t.size

/-- Go: `NewWith(comparator)`. -/
def NewWith (comparator : K → K → Int) : Tree K V :=
  { root := .nil, size := 0, comparator := comparator }

/-- The in-order sequence of (key, value) pairs of a subtree. -/
def Node.toList : Node K V → List (K × V)
  | .nil => []
  | .mk k v _ l r => l.toList ++ (k, v) :: r.toList

/-- Modelled from the spec: `Keys()` fills a slice by walking `t.Iterator()`, and the
iterator lives in iterator.go, not among the sources; spec section 6: "Keys() → ordered
sequence ... (both snapshot, in-order, length = Size())". -/
def Tree.Keys (t : Tree K V) : List K := t.root.toList.map Prod.fst

/-- Modelled from the spec: `Values()`, like `Keys()`, walks the absent iterator; spec
section 6: in-order snapshot of the values. -/
def Tree.Values (t : Tree K V) : List V := t.root.toList.map Prod.snd

/-! ## Invariants

The red-black invariants of spec section 3, for subtrees and for `Parent` chains. -/

/-- Number of nodes of a subtree. -/
def Node.count : Node K V → Nat
  | .nil => 0
  | .mk _ _ _ l r => l.count + 1 + r.count

/-- Number of black nodes on the leftmost path from a node down to a nil link. -/
def bh : Node K V → Nat
  | .nil => 0
  | .mk _ _ c l _ => bh l + (if c = .black then 1 else 0)

/-- Black-height consistency: at every node both subtrees have the same black height. -/
def Bal : Node K V → Prop
  | .nil => True
  | .mk _ _ _ l r => Bal l ∧ Bal r ∧ bh l = bh r

/-- No red node has a red child. -/
def RR : Node K V → Prop
  | .nil => True
  | .mk _ _ c l r => RR l ∧ RR r ∧ (c = .red → nodeColor l = .black ∧ nodeColor r = .black)

/-- Black-height consistency of everything on and beside a `Parent` chain, for a subtree
of black height `h` at its bottom. -/
def PathBal : List (Frame K V) → Nat → Prop
  | [], _ => True
  | f :: rest, h =>
    Bal f.other ∧ bh f.other = h ∧ PathBal rest (h + (if f.color = .black then 1 else 0))

/-- No red node with a red child on or beside a `Parent` chain, for a node of colour `c`
at its bottom. -/
def PathRR : List (Frame K V) → color → Prop
  | [], _ => True
  | f :: rest, c =>
    RR f.other ∧ (f.color = .red → c = .black ∧ nodeColor f.other = .black) ∧
      PathRR rest f.color

/-- Colour of the root of the tree, from a `Parent` chain and the colour at its bottom. -/
def rootColor : List (Frame K V) → color → color
  | [], c => c
  | f :: rest, _ => rootColor rest f.color

/-- In-order pairs of the tree that come before the subtree at the bottom of a chain. -/
def before : List (Frame K V) → List (K × V)
  | [] => []
  | f :: rest =>
    match f.dir with
    | .left => before rest
    | .right => before rest ++ (f.other.toList ++ [(f.Key, f.Value)])

/-- In-order pairs of the tree that come after the subtree at the bottom of a chain. -/
def after : List (Frame K V) → List (K × V)
  | [] => []
  | f :: rest =>
    match f.dir with
    | .left => (f.Key, f.Value) :: (f.other.toList ++ after rest)
    | .right => after rest

/-- Strictly increasing keys along a list of pairs. -/
def Ordered (cmp : K → K → Int) (l : List (K × V)) : Prop :=
  l.Pairwise (fun a b => cmp a.1 b.1 < 0)

/-- The comparator contract of spec section 6: a strict total order, a positive result
meaning "greater". -/
structure StrictTotalOrder (cmp : K → K → Int) : Prop where
  irrefl : ∀ a, ¬ cmp a a < 0
  trans : ∀ a b c, cmp a b < 0 → cmp b c < 0 → cmp a c < 0
  total : ∀ a b, a ≠ b → cmp a b < 0 ∨ cmp b a < 0
  swap : ∀ a b, 0 < cmp a b ↔ cmp b a < 0

/-- The comparisons made on the way down to a node: `key` went left at every ancestor
whose left slot the chain hangs in, and right at the others. -/
def Brackets (cmp : K → K → Int) (key : K) (path : List (Frame K V)) : Prop :=
  ∀ f ∈ path, match f.dir with
    | .left => cmp key f.Key < 0
    | .right => 0 < cmp key f.Key

/-! ## The descent shared by `lookup` and `Put` -/

/-- Where the comparisons of `key` lead from `node`: the node whose key compares equal, or
the nil slot where the search falls off the tree. -/
def descend (comparator : K → K → Int) (key : K) :
    Node K V → List (Frame K V) → Cursor K V
  | .nil, path => ⟨.nil, path⟩
  | .mk k v c l r, path =>
    if comparator key k = 0 then ⟨.mk k v c l r, path⟩
    else if comparator key k < 0 then descend comparator key l (⟨.left, k, v, c, r⟩ :: path)
    else descend comparator key r (⟨.right, k, v, c, l⟩ :: path)

/-- The conclusion of the deletion ladder for the chain of the node it ran on. -/
def DeleteDone (path path' : List (Frame K V)) (h : Nat) : Prop :=
  PathBal path' h ∧ PathRR path' .red ∧ rootColor path' .black = .black ∧
    before path' = before path ∧ after path' = after path

/-- The conclusion of the insertion ladder: a red-black tree with the same in-order pairs
as the tree it started on. -/
def InsertDone (start done : Cursor K V) : Prop :=
  Bal done.root ∧ RR done.root ∧ nodeColor done.root = .black ∧
    done.root.toList = start.root.toList

/-- The invariants of spec section 3 on a tree whose comparator is `cmp`: strictly
increasing in-order keys, black-height consistency, no red node with a red child, a black
(or nil) root, and `size` equal to the number of nodes. -/
structure Inv (cmp : K → K → Int) (t : Tree K V) : Prop where
  comparator : t.comparator = cmp
  ordered : Ordered cmp t.root.toList
  bal : Bal t.root
  rr : RR t.root
  black : nodeColor t.root = .black
  size : t.size = t.root.count

/-- The part of `Remove` that follows the predecessor swap, named for the proofs: the
statements of `Remove` from `if node.Left == nil || node.Right == nil` to the end. -/
def removeTail (t : Tree K V) (node : Cursor K V) : Option (Tree K V × Bool) := do
  let left ← node.node.getLeft
  let right ← node.node.getRight
  if left.isNil || right.isNil then
    let child := if right.isNil then left else right
    let node ←
      if nodeColor node.node = .black then do
        let node ← node.setColor (nodeColor child)
        deleteCase1 (node.path.length + 1) node
      else
        some node
    let child := replaceNode node child
    let child ←
      if node.path.isEmpty && ! child.node.isNil then child.setColor .black
      else some child
    some ({ t with root := child.root, size := t.size - 1 }, true)
  else
    some ({ t with root := node.root, size := t.size - 1 }, true)

/-! ## Call sequences and the statements of the contract -/

/-- A call of the public mutating interface. -/
inductive Op (K V : Type) where
  | put (key : K) (value : V)
  | remove (key : K)

/-- One call on a tree; `none` when the call panics. -/
def step (t : Tree K V) : Op K V → Option (Tree K V)
  | .put key value => t.Put key value
  | .remove key => (t.Remove key).map Prod.fst

/-- A finite sequence of calls, in order. -/
def run (t : Tree K V) : List (Op K V) → Option (Tree K V)
  | [] => some t
  | op :: ops => (step t op).bind (fun t' => run t' ops)

/-- The trees that some sequence of `Put` and `Remove` calls builds from the empty tree. -/
def Reachable (cmp : K → K → Int) (t : Tree K V) : Prop :=
  ∃ ops, run (NewWith cmp) ops = some t

/-- A property that holds at every node of a subtree. -/
def Node.All (P : Node K V → Prop) : Node K V → Prop
  | .nil => True
  | .mk k v c l r => P (.mk k v c l r) ∧ l.All P ∧ r.All P

/-- The keys of a subtree, in order. -/
def Node.keys (n : Node K V) : List K := n.toList.map Prod.fst

/-- The binary-search-tree property at one node: every key of the left subtree compares
less than the node's key, every key of the right subtree compares greater. -/
def BSTAt (cmp : K → K → Int) : Node K V → Prop
  | .nil => True
  | .mk k _ _ l r => (∀ x ∈ l.keys, cmp x k < 0) ∧ (∀ x ∈ r.keys, 0 < cmp x k)

/-- A red node has no red child (a nil child counts as black). -/
def NoRedChildAt : Node K V → Prop
  | .nil => True
  | .mk _ _ c l r => c = .red → nodeColor l = .black ∧ nodeColor r = .black

/-- The number of black nodes on each path from a node down to a nil link, one entry per
path. -/
def blackCounts : Node K V → List Nat
  | .nil => [0]
  | .mk _ _ c l r =>
    (blackCounts l ++ blackCounts r).map (fun n => n + if c = .black then 1 else 0)

/-- All paths from a node down to a nil link carry the same number of black nodes. -/
def SameBlackCount (n : Node K V) : Prop :=
  ∀ a ∈ blackCounts n, ∀ b ∈ blackCounts n, a = b

/-- Number of `Put` calls of a sequence run from `t` that inserted a key not then
present. -/
def newPuts [DecidableEq K] (t : Tree K V) : List (Op K V) → Nat
  | [] => 0
  | op :: ops =>
    match step t op with
    | none => 0
    | some t' =>
      (match op with
        | .put key _ => if key ∈ t.Keys then 0 else 1
        | .remove _ => 0) + newPuts t' ops

/-- Number of `Remove` calls of a sequence run from `t` that returned true. -/
def trueRemoves (t : Tree K V) : List (Op K V) → Nat
  | [] => 0
  | op :: ops =>
    match step t op with
    | none => 0
    | some t' =>
      (match op with
        | .put _ _ => 0
        | .remove key => if (t.Remove key).map Prod.snd = some true then 1 else 0)
        + trueRemoves t' ops

/-- A comparator on integers in the style of Go's `cmp.Compare`, used for the worked
instances. -/
def compareInt (a b : Int) : Int :=
  if a < b then -1 else if b < a then 1 else 0

/-- The tree built by `Put(2,20); Put(1,10); Put(3,30)`, used for the worked instances. -/
def sampleTree : Tree Int Int :=
  { root := .mk 2 20 .black (.mk 1 10 .red .nil .nil) (.mk 3 30 .red .nil .nil),
    size := 3, comparator := compareInt }

/-- A short call sequence, used for the worked instances. -/
def sampleOps : List (Op Int Int) :=
  [.put 5 50, .put 6 60, .put 7 70, .put 3 30, .put 5 51, .remove 6, .remove 9, .put 4 40,
   .remove 5]

/-- A call sequence whose last call removes a black node (key 3) that has a single red
child (key 4) and is not the root, used for the worked instance of black-height
consistency. -/
def redChildOps : List (Op Int Int) :=
  [.put 2 20, .put 1 10, .put 3 30, .put 4 40, .remove 3]

/-! ## Queries: Left, Right, Floor, Ceiling, and the slices of Keys and Values -/

/-- Go: the loop of `t.Left()`: `parent = current; current = current.Left`. -/
def leftLoop : Node K V → List (Frame K V) → Option (Cursor K V) → Option (Cursor K V)
  | .nil, _, parent => parent
  | .mk k v c l r, path, _ =>
    leftLoop l (⟨.left, k, v, c, r⟩ :: path) (some ⟨.mk k v c l r, path⟩)

/-- Go: `t.Left()`; `none` is the nil result. -/
def Tree.Left (t : Tree K V) : Option (Cursor K V) :=
  leftLoop t.root [] none

/-- Go: the loop of `t.Right()`: `parent = current; current = current.Right`. -/
def rightLoop : Node K V → List (Frame K V) → Option (Cursor K V) → Option (Cursor K V)
  | .nil, _, parent => parent
  | .mk k v c l r, path, _ =>
    rightLoop r (⟨.right, k, v, c, l⟩ :: path) (some ⟨.mk k v c l r, path⟩)

/-- Go: `t.Right()`; `none` is the nil result. -/
def Tree.Right (t : Tree K V) : Option (Cursor K V) :=
  rightLoop t.root [] none

/-- Go: the loop of `t.Floor(key)` with the statements after it, from `node` downwards;
`floor` and `found` are the named results as assigned so far. -/
def floorLoop (comparator : K → K → Int) (key : K) :
    Node K V → List (Frame K V) → Option (Cursor K V) → Bool → Option (Cursor K V) × Bool
  | .nil, _, floor, found => if found then (floor, true) else (none, false)
  | .mk k v c l r, path, floor, found =>
    let compare := comparator key k
    if compare = 0 then
      (some ⟨.mk k v c l r, path⟩, true)
    else if compare < 0 then
      floorLoop comparator key l (⟨.left, k, v, c, r⟩ :: path) floor found
    else
      floorLoop comparator key r (⟨.right, k, v, c, l⟩ :: path)
        (some ⟨.mk k v c l r, path⟩) true

/-- Go: `t.Floor(key)`; the first component is the node (`none` for nil), the second
`found`. -/
def Tree.Floor (t : Tree K V) (key : K) : Option (Cursor K V) × Bool :=
  floorLoop t.comparator key t.root [] none false

/-- Go: the loop of `t.Ceiling(key)` with the statements after it, from `node` downwards;
`ceiling` and `found` are the named results as assigned so far. -/
def ceilingLoop (comparator : K → K → Int) (key : K) :
    Node K V → List (Frame K V) → Option (Cursor K V) → Bool → Option (Cursor K V) × Bool
  | .nil, _, ceiling, found => if found then (ceiling, true) else (none, false)
  | .mk k v c l r, path, ceiling, found =>
    let compare := comparator key k
    if compare = 0 then
      (some ⟨.mk k v c l r, path⟩, true)
    else if compare < 0 then
      ceilingLoop comparator key l (⟨.left, k, v, c, r⟩ :: path)
        (some ⟨.mk k v c l r, path⟩) true
    else
      ceilingLoop comparator key r (⟨.right, k, v, c, l⟩ :: path) ceiling found

/-- Go: `t.Ceiling(key)`; the first component is the node (`none` for nil), the second
`found`. -/
def Tree.Ceiling (t : Tree K V) (key : K) : Option (Cursor K V) × Bool :=
  ceilingLoop t.comparator key t.root [] none false

/-- Go: `node.Key` and `node.Value` of a non-nil node pointer. -/
def Cursor.entry (c : Cursor K V) : Option (K × V) :=
  match c.node with
  | .nil => none
  | .mk k v _ _ _ => some (k, v)

/-- Go: `make([]T, size)`: a slice of zero values; a negative length panics. -/
def makeSlice {α : Type} [Inhabited α] (size : Int) : Option (List α) :=
  if size < 0 then none else some (List.replicate size.toNat default)

/-- Go: the loop `for i := 0; it.Next(); i++ { slice[i] = item }` of `Keys()` and
`Values()`, over the items the iterator still has to visit; an index out of range panics. -/
def fillSlice {α : Type} : List α → Nat → List α → Option (List α)
  | slice, _, [] => some slice
  | slice, i, item :: items =>
    if i < slice.length then fillSlice (slice.set i item) (i + 1) items else none

/-- Go: `t.Keys()` with its slice: `make([]K, t.size)` filled at increasing indices while
the iterator advances.  Modelled from the spec: the iterator lives in iterator.go, not among
the sources; spec section 4.2: `Next()` moves from before-first to the minimum node and then
to the in-order successor, so the items come in in-order sequence. -/
def Tree.KeysSlice [Inhabited K] (t : Tree K V) : Option (List K) := do
  let keys ← makeSlice t.size
  fillSlice keys 0 (t.root.toList.map Prod.fst)

/-- Go: `t.Values()` with its slice, as `KeysSlice`. -/
def Tree.ValuesSlice [Inhabited V] (t : Tree K V) : Option (List V) := do
  let values ← makeSlice t.size
  fillSlice values 0 (t.root.toList.map Prod.snd)

/-- The shape and the colours of a subtree, with the keys and values left out. -/
def Node.skeleton : Node K V → Node Unit Unit
  | .nil => .nil
  | .mk _ _ c l r => .mk () () c l.skeleton r.skeleton

/-- The largest key of a list that is less than or equal to `q`, by a linear scan. -/
def floorScan (cmp : K → K → Int) (q : K) : List K → Option K
  | [] => none
  | k :: ks =>
    match floorScan cmp q ks with
    | none => if cmp k q ≤ 0 then some k else none
    | some best => if cmp k q ≤ 0 ∧ cmp best k < 0 then some k else some best

/-- The smallest key of a list that is greater than or equal to `q`, by a linear scan. -/
def ceilingScan (cmp : K → K → Int) (q : K) : List K → Option K
  | [] => none
  | k :: ks =>
    match ceilingScan cmp q ks with
    | none => if 0 ≤ cmp k q then some k else none
    | some best => if 0 ≤ cmp k q ∧ cmp k best < 0 then some k else some best

/-- A comparator that orders integers by absolute value: it returns 0 on `k` and `-k`,
which are distinguishable keys. -/
def compareAbs (a b : Int) : Int :=
  compareInt (Int.natAbs a) (Int.natAbs b)

end rbtree

namespace treemap

open rbtree

variable {K V : Type}

/-- Go: `treemap.Map`, a wrapper around the red-black tree. -/
structure Map (K V : Type) where
  tree : Tree K V

/-- Go: `m.Min()`; the zero values are `default`. -/
def Map.Min [Inhabited K] [Inhabited V] (m : Map K V) : K × V × Bool :=
  match m.tree.Left with
  | some ⟨.mk key value _ _ _, _⟩ => (key, value, true)
  | _ => (default, default, false)

/-- Go: `m.Max()`; the zero values are `default`. -/
def Map.Max [Inhabited K] [Inhabited V] (m : Map K V) : K × V × Bool :=
  match m.tree.Right with
  | some ⟨.mk key value _ _ _, _⟩ => (key, value, true)
  | _ => (default, default, false)

/-- Go: `m.Floor(key)`; the zero values are `default`. -/
def Map.Floor [Inhabited K] [Inhabited V] (m : Map K V) (key : K) : K × V × Bool :=
  match m.tree.Floor key with
  | (some ⟨.mk foundKey foundValue _ _ _, _⟩, true) => (foundKey, foundValue, true)
  | _ => (default, default, false)

/-- Go: `m.Ceiling(key)`; the zero values are `default`. -/
def Map.Ceiling [Inhabited K] [Inhabited V] (m : Map K V) (key : K) : K × V × Bool :=
  match m.tree.Ceiling key with
  | (some ⟨.mk foundKey foundValue _ _ _, _⟩, true) => (foundKey, foundValue, true)
  | _ => (default, default, false)

end treemap

namespace rbtree

variable {K V : Type}

/-- The tree built by `Put(2,20); Put(1,10); Put(3,30)` under `compareAbs`, used for the
worked instances. -/
def absTree : Tree Int Int :=
  { root := .mk 2 20 .black (.mk 1 10 .red .nil .nil) (.mk 3 30 .red .nil .nil),
    size := 3, comparator := compareAbs }

/-- Go: `t.Clear()`. -/
def Tree.Clear (t : Tree K V) : Tree K V :=
  { t with root := .nil, size := 0 }

/-- The number of nodes on the longest path from a node down to a nil link. -/
def Node.height : Node K V → Nat
  | .nil => 0
  | .mk _ _ _ l r => 1 + max l.height r.height

/-- Go: `t.Comparator()`. -/
def Tree.Comparator (t : Tree K V) : K → K → Int := t.comparator

end rbtree

namespace treemap

open rbtree

variable {K V : Type}

/-- Go: `treemap.NewWith(comparator)`. -/
def NewWith (comparator : K → K → Int) : Map K V :=
  { tree := rbtree.NewWith comparator }

/-- Go: `m.Comparator()`. -/
def Map.Comparator (m : Map K V) : K → K → Int := m.tree.Comparator

/-- Go: `m.Put(key, value)`. -/
def Map.Put (m : Map K V) (key : K) (value : V) : Option (Map K V) := do
  let tree ← m.tree.Put key value
  some { tree := tree }

/-- Go: `m.Get(key)`. -/
def Map.Get [Inhabited V] (m : Map K V) (key : K) : V × Bool := m.tree.Get key

/-- Go: `m.Remove(key)`. -/
def Map.Remove (m : Map K V) (key : K) : Option (Map K V) := do
  let (tree, _) ← m.tree.Remove key
  some { tree := tree }

/-- Go: `m.Size()`. -/
def Map.Size (m : Map K V) : Int := m.tree.Size

/-- Go: `m.Keys()`. -/
def Map.Keys [Inhabited K] (m : Map K V) : Option (List K) := m.tree.KeysSlice

/-- Go: `m.Clear()`. -/
def Map.Clear (m : Map K V) : Map K V := { tree := m.tree.Clear }

end treemap

namespace hashset

open rbtree

variable {T : Type}

/-- Go: `hashset.Set`, whose items are the keys of a tree map to `struct{}`. -/
structure Set (T : Type) where
  items : treemap.Map T Unit

/-- Go: `set.Add(items...)`. -/
def Set.Add : Set T → List T → Option (Set T)
  | set, [] => some set
  | set, item :: items => do
    let m ← set.items.Put item ()
    Set.Add { items := m } items

/-- Go: `set.Remove(items...)`. -/
def Set.Remove : Set T → List T → Option (Set T)
  | set, [] => some set
  | set, item :: items => do
    let m ← set.items.Remove item
    Set.Remove { items := m } items

/-- Go: `hashset.NewWith(comparator, values...)`. -/
def NewWith (comparator : T → T → Int) (values : List T) : Option (Set T) :=
  let set : Set T := { items := treemap.NewWith comparator }
  if values.length > 0 then set.Add values else some set

/-- Go: `set.New()`. -/
def Set.New (set : Set T) : Set T :=
  { items := treemap.NewWith set.items.Comparator }

/-- Go: `set.Contains(items...)`. -/
def Set.Contains (set : Set T) : List T → Bool
  | [] => true
  | item :: items =>
    let contains := (set.items.Get item).2
    if ! contains then false else Set.Contains set items

/-- Go: `set.Size()`. -/
def Set.Size (set : Set T) : Int := set.items.Size

/-- Go: `set.Clear()`. -/
def Set.Clear (set : Set T) : Set T := { items := set.items.Clear }

/-- Go: `set.Values()`. -/
def Set.Values [Inhabited T] (set : Set T) : Option (List T) := set.items.Keys

/-- Go: either loop of `Intersection`, `for _, item := range values { if other.Contains(item)
{ result.Add(item) } }`, over the values still to visit. -/
def intersectionLoop (other : Set T) : List T → Set T → Option (Set T)
  | [], result => some result
  | item :: items, result =>
    if other.Contains [item] then do
      let result ← result.Add [item]
      intersectionLoop other items result
    else
      intersectionLoop other items result

/-- Go: `set.Intersection(another)`.  The operands are only read (`Size`, `Values`,
`Contains`); the one set that is written is the fresh `result`. -/
def Set.Intersection [Inhabited T] (set another : Set T) : Option (Set T) := do
  let result := set.New
  if set.Size ≤ another.Size then
    let values ← set.Values
    intersectionLoop another values result
  else
    let values ← another.Values
    intersectionLoop set values result

/-- A call on a set. -/
inductive Op (T : Type) where
  | add (items : List T)
  | remove (items : List T)
  | clear

/-- One call on a set. -/
def step (set : Set T) : Op T → Option (Set T)
  | .add items => set.Add items
  | .remove items => set.Remove items
  | .clear => some set.Clear

/-- A sequence of calls on a set, in call order. -/
def run : Set T → List (Op T) → Option (Set T)
  | set, [] => some set
  | set, op :: ops => do
    let set ← step set op
    run set ops

/-- A set made by `NewWith(comparator, values...)` and then any calls of `Add`, `Remove` and
`Clear`. -/
def Built (comparator : T → T → Int) (set : Set T) : Prop :=
  ∃ values ops s0, NewWith comparator values = some s0 ∧ run s0 ops = some set

/-- Whether `x` has been added and not since removed, over a sequence of calls in call order;
`now` tells whether it was so before the calls. -/
def present [DecidableEq T] (x : T) : Bool → List (Op T) → Bool
  | now, [] => now
  | now, .add items :: ops => present x (now || decide (x ∈ items)) ops
  | now, .remove items :: ops => present x (now && ! decide (x ∈ items)) ops
  | _, .clear :: ops => present x false ops

/-- The set built by `NewWith(compareInt, 1, 2, 3)`, used for the worked instances. -/
def sampleSet : Set Int :=
  { items := { tree := { root := .mk 2 () .black (.mk 1 () .red .nil .nil)
                                   (.mk 3 () .red .nil .nil),
                         size := 3, comparator := compareInt } } }

/-- The set built by `NewWith(compareInt, 3, 4)`, used for the worked instances. -/
def smallSet : Set Int :=
  { items := { tree := { root := .mk 3 () .black .nil (.mk 4 () .red .nil .nil),
                         size := 2, comparator := compareInt } } }

end hashset

namespace rbtree

variable {K V : Type}

end rbtree

namespace treebidimap

open rbtree

variable {K V : Type}

/-- Go: `entry`, a key with its value; the trees store pointers to entries, and a nil
pointer is `none`. -/
structure entry (K V : Type) where
  key : K
  value : V

/-- Go: `treebidimap.Map`, two red-black trees over the same entries. -/
structure Map (K V : Type) where
  forwardMap : Tree K (Option (entry K V))
  inverseMap : Tree V (Option (entry K V))
  keyComparator : K → K → Int
  valueComparator : V → V → Int

/-- Go: `treebidimap.NewWith(keyComparator, valueComparator)`. -/
def NewWith (keyComparator : K → K → Int) (valueComparator : V → V → Int) : Map K V :=
  { forwardMap := rbtree.NewWith keyComparator,
    inverseMap := rbtree.NewWith valueComparator,
    keyComparator := keyComparator,
    valueComparator := valueComparator }

/-- Go: `m.Put(key, value)`; `none` is a panic (a nil entry dereferenced, or a panic of the
tree). -/
def Map.Put (m : Map K V) (key : K) (value : V) : Option (Map K V) := do
  let inverseMap ←
    match m.forwardMap.Get key with
    | (d, true) => do
      let d ← d
      let (inverseMap, _) ← m.inverseMap.Remove d.value
      some inverseMap
    | (_, false) => some m.inverseMap
  let forwardMap ←
    match inverseMap.Get value with
    | (d, true) => do
      let d ← d
      let (forwardMap, _) ← m.forwardMap.Remove d.key
      some forwardMap
    | (_, false) => some m.forwardMap
  let d : Option (entry K V) := some { key := key, value := value }
  let forwardMap ← forwardMap.Put key d
  let inverseMap ← inverseMap.Put value d
  some { m with forwardMap := forwardMap, inverseMap := inverseMap }

/-- Go: `m.Get(key)`; the zero value is `default`, and `none` is the panic of a nil entry
dereferenced. -/
def Map.Get [Inhabited V] (m : Map K V) (key : K) : Option (V × Bool) :=
  match m.forwardMap.Get key with
  | (d, true) => do
    let d ← d
    some (d.value, true)
  | (_, false) => some (default, false)

/-- Go: `m.GetKey(value)`; the zero value is `default`, and `none` is the panic of a nil
entry dereferenced. -/
def Map.GetKey [Inhabited K] (m : Map K V) (value : V) : Option (K × Bool) :=
  match m.inverseMap.Get value with
  | (d, true) => do
    let d ← d
    some (d.key, true)
  | (_, false) => some (default, false)

/-- Go: `m.Remove(key)`. -/
def Map.Remove (m : Map K V) (key : K) : Option (Map K V) :=
  match m.forwardMap.Get key with
  | (d, true) => do
    let (forwardMap, _) ← m.forwardMap.Remove key
    let d ← d
    let (inverseMap, _) ← m.inverseMap.Remove d.value
    some { m with forwardMap := forwardMap, inverseMap := inverseMap }
  | (_, false) => some m

/-- Go: `m.Size()`. -/
def Map.Size (m : Map K V) : Int := m.forwardMap.Size

/-- Go: `m.Keys()`. -/
def Map.Keys [Inhabited K] (m : Map K V) : Option (List K) := m.forwardMap.KeysSlice

/-- Go: `m.Values()`. -/
def Map.Values [Inhabited V] (m : Map K V) : Option (List V) := m.inverseMap.KeysSlice

/-- Go: `m.Clear()`. -/
def Map.Clear (m : Map K V) : Map K V :=
  { m with forwardMap := m.forwardMap.Clear, inverseMap := m.inverseMap.Clear }

/-- A call on a bidirectional map. -/
inductive Op (K V : Type) where
  | put (key : K) (value : V)
  | remove (key : K)
  | clear

/-- One call on a bidirectional map. -/
def step (m : Map K V) : Op K V → Option (Map K V)
  | .put key value => m.Put key value
  | .remove key => m.Remove key
  | .clear => some m.Clear

/-- A sequence of calls on a bidirectional map, in call order. -/
def run : Map K V → List (Op K V) → Option (Map K V)
  | m, [] => some m
  | m, op :: ops => do
    let m ← step m op
    run m ops

/-- A map reached from the empty map by calls of `Put`, `Remove` and `Clear`. -/
def Reachable (keyComparator : K → K → Int) (valueComparator : V → V → Int)
    (m : Map K V) : Prop :=
  ∃ ops, run (NewWith keyComparator valueComparator) ops = some m

/-- The two trees hold the same entries: each tree satisfies the red-black invariants under
its comparator, every binding of the forward tree is `key ↦ (key, value)` with the same
entry bound to `value` in the inverse tree, and the other way round. -/
structure BInv (kc : K → K → Int) (vc : V → V → Int) (m : Map K V) : Prop where
  fwd : Inv kc m.forwardMap
  inv : Inv vc m.inverseMap
  f2i : ∀ k x, (k, x) ∈ m.forwardMap.root.toList →
    ∃ v, x = some ⟨k, v⟩ ∧ (v, x) ∈ m.inverseMap.root.toList
  i2f : ∀ v x, (v, x) ∈ m.inverseMap.root.toList →
    ∃ k, x = some ⟨k, v⟩ ∧ (k, x) ∈ m.forwardMap.root.toList

/-- The pair `(k, v)` is stored: the forward tree binds `k` to the entry `(k, v)`. -/
def Map.Holds (m : Map K V) (k : K) (v : V) : Prop :=
  (k, some (⟨k, v⟩ : entry K V)) ∈ m.forwardMap.root.toList

/-- The map built by `Put(1, 10); Put(2, 20)` under `compareInt` on both sides, used for the
worked instances. -/
def sampleMap : Map Int Int :=
  { forwardMap := { root := .mk 1 (some ⟨1, 10⟩) .black .nil
                      (.mk 2 (some ⟨2, 20⟩) .red .nil .nil),
                    size := 2, comparator := compareInt },
    inverseMap := { root := .mk 10 (some ⟨1, 10⟩) .black .nil
                      (.mk 20 (some ⟨2, 20⟩) .red .nil .nil),
                    size := 2, comparator := compareInt },
    keyComparator := compareInt,
    valueComparator := compareInt }

end treebidimap

namespace rbtree

variable {K V : Type}

/-! ## The iterator

`Iterator()` and `IteratorAt()` are in redblacktree.go; the iterator type with `Next()` and
`Prev()` lives in iterator.go, which is not among the sources, so the movements follow spec
section 4.2. -/

/-- Modelled from the spec: the three states of spec section 4.2, "`before-first`,
`positioned(node)`, `after-last`"; redblacktree.go names the first two `begin` and `between`,
and `finish` stands for the third. -/
inductive position where
  | begin
  | between
  | finish
  deriving DecidableEq

/-- Modelled from the spec: the iterator value built by `Iterator()` and `IteratorAt()`, with
the fields those two functions set: `tree`, `node` and `position`. -/
structure Iterator (K V : Type) where
  tree : Tree K V
  node : Option (Cursor K V)
  position : position

/-- Go: `t.Iterator()`. -/
def Tree.Iterator (t : Tree K V) : Iterator K V :=
  { tree := t, node := none, position := .begin }

/-- Go: `t.IteratorAt(node)`. -/
def Tree.IteratorAt (t : Tree K V) (node : Option (Cursor K V)) : rbtree.Iterator K V :=
  { tree := t, node := node, position := .between }

/-- Modelled from the spec: "the nearest ancestor for which the current node is in the
ancestor's left subtree", climbing the `Parent` chain out of the subtree `sub`. -/
def ascendNext : Node K V → List (Frame K V) → Option (Cursor K V)
  | _, [] => none
  | sub, f :: rest =>
    match f.dir with
    | .left => some ⟨f.plug sub, rest⟩
    | .right => ascendNext (f.plug sub) rest

/-- Modelled from the spec: the mirror image of `ascendNext` for `Prev()`, the nearest
ancestor for which the current node is in the ancestor's right subtree. -/
def ascendPrev : Node K V → List (Frame K V) → Option (Cursor K V)
  | _, [] => none
  | sub, f :: rest =>
    match f.dir with
    | .right => some ⟨f.plug sub, rest⟩
    | .left => ascendPrev (f.plug sub) rest

/-- Modelled from the spec: the in-order successor, "right subtree's minimum if a right child
exists, else the nearest ancestor for which the current node is in the ancestor's left
subtree"; `none` when there is none. -/
def successor (node : Cursor K V) : Option (Cursor K V) :=
  match node.node with
  | .nil => none
  | .mk k v c l r =>
    if r.isNil then ascendNext (.mk k v c l r) node.path
    else leftLoop r (⟨.right, k, v, c, l⟩ :: node.path) none

/-- Modelled from the spec: the in-order predecessor, "symmetric" to the successor. -/
def predecessor (node : Cursor K V) : Option (Cursor K V) :=
  match node.node with
  | .nil => none
  | .mk k v c l r =>
    if l.isNil then ascendPrev (.mk k v c l r) node.path
    else rightLoop l (⟨.left, k, v, c, r⟩ :: node.path) none

/-- Modelled from the spec: `Next()`, "from `before-first`, jump to the tree's minimum node
(if any), else stay `after-last`-equivalent on empty tree, returns whether a node is now
current.  From `positioned(node)`, move to the in-order successor ...; if none exists,
transition to `after-last` and return false."  The spec does not say what `Next()` does in
the `after-last` state; here it stays there and returns false. -/
def Iterator.Next (it : Iterator K V) : Iterator K V × Bool :=
  match it.position with
  | .begin =>
    match it.tree.Left with
    | some left => ({ it with node := some left, position := .between }, true)
    | none => ({ it with node := none, position := .finish }, false)
  | .between =>
    match it.node.bind successor with
    | some next => ({ it with node := some next }, true)
    | none => ({ it with node := none, position := .finish }, false)
  | .finish => (it, false)

/-- Modelled from the spec: `Prev()`, "symmetric, moves to in-order predecessor; from
`after-last`, jumps to the tree's maximum".  In the `before-first` state it stays there and
returns false. -/
def Iterator.Prev (it : Iterator K V) : Iterator K V × Bool :=
  match it.position with
  | .finish =>
    match it.tree.Right with
    | some right => ({ it with node := some right, position := .between }, true)
    | none => ({ it with node := none, position := .begin }, false)
  | .between =>
    match it.node.bind predecessor with
    | some prev => ({ it with node := some prev }, true)
    | none => ({ it with node := none, position := .begin }, false)
  | .begin => (it, false)

/-- Modelled from the spec: `Key()`, "valid only in `positioned` state"; `none` is the
contract violation. -/
def Iterator.Key (it : Iterator K V) : Option K :=
  match it.position, it.node with
  | .between, some ⟨.mk k _ _ _ _, _⟩ => some k
  | _, _ => none

/-- The loop `for it.Next() { keys = append(keys, it.Key()) }`: the keys visited by calling
`Next()` until it returns false, with the iterator it leaves; `none` when `fuel` calls do not
reach that point or `Key()` is called outside the positioned state. -/
def nextAll : Nat → Iterator K V → Option (List K × Iterator K V)
  | 0, _ => none
  | fuel + 1, it =>
    match it.Next with
    | (it, false) => some ([], it)
    | (it, true) => do
      let key ← it.Key
      let (keys, last) ← nextAll fuel it
      some (key :: keys, last)

/-- The loop `for it.Prev() { keys = append(keys, it.Key()) }`, as `nextAll`. -/
def prevAll : Nat → Iterator K V → Option (List K × Iterator K V)
  | 0, _ => none
  | fuel + 1, it =>
    match it.Prev with
    | (it, false) => some ([], it)
    | (it, true) => do
      let key ← it.Key
      let (keys, first) ← prevAll fuel it
      some (key :: keys, first)

end rbtree

namespace hashset

open rbtree

variable {T : Type}

/-- Go: either loop of `Union`, `for i := range items { result.Add(items[i]) }`, over the
values still to visit. -/
def unionLoop : List T → Set T → Option (Set T)
  | [], result => some result
  | item :: items, result => do
    let result ← result.Add [item]
    unionLoop items result

/-- Go: `set.Union(another)`.  The operands are only read (`Values`); the one set that is
written is the fresh `result`. -/
def Set.Union [Inhabited T] (set another : Set T) : Option (Set T) := do
  let result := set.New
  let items1 ← set.Values
  let result ← unionLoop items1 result
  let items2 ← another.Values
  unionLoop items2 result

/-- Go: the loop of `Difference`, `for i := range items { item := items[i];
if !another.Contains(item) { result.Add(items[i]) } }`, over the values still to visit. -/
def differenceLoop (another : Set T) : List T → Set T → Option (Set T)
  | [], result => some result
  | item :: items, result =>
    if ! another.Contains [item] then do
      let result ← result.Add [item]
      differenceLoop another items result
    else
      differenceLoop another items result

/-- Go: `set.Difference(another)`.  The operands are only read (`Values`, `Contains`); the
one set that is written is the fresh `result`. -/
def Set.Difference [Inhabited T] (set another : Set T) : Option (Set T) := do
  let result := set.New
  let items ← set.Values
  differenceLoop another items result

end hashset

namespace rbtree

variable {K V : Type}

end rbtree

namespace btree

/-- Go: `btree.Entry`. -/
structure Entry (K V : Type) where
  Key : K
  Value : V

/-- Go: a `*btree.Node`: the nil pointer, or a node with its `Entries` and `Children`; the
`Parent` link, which `Size` does not read, is left out. -/
inductive Node (K V : Type) where
  | nil
  | mk (Entries : List (Entry K V)) (Children : List (Node K V))

variable {K V : Type}

mutual
/-- Go: `node.Size()`. -/
def Node.Size : Node K V → Int
  | .nil => 0
  | .mk _ children => sizeLoop 1 children
/-- Go: the loop `for _, child := range node.Children { size += child.Size() }` of `Size`,
over the children still to visit. -/
def sizeLoop : Int → List (Node K V) → Int
  | size, [] => size
  | size, child :: children => sizeLoop (size + child.Size) children
end

mutual
/-- The number of elements stored in a subtree: the sum of `len(Entries)` over the node and
all its descendants, 0 for nil. -/
def Node.elements : Node K V → Int
  | .nil => 0
  | .mk entries children => entries.length + elementsOf children
/-- The number of elements stored in a list of subtrees. -/
def elementsOf : List (Node K V) → Int
  | [] => 0
  | child :: children => child.elements + elementsOf children
end

mutual
/-- The number of nodes of a subtree, 0 for nil. -/
def Node.nodes : Node K V → Int
  | .nil => 0
  | .mk _ children => 1 + nodesOf children
/-- The number of nodes of a list of subtrees. -/
def nodesOf : List (Node K V) → Int
  | [] => 0
  | child :: children => child.nodes + nodesOf children
end

/-- A leaf holding two entries. -/
def twoEntryLeaf : Node Int Int :=
  .mk [⟨1, 10⟩, ⟨2, 20⟩] []

/-- A root with one entry over two leaves that hold two entries each. -/
def fiveEntryTree : Node Int Int :=
  .mk [⟨3, 30⟩] [.mk [⟨1, 10⟩, ⟨2, 20⟩] [], .mk [⟨4, 40⟩, ⟨5, 50⟩] []]

end btree

namespace rbtree

variable {K V : Type}

end rbtree

namespace linkedhashset

open rbtree

variable {T L : Type}

/-- Go: `linkedhashset.Set`.  The list type of `ordering` (doublylinkedlist) is not among the
sources and is the parameter `L`. -/
structure Set (T L : Type) where
  table : treemap.Map T Unit
  ordering : L

/-- Go: `set.Contains(items...)`. -/
def Set.Contains (set : Set T L) : List T → Bool
  | [] => true
  | item :: items =>
    let contains := (set.table.Get item).2
    if ! contains then false else Set.Contains set items

/-- Go: `set.Add(items...)`; `Append` is `ordering.Append` of the list type. -/
def Set.Add (Append : L → T → L) : Set T L → List T → Option (Set T L)
  | set, [] => some set
  | set, item :: items =>
    if ! set.Contains [item] then do
      let table ← set.table.Put item ()
      Set.Add Append { table := table, ordering := Append set.ordering item } items
    else
      Set.Add Append set items

/-- Go: `set.Size()`; `Size` is `ordering.Size` of the list type. -/
def Set.Size (Size : L → Int) (set : Set T L) : Int := Size set.ordering

/-- The set built by adding 2, 1 and 3 in this order under `compareInt`, with a plain list
for the ordering; used for the worked instances. -/
def sampleLinkedSet : Set Int (List Int) :=
  { table := { tree := { root := .mk 2 () .black (.mk 1 () .red .nil .nil)
                                   (.mk 3 () .red .nil .nil),
                         size := 3, comparator := compareInt } },
    ordering := [2, 1, 3] }

end linkedhashset

namespace rbtree

variable {K V : Type}

/-- The sorted association list of spec terms: `(k, v)` inserted at its sorted position, or
put in the place of the pair whose key compares equal to `k`. -/
def assocInsert (cmp : K → K → Int) (k : K) (v : V) : List (K × V) → List (K × V)
  | [] => [(k, v)]
  | (k', v') :: rest =>
    if cmp k k' < 0 then (k, v) :: (k', v') :: rest
    else if cmp k k' = 0 then (k, v) :: rest
    else (k', v') :: assocInsert cmp k v rest

/-- The sorted association list of spec terms: the pair whose key compares equal to `k`
deleted, the list as it is when there is none. -/
def assocErase (cmp : K → K → Int) (k : K) : List (K × V) → List (K × V)
  | [] => []
  | (k', v') :: rest =>
    if cmp k k' = 0 then rest else (k', v') :: assocErase cmp k rest

/-- Spec side of the refinement: `abs(t)`, the in-order list of (key, value) pairs. -/
def Tree.abs (t : Tree K V) : List (K × V) := t.root.toList

/-! ## The pointer structure

`rotateLeft`, `rotateRight` and `replaceNode` as they assign the `Left`, `Right` and `Parent`
fields, over a memory of nodes at addresses. -/

/-- Modelled from the spec: the node struct is declared in node.go, not among the sources;
the fields are those redblacktree.go reads and assigns (`Key`, `Value`, `color`, `Left`,
`Right`, `Parent`), and a pointer is nil (`none`) or the address of a node. -/
structure Cell (K V : Type) where
  Key : K
  Value : V
  color : color
  Left : Option Nat
  Right : Option Nat
  Parent : Option Nat

/-- The memory: the nodes at their addresses, and the `root` field of the tree. -/
structure Heap (K V : Type) where
  cells : Nat → Option (Cell K V)
  root : Option Nat

/-- An assignment to the fields of the node at an address. -/
def Heap.set (h : Heap K V) (a : Nat) (c : Cell K V) : Heap K V :=
  { h with cells := fun b => if b = a then some c else h.cells b }

/-- Go: `t.replaceNode(old, new)` on the memory; `none` is a nil dereference. -/
def replaceNodeH (h : Heap K V) (old : Nat) (new : Option Nat) : Option (Heap K V) := do
  let o ← h.cells old
  let h ←
    match o.Parent with
    | none => some { h with root := new }
    | some p => do
      let pc ← h.cells p
      if pc.Left = some old then some (h.set p { pc with Left := new })
      else some (h.set p { pc with Right := new })
  match new with
  | none => some h
  | some n => do
    let nc ← h.cells n
    let o ← h.cells old
    some (h.set n { nc with Parent := o.Parent })

/-- Go: `t.rotateLeft(node)` on the memory; `none` is a nil dereference. -/
def rotateLeftH (h : Heap K V) (node : Nat) : Option (Heap K V) := do
  let nc ← h.cells node
  let right := nc.Right
  let h ← replaceNodeH h node right
  let r ← right
  let rc ← h.cells r
  let nc ← h.cells node
  let h := h.set node { nc with Right := rc.Left }
  let rc ← h.cells r
  let h ←
    match rc.Left with
    | none => some h
    | some rl => do
      let rlc ← h.cells rl
      some (h.set rl { rlc with Parent := some node })
  let rc ← h.cells r
  let h := h.set r { rc with Left := some node }
  let nc ← h.cells node
  some (h.set node { nc with Parent := some r })

/-- Go: `t.rotateRight(node)` on the memory; `none` is a nil dereference. -/
def rotateRightH (h : Heap K V) (node : Nat) : Option (Heap K V) := do
  let nc ← h.cells node
  let left := nc.Left
  let h ← replaceNodeH h node left
  let l ← left
  let lc ← h.cells l
  let nc ← h.cells node
  let h := h.set node { nc with Left := lc.Right }
  let lc ← h.cells l
  let h ←
    match lc.Right with
    | none => some h
    | some lr => do
      let lrc ← h.cells lr
      some (h.set lr { lrc with Parent := some node })
  let lc ← h.cells l
  let h := h.set l { lc with Right := some node }
  let nc ← h.cells node
  some (h.set node { nc with Parent := some l })

/-- A tree with the address of each node. -/
inductive PNode (K V : Type) where
  | nil
  | mk (addr : Nat) (Key : K) (Value : V) (color : color) (Left Right : PNode K V)

/-- The pointer to the top node of an addressed tree. -/
def PNode.ptr : PNode K V → Option Nat
  | .nil => none
  | .mk a _ _ _ _ _ => some a

/-- The addresses of the nodes of an addressed tree. -/
def PNode.addrs : PNode K V → List Nat
  | .nil => []
  | .mk a _ _ _ l r => a :: (l.addrs ++ r.addrs)

/-- The tree without the addresses. -/
def PNode.erase : PNode K V → Node K V
  | .nil => .nil
  | .mk _ k v c l r => .mk k v c l.erase r.erase

/-- The colour of each node, by address. -/
def PNode.colors : PNode K V → List (Nat × color)
  | .nil => []
  | .mk a _ _ c l r => (a, c) :: (l.colors ++ r.colors)

/-- The memory holds the addressed tree `t` under a node at `parent`: every node of `t` is
at its address with its key, value and colour, its `Left` and `Right` point to its subtrees
and its `Parent` points back to the node above. -/
def Linked (cells : Nat → Option (Cell K V)) (parent : Option Nat) : PNode K V → Prop
  | .nil => True
  | .mk a k v c l r =>
    cells a = some ⟨k, v, c, l.ptr, r.ptr, parent⟩ ∧
      Linked cells (some a) l ∧ Linked cells (some a) r

/-- Consistent parent links: the memory holds an addressed tree under `root`, no address
standing for two nodes. -/
def Consistent (h : Heap K V) (t : PNode K V) : Prop :=
  h.root = t.ptr ∧ Linked h.cells none t ∧ t.addrs.Nodup

/-- An ancestor on the way up from a node of an addressed tree, as `Frame`. -/
structure PFrame (K V : Type) where
  dir : Dir
  addr : Nat
  Key : K
  Value : V
  color : color
  other : PNode K V

/-- The addressed subtree rooted at the ancestor, given the subtree below it. -/
def PFrame.plug (f : PFrame K V) (n : PNode K V) : PNode K V :=
  match f.dir with
  | .left => .mk f.addr f.Key f.Value f.color n f.other
  | .right => .mk f.addr f.Key f.Value f.color f.other n

/-- The whole addressed tree around a subtree. -/
def zipP : List (PFrame K V) → PNode K V → PNode K V
  | [], n => n
  | f :: rest, n => zipP rest (f.plug n)

/-- The ancestors without the addresses. -/
def PFrame.erase (f : PFrame K V) : Frame K V :=
  ⟨f.dir, f.Key, f.Value, f.color, f.other.erase⟩

/-- The memory of the tree `Put(2,20); Put(1,10); Put(3,30); Put(4,40)`, the nodes at the
addresses 0 to 3 in the order of insertion; used for the worked instances. -/
def sampleHeap : Heap Int Int :=
  { cells := fun a =>
      if a = 0 then some ⟨2, 20, .black, some 1, some 2, none⟩
      else if a = 1 then some ⟨1, 10, .black, none, none, some 0⟩
      else if a = 2 then some ⟨3, 30, .black, none, some 3, some 0⟩
      else if a = 3 then some ⟨4, 40, .red, none, none, some 2⟩
      else none,
    root := some 0 }

/-- The addressed tree held by `sampleHeap`. -/
def samplePNode : PNode Int Int :=
  .mk 0 2 20 .black (.mk 1 1 10 .black .nil .nil)
    (.mk 2 3 30 .black .nil (.mk 3 4 40 .red .nil .nil))

/-- The pointer to the nearest ancestor, nil at the top. -/
def parentPtr : List (PFrame K V) → Option Nat
  | [] => none
  | f :: _ => some f.addr

/-- The addresses of the ancestors and of the subtrees hanging off them. -/
def pathAddrs : List (PFrame K V) → List Nat
  | [] => []
  | f :: rest => f.addr :: (f.other.addrs ++ pathAddrs rest)

/-- The memory holds the ancestors of a node: each ancestor is at its address, points with
the slot of its direction to what is below it (`hole`), with the other slot to its other
subtree, which the memory holds, and with `Parent` to the next ancestor. -/
def LinkedPath (cells : Nat → Option (Cell K V)) : List (PFrame K V) → Option Nat → Prop
  | [], _ => True
  | f :: rest, hole =>
    cells f.addr = some
      (match f.dir with
        | .left => ⟨f.Key, f.Value, f.color, hole, f.other.ptr, parentPtr rest⟩
        | .right => ⟨f.Key, f.Value, f.color, f.other.ptr, hole, parentPtr rest⟩) ∧
      Linked cells (some f.addr) f.other ∧ LinkedPath cells rest (some f.addr)

/-- The tree built by `Put(2,20); Put(1,10); Put(4,40); Put(3,30); Put(5,50)` under
`compareInt`: a black root 2 over the black leaf 1 and the black node 4 with red children;
used for the worked instances. -/
def rotationTree : Tree Int Int :=
  { root := .mk 2 20 .black (.mk 1 10 .black .nil .nil)
      (.mk 4 40 .black (.mk 3 30 .red .nil .nil) (.mk 5 50 .red .nil .nil)),
    size := 5, comparator := compareInt }

/-! ## Evaluation rules and basic facts -/

@[simp] theorem nodeColor_nil : nodeColor (Node.nil : Node K V) = .black := rfl

@[simp] theorem nodeColor_mk (k : K) (v : V) (c : color) (l r : Node K V) :
    nodeColor (.mk k v c l r) = c := rfl

@[simp] theorem isNil_nil : (Node.nil : Node K V).isNil = true := rfl

@[simp] theorem isNil_mk (k : K) (v : V) (c : color) (l r : Node K V) :
    (Node.mk k v c l r).isNil = false := rfl

attribute [simp] Node.setColor Node.setLeftColor Node.setRightColor
  Node.getLeft Node.getRight Frame.plug zip Cursor.root Cursor.Parent Cursor.Left Cursor.Right
  Cursor.parentColor Cursor.grandparent Cursor.sibling Cursor.siblingCursor Cursor.uncle
  Cursor.setColor Cursor.setParentColor Cursor.setGrandparentColor Cursor.setUncleColor
  Cursor.setSiblingColor Cursor.setSiblingLeftColor Cursor.setSiblingRightColor
  Cursor.isLeftChild Cursor.isRightChild Cursor.parentIsLeftChild Cursor.parentIsRightChild
  andAlso Node.leftColorIs Node.rightColorIs replaceNode rotateLeft rotateRight
  Node.count bh Bal RR PathBal PathRR rootColor before after Node.toList

theorem PathRR_black {path : List (Frame K V)} {c : color} (h : PathRR path c) :
    PathRR path .black := by
  cases path with
  | nil => trivial
  | cons f rest =>
    obtain ⟨h1, h2, h3⟩ := h
    exact ⟨h1, fun hf => ⟨rfl, (h2 hf).2⟩, h3⟩

theorem black_of_bh {n : Node K V} {h : Nat} (hb : bh n = h + 1) (hc : nodeColor n = .black) :
    ∃ k v l r, n = .mk k v .black l r := by
  cases n with
  | nil => simp at hb
  | mk k v c l r => simp at hc; subst hc; exact ⟨k, v, l, r, rfl⟩

theorem color_cases (c : color) : c = .black ∨ c = .red := by
  cases c <;> simp

theorem red_shape {n : Node K V} (hc : nodeColor n = .red) :
    ∃ k v l r, n = .mk k v .red l r := by
  cases n with
  | nil => simp at hc
  | mk k v c l r => simp at hc; subst hc; exact ⟨k, v, l, r, rfl⟩

@[simp] theorem toList_zip (path : List (Frame K V)) (n : Node K V) :
    (zip path n).toList = before path ++ n.toList ++ after path := by
  induction path generalizing n with
  | nil => simp
  | cons f rest ih =>
    obtain ⟨d, k, v, c, o⟩ := f
    cases d <;> simp [ih]

@[simp] theorem nodeColor_zip (path : List (Frame K V)) (n : Node K V) :
    nodeColor (zip path n) = rootColor path (nodeColor n) := by
  induction path generalizing n with
  | nil => simp
  | cons f rest ih =>
    obtain ⟨d, k, v, c, o⟩ := f
    cases d <;> simp [ih]

theorem Bal_zip (path : List (Frame K V)) (n : Node K V) :
    Bal (zip path n) ↔ Bal n ∧ PathBal path (bh n) := by
  induction path generalizing n with
  | nil => simp
  | cons f rest ih =>
    obtain ⟨d, k, v, c, o⟩ := f
    cases d <;> simp [ih]
    · constructor
      · rintro ⟨⟨h1, h2, h3⟩, h4⟩
        exact ⟨h1, h2, h3.symm, h4⟩
      · rintro ⟨h1, h2, h3, h4⟩
        exact ⟨⟨h1, h2, h3.symm⟩, h4⟩
    · constructor
      · rintro ⟨⟨h1, h2, h3⟩, h4⟩
        exact ⟨h2, h1, h3, h3 ▸ h4⟩
      · rintro ⟨h1, h2, h3, h4⟩
        exact ⟨⟨h2, h1, h3⟩, h3 ▸ h4⟩

theorem RR_zip (path : List (Frame K V)) (n : Node K V) :
    RR (zip path n) ↔ RR n ∧ PathRR path (nodeColor n) := by
  induction path generalizing n with
  | nil => simp
  | cons f rest ih =>
    obtain ⟨d, k, v, c, o⟩ := f
    cases d <;> simp [ih] <;> tauto

theorem PathBal_congr {path : List (Frame K V)} {a b : Nat} (h : PathBal path a)
    (hab : a = b) : PathBal path b := hab ▸ h

/-! ## The deletion ladder restores the colour invariants -/

theorem rootColor_black {path : List (Frame K V)} {c : color}
    (h : rootColor path c = .black) : rootColor path .black = .black := by
  cases path with
  | nil => rfl
  | cons f rest => exact h

set_option maxHeartbeats 4000000 in
theorem deleteCase3_spec (rec : Cursor K V → Option (Cursor K V)) (n : Node K V)
    (d : Dir) (pk : K) (pv : V) (pc : color) (S : Node K V) (rest : List (Frame K V)) (h : Nat)
    (hrec : pc = .black → ∀ m : Node K V, ∃ path', rec ⟨m, rest⟩ = some ⟨m, path'⟩ ∧
      DeleteDone rest path' (h + 1))
    (hS : nodeColor S = .black)
    (hpb : PathBal (⟨d, pk, pv, pc, S⟩ :: rest) (h + 1))
    (hprr : PathRR (⟨d, pk, pv, pc, S⟩ :: rest) .black)
    (hroot : rootColor (⟨d, pk, pv, pc, S⟩ :: rest) .black = .black) :
    ∃ path', deleteCase3 rec ⟨n, ⟨d, pk, pv, pc, S⟩ :: rest⟩ = some ⟨n, path'⟩ ∧
      DeleteDone (⟨d, pk, pv, pc, S⟩ :: rest) path' h := by
  obtain ⟨sk, sv, sl, sr, rfl⟩ := black_of_bh hpb.2.1 hS
  have hrest : PathRR rest .black := PathRR_black hprr.2.2
  have hroot2 : rootColor rest .black = .black := rootColor_black hroot
  rcases color_cases (nodeColor sl) with hsl | hsl <;>
  rcases color_cases (nodeColor sr) with hsr | hsr
  · -- both nephews black
    cases pc
    · obtain ⟨path', he, hd⟩ := hrec rfl (Frame.plug ⟨d, pk, pv, .black, .mk sk sv .red sl sr⟩ n)
      have hd2 := PathRR_black hd.2.1
      cases d <;> simp [deleteCase3, hsl, hsr] at he ⊢ <;>
        simp [he, DeleteDone] at hd ⊢ <;> simp_all <;> omega
    · cases d <;> simp [deleteCase3, deleteCase4, hsl, hsr, DeleteDone] <;> simp_all <;> omega
  · obtain ⟨rk, rv, rl, rr, rfl⟩ := red_shape hsr
    cases d <;> cases pc <;>
      simp [deleteCase3, hsl] <;> simp [deleteCase4, hsl] <;> simp [deleteCase5, hsl] <;>
      simp [deleteCase6, hsl] <;> simp [DeleteDone] <;> simp_all <;> omega
  · obtain ⟨lk, lv, ll, lr, rfl⟩ := red_shape hsl
    cases d <;> cases pc <;>
      simp [deleteCase3, hsr] <;> simp [deleteCase4, hsr] <;> simp [deleteCase5, hsr] <;>
      simp [deleteCase6, hsr] <;> simp [DeleteDone] <;> simp_all <;> omega
  · obtain ⟨rk, rv, rl, rr, rfl⟩ := red_shape hsr
    obtain ⟨lk, lv, ll, lr, rfl⟩ := red_shape hsl
    cases d <;> cases pc <;>
      simp [deleteCase3] <;> simp [deleteCase4] <;> simp [deleteCase5] <;>
      simp [deleteCase6] <;> simp [DeleteDone] <;> simp_all <;> omega

theorem deleteCase1_spec : ∀ (fuel : Nat) (n : Node K V) (path : List (Frame K V)) (h : Nat),
    path.length < fuel → PathBal path (h + 1) → PathRR path .black →
    rootColor path .black = .black →
    ∃ path', deleteCase1 fuel ⟨n, path⟩ = some ⟨n, path'⟩ ∧ DeleteDone path path' h := by
  intro fuel
  induction fuel with
  | zero => intro n path h hlen; simp at hlen
  | succ fuel ih =>
    intro n path h hlen hpb hprr hroot
    cases path with
    | nil => simp [deleteCase1, DeleteDone]
    | cons f rest =>
      obtain ⟨d, pk, pv, pc, S⟩ := f
      simp only [List.length_cons, Nat.succ_lt_succ_iff, Nat.add_lt_add_iff_right] at hlen
      have hrest : PathRR rest .black := PathRR_black hprr.2.2
      have hroot2 : rootColor rest .black = .black := rootColor_black hroot
      rcases color_cases (nodeColor S) with hS | hS
      · have key := deleteCase3_spec (deleteCase1 fuel) n d pk pv pc S rest h
          (fun hpc m => ih m rest (h + 1) hlen (by have := hpb.2.2; simpa [hpc] using this)
            hrest hroot2) hS hpb hprr hroot
        simpa [deleteCase1, deleteCase2, hS] using key
      · obtain ⟨sk, sv, sl, sr, rfl⟩ := red_shape hS
        have hpc : pc = .black := by
          have := hprr.2.1
          cases pc
          · rfl
          · simp at this
        subst hpc
        cases d
        · have key := deleteCase3_spec (deleteCase1 fuel) n .left pk pv .red sl
            (⟨.left, sk, sv, .black, sr⟩ :: rest) h (fun hpc => by simp at hpc)
            (by simp_all) (by simp_all; omega) (by simp_all) (by simp_all)
          simp [deleteCase1, deleteCase2]
          simpa [DeleteDone] using key
        · have key := deleteCase3_spec (deleteCase1 fuel) n .right pk pv .red sr
            (⟨.right, sk, sv, .black, sl⟩ :: rest) h (fun hpc => by simp at hpc)
            (by simp_all) (by simp_all; omega) (by simp_all) (by simp_all)
          simp [deleteCase1, deleteCase2]
          simpa [DeleteDone] using key


/-! ## The insertion ladder restores the colour invariants -/

set_option maxHeartbeats 4000000 in
theorem insertCase1_spec : ∀ (fuel : Nat) (k : K) (v : V) (l r : Node K V)
    (path : List (Frame K V)),
    path.length < fuel → Bal l → Bal r → bh l = bh r → RR l → RR r →
    nodeColor l = .black → nodeColor r = .black →
    PathBal path (bh l) → PathRR path .black → rootColor path .black = .black →
    ∃ done, insertCase1 fuel ⟨.mk k v .red l r, path⟩ = some done ∧
      InsertDone ⟨.mk k v .red l r, path⟩ done := by
  intro fuel
  induction fuel with
  | zero => intro k v l r path hlen; simp at hlen
  | succ fuel ih =>
    intro k v l r path hlen hbl hbr hbh hrl hrr hcl hcr hpb hprr hroot
    cases path with
    | nil => simp [insertCase1, InsertDone]; simp_all
    | cons f rest =>
      obtain ⟨d, pk, pv, pc, S⟩ := f
      cases pc
      · -- black parent
        simp [insertCase1, insertCase2, InsertDone, Bal_zip, RR_zip]
        cases d <;> simp_all
      · cases rest with
        | nil => simp at hroot
        | cons g rest =>
          obtain ⟨gd, gk, gv, gc, U⟩ := g
          have hgc : gc = .black := by
            have := hprr.2.2.2.1
            cases gc
            · rfl
            · simp at this
          subst hgc
          simp only [List.length_cons] at hlen
          have hrest : PathRR rest .black := hprr.2.2.2.2
          rcases color_cases (nodeColor U) with hU | hU
          · cases d <;> cases gd <;>
              simp [insertCase1, insertCase2, insertCase3, hU] <;>
              simp [insertCase4] <;> simp [insertCase5] <;>
              simp [InsertDone, Bal_zip, RR_zip] <;> (clear ih; simp_all; try omega)
          · obtain ⟨uk, uv, ul, ur, rfl⟩ := red_shape hU
            cases d <;> cases gd
            · obtain ⟨done, he, hd⟩ := ih gk gv (.mk pk pv .black (.mk k v .red l r) S)
                (.mk uk uv .black ul ur) rest (by omega) (by clear ih; simp_all; try omega)
                (by clear ih; simp_all; try omega) (by clear ih; simp_all; try omega)
                (by clear ih; simp_all; try omega) (by clear ih; simp_all; try omega)
                (by simp) (by simp)
                (by clear ih; simp at hpb ⊢; exact PathBal_congr hpb.2.2.2.2 (by omega)) hrest
                (by clear ih; simp_all; try omega)
              simp [insertCase1, insertCase2, insertCase3, he]
              simp [InsertDone] at hd ⊢
              clear ih; simp_all
            · obtain ⟨done, he, hd⟩ := ih gk gv (.mk uk uv .black ul ur)
                (.mk pk pv .black (.mk k v .red l r) S) rest (by omega)
                (by clear ih; simp_all; try omega)
                (by clear ih; simp_all; try omega) (by clear ih; simp_all; try omega)
                (by clear ih; simp_all; try omega) (by clear ih; simp_all; try omega)
                (by simp) (by simp)
                (by clear ih; simp at hpb ⊢; exact PathBal_congr hpb.2.2.2.2 (by omega)) hrest
                (by clear ih; simp_all; try omega)
              simp [insertCase1, insertCase2, insertCase3, he]
              simp [InsertDone] at hd ⊢
              clear ih; simp_all
            · obtain ⟨done, he, hd⟩ := ih gk gv (.mk pk pv .black S (.mk k v .red l r))
                (.mk uk uv .black ul ur) rest (by omega) (by clear ih; simp_all; try omega)
                (by clear ih; simp_all; try omega) (by clear ih; simp_all; try omega)
                (by clear ih; simp_all; try omega) (by clear ih; simp_all; try omega)
                (by simp) (by simp)
                (by clear ih; simp at hpb ⊢; exact PathBal_congr hpb.2.2.2.2 (by omega)) hrest
                (by clear ih; simp_all; try omega)
              simp [insertCase1, insertCase2, insertCase3, he]
              simp [InsertDone] at hd ⊢
              clear ih; simp_all
            · obtain ⟨done, he, hd⟩ := ih gk gv (.mk uk uv .black ul ur)
                (.mk pk pv .black S (.mk k v .red l r)) rest (by omega)
                (by clear ih; simp_all; try omega)
                (by clear ih; simp_all; try omega) (by clear ih; simp_all; try omega)
                (by clear ih; simp_all; try omega) (by clear ih; simp_all; try omega)
                (by simp) (by simp)
                (by clear ih; simp at hpb ⊢; exact PathBal_congr hpb.2.2.2.2 (by omega)) hrest
                (by clear ih; simp_all; try omega)
              simp [insertCase1, insertCase2, insertCase3, he]
              simp [InsertDone] at hd ⊢
              clear ih; simp_all

/-! ## Facts about the descent -/

theorem lookupLoop_eq (cmp : K → K → Int) (key : K) (n : Node K V) (path : List (Frame K V)) :
    lookupLoop cmp key n path =
      if (descend cmp key n path).node.isNil then none else some (descend cmp key n path) := by
  induction n generalizing path with
  | nil => simp [lookupLoop, descend]
  | mk k v c l r ihl ihr =>
    simp only [lookupLoop, descend]
    split
    · simp
    · split
      · exact ihl _
      · exact ihr _

theorem putLoop_eq (cmp : K → K → Int) (key : K) (value : V) (n : Node K V)
    (path : List (Frame K V)) (hn : n.isNil = false) :
    putLoop cmp key value n path =
      some (match descend cmp key n path with
        | ⟨.nil, p⟩ => .inserted ⟨.mk key value .red .nil .nil, p⟩
        | ⟨.mk _ _ c' l' r', p⟩ => .returned ⟨.mk key value c' l' r', p⟩) := by
  induction n generalizing path with
  | nil => simp at hn
  | mk k v c l r ihl ihr =>
    simp only [putLoop, descend]
    split
    · rfl
    · split
      · cases l with
        | nil => simp [descend]
        | mk lk lv lc ll lr => simpa using ihl _ rfl
      · cases r with
        | nil => simp [descend]
        | mk rk rv rc rl rr => simpa using ihr _ rfl

theorem descend_zip (cmp : K → K → Int) (key : K) (n : Node K V) (path : List (Frame K V)) :
    zip (descend cmp key n path).path (descend cmp key n path).node = zip path n := by
  induction n generalizing path with
  | nil => simp [descend]
  | mk k v c l r ihl ihr =>
    simp only [descend]
    split
    · rfl
    · split
      · rw [ihl]; rfl
      · rw [ihr]; rfl

theorem descend_brackets (cmp : K → K → Int) (key : K) (n : Node K V)
    (path : List (Frame K V)) (hb : Brackets cmp key path) :
    Brackets cmp key (descend cmp key n path).path := by
  induction n generalizing path with
  | nil => simpa [descend] using hb
  | mk k v c l r ihl ihr =>
    simp only [descend]
    split
    · exact hb
    · split
      · apply ihl
        intro f hf
        rcases List.mem_cons.1 hf with rfl | hf
        · assumption
        · exact hb f hf
      · apply ihr
        intro f hf
        rcases List.mem_cons.1 hf with rfl | hf
        · show 0 < cmp key k
          omega
        · exact hb f hf

theorem descend_found (cmp : K → K → Int) (key : K) (n : Node K V) (path : List (Frame K V))
    (k : K) (v : V) (c : color) (l r : Node K V)
    (h : (descend cmp key n path).node = .mk k v c l r) : cmp key k = 0 := by
  induction n generalizing path with
  | nil => simp [descend] at h
  | mk k0 v0 c0 l0 r0 ihl ihr =>
    simp only [descend] at h
    split at h
    · simp at h; obtain ⟨rfl, -⟩ := h; assumption
    · split at h
      · exact ihl _ h
      · exact ihr _ h

/-! ## Order facts -/

theorem StrictTotalOrder.eq_of_zero {cmp : K → K → Int} (hc : StrictTotalOrder cmp) {a b : K}
    (h : cmp a b = 0) : a = b := by
  by_contra hne
  rcases hc.total a b hne with h1 | h1
  · omega
  · have := (hc.swap a b).2 h1
    omega

theorem StrictTotalOrder.zero_of_eq {cmp : K → K → Int} (hc : StrictTotalOrder cmp) (a : K) :
    cmp a a = 0 := by
  have h1 := hc.irrefl a
  have h2 := hc.swap a a
  by_contra h
  rcases Int.lt_or_gt_of_ne h with h3 | h3
  · exact h1 h3
  · exact h1 (h2.1 h3)

theorem count_eq_length (n : Node K V) : n.count = n.toList.length := by
  induction n with
  | nil => rfl
  | mk k v c l r ihl ihr => simp [ihl, ihr]; omega

theorem Ordered_of_zip {cmp : K → K → Int} {path : List (Frame K V)} {n : Node K V}
    (h : Ordered cmp (zip path n).toList) : Ordered cmp n.toList := by
  unfold Ordered at h ⊢
  rw [toList_zip] at h
  exact (List.pairwise_append.1 (List.pairwise_append.1 h).1).2.1

theorem brackets_bounds {cmp : K → K → Int} (hc : StrictTotalOrder cmp) {key : K}
    (path : List (Frame K V)) (n : Node K V) (hb : Brackets cmp key path)
    (ho : Ordered cmp (zip path n).toList) :
    (∀ e ∈ before path, cmp e.1 key < 0) ∧ (∀ e ∈ after path, cmp key e.1 < 0) := by
  induction path generalizing n with
  | nil => simp
  | cons f rest ih =>
    have hf := hb f (List.mem_cons_self _ _)
    have ih := ih (f.plug n) (fun g hg => hb g (List.mem_cons_of_mem _ hg)) ho
    have ho2 : Ordered cmp (f.plug n).toList := @Ordered_of_zip K V cmp rest (f.plug n) ho
    obtain ⟨d, fk, fv, fc, o⟩ := f
    cases d
    · simp only [Frame.plug, Node.toList, Ordered, List.pairwise_append,
        List.pairwise_cons] at ho2
      simp only [before, after]
      refine ⟨ih.1, ?_⟩
      intro e he
      simp only [List.mem_cons, List.mem_append] at he
      rcases he with rfl | he | he
      · exact hf
      · exact hc.trans _ _ _ hf (ho2.2.1.1 e he)
      · exact ih.2 e he
    · simp only [Frame.plug, Node.toList, Ordered, List.pairwise_append,
        List.pairwise_cons] at ho2
      simp only [before, after]
      refine ⟨?_, ih.2⟩
      have hf2 : cmp fk key < 0 := (hc.swap _ _).1 hf
      intro e he
      simp only [List.mem_cons, List.mem_append, List.mem_singleton, List.not_mem_nil,
        or_false] at he
      rcases he with he | he | rfl
      · exact ih.1 e he
      · exact hc.trans _ _ _ (ho2.2.2 e he (fk, fv) (List.mem_cons_self _ _)) hf2
      · exact hf2

/-! ## Put keeps the invariants -/

theorem Ordered_insert {cmp : K → K → Int} {xs ys : List (K × V)} {key : K} (value : V)
    (h : Ordered cmp (xs ++ ys)) (hx : ∀ e ∈ xs, cmp e.1 key < 0)
    (hy : ∀ e ∈ ys, cmp key e.1 < 0) : Ordered cmp (xs ++ (key, value) :: ys) := by
  unfold Ordered at h ⊢
  rw [List.pairwise_append] at h ⊢
  refine ⟨h.1, List.pairwise_cons.2 ⟨hy, h.2.1⟩, ?_⟩
  intro a ha b hb
  rcases List.mem_cons.1 hb with rfl | hb
  · exact hx a ha
  · exact h.2.2 a ha b hb

theorem Ordered_replace {cmp : K → K → Int} {xs ys : List (K × V)} {key : K} (v0 value : V)
    (h : Ordered cmp (xs ++ (key, v0) :: ys)) : Ordered cmp (xs ++ (key, value) :: ys) := by
  unfold Ordered at h ⊢
  simp only [List.pairwise_append, List.pairwise_cons, List.mem_cons] at h ⊢
  refine ⟨h.1, ⟨h.2.1.1, h.2.1.2⟩, ?_⟩
  intro a ha b hb
  rcases hb with rfl | hb
  · exact h.2.2 a ha (key, v0) (Or.inl rfl)
  · exact h.2.2 a ha b (Or.inr hb)

theorem Put_spec {cmp : K → K → Int} (hc : StrictTotalOrder cmp) (t : Tree K V)
    (hi : Inv cmp t) (key : K) (value : V) :
    ∃ t', t.Put key value = some t' ∧ Inv cmp t' ∧
      ∃ xs ys, t'.root.toList = xs ++ (key, value) :: ys ∧
        ((t.root.toList = xs ++ ys ∧ t'.size = t.size + 1) ∨
         (∃ v0, t.root.toList = xs ++ (key, v0) :: ys ∧ t'.size = t.size)) := by
  obtain ⟨root, size, comparator⟩ := t
  obtain ⟨hcmp, hord, hbal, hrr, hblack, hsize⟩ := hi
  simp only at hcmp hord hbal hrr hblack hsize
  subst hcmp
  cases root with
  | nil =>
    obtain ⟨done, he, hd1, hd2, hd3, hd4⟩ := insertCase1_spec 1 key value .nil .nil []
      (by simp) trivial trivial rfl trivial trivial rfl rfl trivial trivial rfl
    have hput : Tree.Put ⟨.nil, size, comparator⟩ key value
        = some ⟨done.root, size + 1, comparator⟩ := by
      simp [Tree.Put, he]
    generalize done.root = droot at hd1 hd2 hd3 hd4 hput
    simp at hd4
    refine ⟨_, hput, ⟨rfl, ?_, hd1, hd2, hd3, ?_⟩, [], [], ?_⟩
    · simp [hd4, Ordered]
    · simp [count_eq_length, hd4, hsize]
    · simp [hd4]
  | mk k v c l r =>
    have hz := descend_zip comparator key (.mk k v c l r) []
    have hb := descend_brackets comparator key (.mk k v c l r) []
      (by intro f hf; cases hf)
    have hf := descend_found comparator key (.mk k v c l r) []
    generalize hdesc : descend comparator key (.mk k v c l r) [] = d at hz hb hf
    obtain ⟨dn, dp⟩ := d
    simp only [zip] at hz hb hf
    have hord2 := hord
    rw [← hz] at hord2 hbal hrr hblack
    have hbounds := brackets_bounds hc dp dn hb hord2
    simp only [Bal_zip, RR_zip, nodeColor_zip] at hbal hrr hblack
    have hlist : (Node.mk k v c l r).toList = before dp ++ dn.toList ++ after dp := by
      rw [← hz, toList_zip]
    rw [toList_zip] at hord2
    simp only [count_eq_length, hlist] at hsize
    cases dn with
    | nil =>
      obtain ⟨done, he, hd1, hd2, hd3, hd4⟩ := insertCase1_spec (dp.length + 1) key value
        .nil .nil dp (by simp) trivial trivial rfl trivial trivial rfl rfl hbal.2 hrr.2 hblack
      have hput : Tree.Put ⟨.mk k v c l r, size, comparator⟩ key value
          = some ⟨done.root, size + 1, comparator⟩ := by
        simp [Tree.Put, putLoop_eq, hdesc, he]
      generalize done.root = droot at hd1 hd2 hd3 hd4 hput
      simp at hd4
      refine ⟨_, hput, ⟨rfl, ?_, hd1, hd2, hd3, ?_⟩, before dp, after dp, ?_⟩
      · simp only [hd4]
        apply Ordered_insert value _ hbounds.1 hbounds.2
        simpa using hord2
      · simp [count_eq_length, hd4, hsize]; omega
      · exact ⟨hd4, Or.inl ⟨by rw [hlist]; simp, rfl⟩⟩
    | mk k0 v0 c0 l0 r0 =>
      have hk := hc.eq_of_zero (hf k0 v0 c0 l0 r0 rfl)
      subst hk
      have hput : Tree.Put ⟨.mk k v c l r, size, comparator⟩ key value
          = some ⟨zip dp (.mk key value c0 l0 r0), size, comparator⟩ := by
        simp [Tree.Put, putLoop_eq, hdesc]
      refine ⟨_, hput, ⟨rfl, ?_, ?_, ?_, ?_, ?_⟩, before dp ++ l0.toList,
        r0.toList ++ after dp, ?_⟩
      · simp only [toList_zip, Node.toList, List.append_assoc, List.cons_append] at hord2 ⊢
        rw [← List.append_assoc] at hord2 ⊢
        exact Ordered_replace v0 value hord2
      · simpa [Bal_zip] using hbal
      · simpa [RR_zip] using hrr
      · simpa using hblack
      · simp [count_eq_length, hsize]
      · exact ⟨by simp, Or.inr ⟨v0, by rw [hlist]; simp, rfl⟩⟩

/-! ## Remove keeps the invariants -/

theorem Remove_eq (t : Tree K V) (key : K) :
    t.Remove key =
      (match t.lookup key with
      | none => some (t, false)
      | some node => do
        let node ←
          if (! (← node.node.getLeft).isNil) && (! (← node.node.getRight).isNil) then
            swapWithPredecessor node
          else
            some node
        removeTail t node) := rfl

theorem maximumNode_node (l : Node K V) (p q : List (Frame K V)) :
    (maximumNode l p).node = (maximumNode l q).node := by
  induction l generalizing p q with
  | nil => rfl
  | mk k v c l r _ ihr =>
    simp only [maximumNode]
    split
    · rfl
    · exact ihr _ _

theorem maximumNode_spec (l : Node K V) (hl : l.isNil = false) (p : List (Frame K V)) :
    ∃ pk pv pc pl p', maximumNode l p = ⟨.mk pk pv pc pl .nil, p'⟩ ∧
      zip p' (.mk pk pv pc pl .nil) = zip p l ∧ after p' = after p ∧
      before p' ++ pl.toList ++ [(pk, pv)] = before p ++ l.toList := by
  induction l generalizing p with
  | nil => simp at hl
  | mk k v c l r _ ihr =>
    cases r with
    | nil => exact ⟨k, v, c, l, p, by simp [maximumNode], rfl, rfl, by simp⟩
    | mk rk rv rc rl rr =>
      obtain ⟨pk, pv, pc, pl, p', h1, h2, h3, h4⟩ := ihr rfl (⟨.right, k, v, c, l⟩ :: p)
      refine ⟨pk, pv, pc, pl, p', by simpa [maximumNode] using h1, by simpa using h2,
        by simpa using h3, by simpa using h4⟩

theorem nil_of_bh_zero {n : Node K V} (hb : bh n = 0) (hc : nodeColor n = .black) :
    n = .nil := by
  cases n with
  | nil => rfl
  | mk k v c l r => simp at hc; subst hc; simp at hb

theorem PathRR_of_red {path : List (Frame K V)} (h : PathRR path .red) (c : color) :
    PathRR path c := by
  cases path with
  | nil => trivial
  | cons f rest =>
    obtain ⟨h1, h2, h3⟩ := h
    refine ⟨h1, fun hf => ?_, h3⟩
    have := (h2 hf).1
    simp at this

theorem rootColor_cons_any (f : Frame K V) (rest : List (Frame K V)) (c c' : color) :
    rootColor (f :: rest) c = rootColor (f :: rest) c' := rfl

theorem removeTail_core (t : Tree K V) (k1 : K) (v1 : V) (c1 : color) (l1 r1 : Node K V)
    (p1 : List (Frame K V)) (child : Node K V)
    (hchild : (if r1.isNil then l1 else r1) = child)
    (hor : l1.isNil = true ∨ r1.isNil = true)
    (h0 : bh l1 = 0 ∧ bh r1 = 0)
    (hcb : Bal child) (hcr : RR child) (hch : bh child = 0)
    (hcl : child.toList = l1.toList ++ r1.toList)
    (hred : c1 = .red → nodeColor l1 = .black ∧ nodeColor r1 = .black)
    (hpb : PathBal p1 (bh l1 + if c1 = .black then 1 else 0))
    (hprr : PathRR p1 c1) (hblack : rootColor p1 c1 = .black) :
    ∃ root', removeTail t ⟨.mk k1 v1 c1 l1 r1, p1⟩
        = some ({ t with root := root', size := t.size - 1 }, true) ∧
      Bal root' ∧ RR root' ∧ nodeColor root' = .black ∧
      root'.toList = before p1 ++ (l1.toList ++ r1.toList) ++ after p1 := by
  cases c1
  · -- a black node: the ladder runs
    simp only [h0.1, if_true, Nat.zero_add] at hpb
    obtain ⟨p2, he, hd1, hd2, hd3, hd4, hd5⟩ := deleteCase1_spec (p1.length + 1)
      (.mk k1 v1 (nodeColor child) l1 r1) p1 0 (by simp) hpb hprr
      (by cases p1 <;> simp_all)
    cases p2 with
    | nil =>
      cases child with
      | nil =>
        simp only [nodeColor_nil] at he
        refine ⟨.nil, ?_, trivial, trivial, rfl, ?_⟩
        · simp [removeTail, hor, hchild, he]
        · simp [← hcl, ← hd4, ← hd5]
      | mk ck cv cc cl cr =>
        simp only [nodeColor_mk] at he
        refine ⟨.mk ck cv .black cl cr, ?_, ?_, ?_, rfl, ?_⟩
        · simp [removeTail, hor, hchild, he]
        · simpa using hcb
        · simp at hcr ⊢; exact ⟨hcr.1, hcr.2.1⟩
        · simp [← hcl, ← hd4, ← hd5]
    | cons f rest =>
      refine ⟨zip (f :: rest) child, ?_, ?_, ?_, ?_, ?_⟩
      · simp [removeTail, hor, hchild, he]
      · rw [Bal_zip, hch]; exact ⟨hcb, hd1⟩
      · rw [RR_zip]; exact ⟨hcr, PathRR_of_red hd2 _⟩
      · rw [nodeColor_zip]; exact hd3
      · rw [toList_zip, hd4, hd5, hcl]
  · -- a red node has no child at all
    have hl : l1 = .nil := nil_of_bh_zero h0.1 (hred rfl).1
    have hr : r1 = .nil := nil_of_bh_zero h0.2 (hred rfl).2
    subst hl hr
    refine ⟨zip p1 .nil, ?_, ?_, ?_, ?_, ?_⟩
    · simp [removeTail]
    · rw [Bal_zip]; exact ⟨trivial, by simpa using hpb⟩
    · rw [RR_zip]; exact ⟨trivial, PathRR_black hprr⟩
    · rw [nodeColor_zip]; cases p1 <;> simp_all
    · simp

theorem removeTail_spec (t : Tree K V) (k1 : K) (v1 : V) (c1 : color) (l1 r1 : Node K V)
    (p1 : List (Frame K V)) (hnil : l1 = .nil ∨ r1 = .nil)
    (hbal : Bal (zip p1 (.mk k1 v1 c1 l1 r1))) (hrr : RR (zip p1 (.mk k1 v1 c1 l1 r1)))
    (hblack : nodeColor (zip p1 (.mk k1 v1 c1 l1 r1)) = .black) :
    ∃ root', removeTail t ⟨.mk k1 v1 c1 l1 r1, p1⟩
        = some ({ t with root := root', size := t.size - 1 }, true) ∧
      Bal root' ∧ RR root' ∧ nodeColor root' = .black ∧
      root'.toList = before p1 ++ (l1.toList ++ r1.toList) ++ after p1 := by
  simp only [Bal_zip, RR_zip, nodeColor_zip, Bal, RR, bh, nodeColor_mk] at hbal hrr hblack
  obtain ⟨⟨hbl, hbr, hbh⟩, hpb⟩ := hbal
  obtain ⟨⟨hrl, hrr1, hred⟩, hprr⟩ := hrr
  rcases hnil with rfl | rfl
  · have h0 : bh (Node.nil : Node K V) = 0 ∧ bh r1 = 0 := ⟨rfl, hbh.symm⟩
    exact removeTail_core t k1 v1 c1 .nil r1 p1 r1 (by cases r1 <;> rfl) (Or.inl rfl) h0
      hbr hrr1 h0.2 (by simp) hred hpb hprr hblack
  · have h0 : bh l1 = 0 ∧ bh (Node.nil : Node K V) = 0 := ⟨hbh, rfl⟩
    exact removeTail_core t k1 v1 c1 l1 .nil p1 l1 rfl (Or.inr rfl) h0
      hbl hrl h0.1 (by simp) hred hpb hprr hblack

theorem Ordered_erase {cmp : K → K → Int} {xs ys : List (K × V)} {e : K × V}
    (h : Ordered cmp (xs ++ e :: ys)) : Ordered cmp (xs ++ ys) := by
  unfold Ordered at h ⊢
  exact h.sublist (List.Sublist.append_left (List.sublist_cons_self e ys) xs)

theorem Remove_spec {cmp : K → K → Int} (hc : StrictTotalOrder cmp) (t : Tree K V)
    (hi : Inv cmp t) (key : K) :
    ∃ t' b, t.Remove key = some (t', b) ∧ Inv cmp t' ∧
      ((b = false ∧ t' = t ∧ t.lookup key = none ∧ ∀ v, (key, v) ∉ t.root.toList) ∨
       (b = true ∧ ∃ xs v0 ys, t.root.toList = xs ++ (key, v0) :: ys ∧
          t'.root.toList = xs ++ ys ∧ t'.size = t.size - 1)) := by
  have hi0 := hi
  obtain ⟨root, size, comparator⟩ := t
  obtain ⟨hcmp, hord, hbal, hrr, hblack, hsize⟩ := hi
  simp only at hcmp hord hbal hrr hblack hsize
  subst hcmp
  have hz := descend_zip comparator key root []
  have hb := descend_brackets comparator key root [] (by intro f hf; cases hf)
  have hf := descend_found comparator key root []
  have hlook : Tree.lookup ⟨root, size, comparator⟩ key =
      if (descend comparator key root []).node.isNil then none
      else some (descend comparator key root []) := by
    simp [Tree.lookup, lookupLoop_eq]
  generalize descend comparator key root [] = d at hz hb hf hlook
  obtain ⟨dn, dp⟩ := d
  simp only [zip] at hz hb hf hlook
  subst hz
  have hbounds := brackets_bounds hc dp dn hb hord
  have hlist := toList_zip dp dn
  cases dn with
  | nil =>
    simp only [isNil_nil, if_true] at hlook
    refine ⟨_, false, by rw [Remove_eq, hlook], hi0, Or.inl ⟨rfl, rfl, hlook, ?_⟩⟩
    intro v hv
    simp only [hlist, Node.toList, List.append_nil, List.mem_append] at hv
    rcases hv with hv | hv
    · exact hc.irrefl key (hbounds.1 _ hv)
    · exact hc.irrefl key (hbounds.2 _ hv)
  | mk k0 v0 c0 l0 r0 =>
    have hk := hc.eq_of_zero (hf k0 v0 c0 l0 r0 rfl)
    subst hk
    simp only [isNil_mk, Bool.false_eq_true, if_false] at hlook
    have hfinish : ∀ root' : Node K V, Bal root' → RR root' → nodeColor root' = .black →
        root'.toList = (before dp ++ l0.toList) ++ (r0.toList ++ after dp) →
        Inv comparator ⟨root', size - 1, comparator⟩ ∧
        ∃ xs v0' ys, (zip dp (.mk key v0 c0 l0 r0)).toList = xs ++ (key, v0') :: ys ∧
          root'.toList = xs ++ ys ∧ size - 1 = size - 1 := by
      intro root' h1 h2 h3 h4
      have hl2 : (zip dp (.mk key v0 c0 l0 r0)).toList
          = (before dp ++ l0.toList) ++ (key, v0) :: (r0.toList ++ after dp) := by
        simp
      refine ⟨⟨rfl, ?_, h1, h2, h3, ?_⟩, _, v0, _, hl2, h4, rfl⟩
      · rw [hl2] at hord
        simpa [h4] using Ordered_erase hord
      · simp only [count_eq_length, hl2] at hsize
        simp only [count_eq_length, h4, hsize]
        simp
        omega
    have hswap : ∀ p1 k1 v1 c1 l1 r1,
        (do
          let node ←
            if (! (← (Node.mk key v0 c0 l0 r0).getLeft).isNil) &&
                (! (← (Node.mk key v0 c0 l0 r0).getRight).isNil) then
              swapWithPredecessor ⟨.mk key v0 c0 l0 r0, dp⟩
            else
              some ⟨.mk key v0 c0 l0 r0, dp⟩
          removeTail ⟨zip dp (.mk key v0 c0 l0 r0), size, comparator⟩ node)
          = removeTail ⟨zip dp (.mk key v0 c0 l0 r0), size, comparator⟩
              ⟨.mk k1 v1 c1 l1 r1, p1⟩ →
        (l1 = .nil ∨ r1 = .nil) →
        Bal (zip p1 (.mk k1 v1 c1 l1 r1)) → RR (zip p1 (.mk k1 v1 c1 l1 r1)) →
        nodeColor (zip p1 (.mk k1 v1 c1 l1 r1)) = .black →
        before p1 ++ (l1.toList ++ r1.toList) ++ after p1
          = (before dp ++ l0.toList) ++ (r0.toList ++ after dp) →
        ∃ t' b, Tree.Remove ⟨zip dp (.mk key v0 c0 l0 r0), size, comparator⟩ key
            = some (t', b) ∧ Inv comparator t' ∧
          ((b = false ∧ t' = ⟨zip dp (.mk key v0 c0 l0 r0), size, comparator⟩ ∧
              Tree.lookup ⟨zip dp (.mk key v0 c0 l0 r0), size, comparator⟩ key = none ∧
              ∀ v, (key, v) ∉ (zip dp (.mk key v0 c0 l0 r0)).toList) ∨
           (b = true ∧ ∃ xs v0' ys,
              (zip dp (.mk key v0 c0 l0 r0)).toList = xs ++ (key, v0') :: ys ∧
              t'.root.toList = xs ++ ys ∧ t'.size = size - 1)) := by
      intro p1 k1 v1 c1 l1 r1 heq hnil h1 h2 h3 h4
      obtain ⟨root', hr, g1, g2, g3, g4⟩ := removeTail_spec
        ⟨zip dp (.mk key v0 c0 l0 r0), size, comparator⟩ k1 v1 c1 l1 r1 p1 hnil h1 h2 h3
      obtain ⟨hinv, hex⟩ := hfinish root' g1 g2 g3 (g4.trans h4)
      refine ⟨_, true, ?_, hinv, Or.inr ⟨rfl, hex⟩⟩
      rw [Remove_eq, hlook]
      exact heq.trans hr
    cases l0 with
    | nil =>
      exact hswap dp key v0 c0 .nil r0 (by simp) (Or.inl rfl) hbal hrr hblack (by simp)
    | mk lk lv lc ll lr =>
      cases r0 with
      | nil =>
        exact hswap dp key v0 c0 (.mk lk lv lc ll lr) .nil (by simp) (Or.inr rfl) hbal hrr
          hblack (by simp)
      | mk rk rv rc rl rr =>
        obtain ⟨pk, pv, pc, pl, q, hm0, -, -, -⟩ :=
          maximumNode_spec (.mk lk lv lc ll lr) rfl ([] : List (Frame K V))
        obtain ⟨pk', pv', pc', pl', p', hm1, hm2, hm3, hm4⟩ :=
          maximumNode_spec (.mk lk lv lc ll lr) rfl
            (⟨.left, pk, pv, c0, .mk rk rv rc rl rr⟩ :: dp)
        have hnode := maximumNode_node (.mk lk lv lc ll lr)
          (⟨.left, pk, pv, c0, .mk rk rv rc rl rr⟩ :: dp) []
        rw [hm0, hm1] at hnode
        simp only [Node.mk.injEq] at hnode
        obtain ⟨rfl, rfl, rfl, rfl, -⟩ := hnode
        refine hswap p' pk' pv' pc' pl' .nil ?_ (Or.inr rfl) ?_ ?_ ?_ ?_
        · simp [swapWithPredecessor, hm0, hm1]
        · rw [hm2]; simpa [Bal_zip] using hbal
        · rw [hm2]; simpa [RR_zip] using hrr
        · rw [hm2]; simpa using hblack
        · have h5 := congrArg
            (fun z => z ++ ((Node.mk rk rv rc rl rr).toList ++ after dp)) hm4
          simpa [hm3] using h5

/-! ## Lookups through the in-order list -/

theorem Ordered_not_mem {cmp : K → K → Int} (hc : StrictTotalOrder cmp)
    {xs ys : List (K × V)} {k : K} {v0 : V} (h : Ordered cmp (xs ++ (k, v0) :: ys)) (v : V) :
    (k, v) ∉ xs ++ ys := by
  unfold Ordered at h
  rw [List.pairwise_append, List.pairwise_cons] at h
  intro hm
  rcases List.mem_append.1 hm with hm | hm
  · exact hc.irrefl k (h.2.2 _ hm (k, v0) (List.mem_cons_self _ _))
  · exact hc.irrefl k (h.2.1.1 _ hm)

theorem Ordered_unique {cmp : K → K → Int} (hc : StrictTotalOrder cmp)
    {xs ys : List (K × V)} {k : K} {v0 v : V} (h : Ordered cmp (xs ++ (k, v0) :: ys))
    (hm : (k, v) ∈ xs ++ (k, v0) :: ys) : v = v0 := by
  have hn := Ordered_not_mem hc h v
  simp only [List.mem_append, List.mem_cons, Prod.mk.injEq, true_and] at hm hn
  rcases hm with hm | hm | hm
  · exact absurd (Or.inl hm) hn
  · exact hm
  · exact absurd (Or.inr hm) hn

theorem Get_spec [Inhabited V] {cmp : K → K → Int} (hc : StrictTotalOrder cmp)
    (t : Tree K V) (hi : Inv cmp t) (key : K) :
    (∀ v, (key, v) ∈ t.root.toList → t.Get key = (v, true)) ∧
    ((∀ v, (key, v) ∉ t.root.toList) → t.Get key = (default, false)) := by
  obtain ⟨root, size, comparator⟩ := t
  obtain ⟨hcmp, hord, -, -, -, -⟩ := hi
  simp only at hcmp hord
  subst hcmp
  have hz := descend_zip comparator key root []
  have hb := descend_brackets comparator key root [] (by intro f hf; cases hf)
  have hf := descend_found comparator key root []
  have hlook : Tree.lookup ⟨root, size, comparator⟩ key =
      if (descend comparator key root []).node.isNil then none
      else some (descend comparator key root []) := by
    simp [Tree.lookup, lookupLoop_eq]
  generalize descend comparator key root [] = d at hz hb hf hlook
  obtain ⟨dn, dp⟩ := d
  simp only [zip] at hz hb hf hlook
  subst hz
  have hbounds := brackets_bounds hc dp dn hb hord
  cases dn with
  | nil =>
    simp only [isNil_nil, if_true] at hlook
    refine ⟨?_, fun _ => by simp [Tree.Get, hlook]⟩
    intro v hv
    simp only [toList_zip, Node.toList, List.append_nil, List.mem_append] at hv
    rcases hv with hv | hv
    · exact absurd (hbounds.1 _ hv) (hc.irrefl key)
    · exact absurd (hbounds.2 _ hv) (hc.irrefl key)
  | mk k0 v0 c0 l0 r0 =>
    have hk := hc.eq_of_zero (hf k0 v0 c0 l0 r0 rfl)
    subst hk
    simp only [isNil_mk, Bool.false_eq_true, if_false] at hlook
    have hl2 : (zip dp (.mk key v0 c0 l0 r0)).toList
        = (before dp ++ l0.toList) ++ (key, v0) :: (r0.toList ++ after dp) := by
      simp
    simp only at hord ⊢
    rw [hl2] at hord ⊢
    constructor
    · intro v hv
      have := Ordered_unique hc hord hv
      subst this
      simp [Tree.Get, hlook]
    · intro h
      exact absurd (List.mem_append_right _ (List.mem_cons_self _ _)) (h v0)

/-! ## The contract of Put and Remove -/

theorem compareInt_strict : StrictTotalOrder compareInt := by
  refine ⟨?_, ?_, ?_, ?_⟩
  · intro a; simp [compareInt]
  · intro a b c; simp only [compareInt]; split_ifs <;> intros <;> omega
  · intro a b; simp only [compareInt]; split_ifs <;> intros <;> omega
  · intro a b; simp only [compareInt]; split_ifs <;> constructor <;> intros <;> omega

theorem sampleTree_reachable : Reachable compareInt sampleTree :=
  ⟨[.put 2 20, .put 1 10, .put 3 30], by rfl⟩


theorem Inv_new (cmp : K → K → Int) : Inv cmp (NewWith cmp : Tree K V) :=
  ⟨rfl, List.Pairwise.nil, trivial, trivial, rfl, rfl⟩

theorem step_inv {cmp : K → K → Int} (hc : StrictTotalOrder cmp) (t : Tree K V)
    (hi : Inv cmp t) (op : Op K V) : ∃ t', step t op = some t' ∧ Inv cmp t' := by
  cases op with
  | put key value =>
    obtain ⟨t', h1, h2, -⟩ := Put_spec hc t hi key value
    exact ⟨t', h1, h2⟩
  | remove key =>
    obtain ⟨t', b, h1, h2, -⟩ := Remove_spec hc t hi key
    exact ⟨t', by simp [step, h1], h2⟩

theorem run_inv {cmp : K → K → Int} (hc : StrictTotalOrder cmp) (ops : List (Op K V))
    (t : Tree K V) (hi : Inv cmp t) : ∃ t', run t ops = some t' ∧ Inv cmp t' := by
  induction ops generalizing t with
  | nil => exact ⟨t, rfl, hi⟩
  | cons op ops ih =>
    obtain ⟨t1, h1, hi1⟩ := step_inv hc t hi op
    obtain ⟨t2, h2, hi2⟩ := ih t1 hi1
    exact ⟨t2, by simp [run, h1, h2], hi2⟩

theorem Reachable.inv {cmp : K → K → Int} (hc : StrictTotalOrder cmp) {t : Tree K V}
    (h : Reachable cmp t) : Inv cmp t := by
  obtain ⟨ops, hops⟩ := h
  obtain ⟨t', h1, h2⟩ := run_inv hc ops (NewWith cmp) (Inv_new cmp)
  rw [hops] at h1
  cases h1
  exact h2

theorem bst_of_ordered {cmp : K → K → Int} (hc : StrictTotalOrder cmp) (n : Node K V)
    (h : Ordered cmp n.toList) : n.All (BSTAt cmp) := by
  induction n with
  | nil => trivial
  | mk k v c l r ihl ihr =>
    unfold Ordered at h ihl ihr
    simp only [Node.toList, List.pairwise_append, List.pairwise_cons] at h
    refine ⟨⟨?_, ?_⟩, ihl h.1, ihr h.2.1.2⟩
    · intro x hx
      obtain ⟨e, he, rfl⟩ := List.mem_map.1 hx
      exact h.2.2 e he (k, v) (List.mem_cons_self _ _)
    · intro x hx
      obtain ⟨e, he, rfl⟩ := List.mem_map.1 hx
      exact (hc.swap _ _).2 (h.2.1.1 e he)

theorem noRedChild_of_RR (n : Node K V) (h : RR n) : n.All NoRedChildAt := by
  induction n with
  | nil => trivial
  | mk k v c l r ihl ihr => exact ⟨h.2.2, ihl h.1, ihr h.2.1⟩

theorem blackCounts_of_Bal (n : Node K V) (h : Bal n) : ∀ a ∈ blackCounts n, a = bh n := by
  induction n with
  | nil => intro a ha; simpa [blackCounts] using ha
  | mk k v c l r ihl ihr =>
    intro a ha
    simp only [blackCounts, List.mem_map, List.mem_append] at ha
    obtain ⟨b, hb | hb, rfl⟩ := ha
    · rw [ihl h.1 b hb]; rfl
    · rw [ihr h.2.1 b hb, ← h.2.2]; rfl

theorem sameBlackCount_of_Bal (n : Node K V) (h : Bal n) : n.All SameBlackCount := by
  induction n with
  | nil => trivial
  | mk k v c l r ihl ihr =>
    refine ⟨?_, ihl h.1, ihr h.2.1⟩
    intro a ha b hb
    rw [blackCounts_of_Bal _ h a ha, blackCounts_of_Bal _ h b hb]

/-- C1: under a strict total order, after every finite sequence of Put and Remove calls
from the empty tree (hence after each call of it) the call sequence has not panicked, every
node satisfies the binary-search-tree property, and the in-order key sequence of `Keys()`
is strictly increasing. -/
theorem bst_after_calls (cmp : K → K → Int) (hc : StrictTotalOrder cmp)
    (ops : List (Op K V)) :
    ∃ t, run (NewWith cmp) ops = some t ∧ t.root.All (BSTAt cmp) ∧
      t.Keys.Pairwise (fun a b => cmp a b < 0) := by
  obtain ⟨t, h1, hi⟩ := run_inv hc ops (NewWith cmp) (Inv_new cmp)
  refine ⟨t, h1, bst_of_ordered hc _ hi.ordered, ?_⟩
  exact List.pairwise_map.2 hi.ordered

theorem bst_after_calls_witness :
    StrictTotalOrder compareInt ∧
    ∃ t, run (NewWith compareInt) sampleOps = some t ∧ t.root.All (BSTAt compareInt) ∧
      t.Keys.Pairwise (fun a b => compareInt a b < 0) :=
  ⟨compareInt_strict, bst_after_calls compareInt compareInt_strict sampleOps⟩

/-- C2: under a strict total order, after every finite sequence of Put and Remove calls
from the empty tree the root is nil or a black node. -/
theorem root_black_after_calls (cmp : K → K → Int) (hc : StrictTotalOrder cmp)
    (ops : List (Op K V)) :
    ∃ t, run (NewWith cmp) ops = some t ∧
      (t.root = .nil ∨ ∃ k v l r, t.root = .mk k v .black l r) := by
  obtain ⟨t, h1, hi⟩ := run_inv hc ops (NewWith cmp) (Inv_new cmp)
  refine ⟨t, h1, ?_⟩
  have hb := hi.black
  cases hr : t.root with
  | nil => exact Or.inl rfl
  | mk k v c l r =>
    rw [hr] at hb
    simp only [nodeColor_mk] at hb
    subst hb
    exact Or.inr ⟨k, v, l, r, rfl⟩

theorem root_black_after_calls_witness :
    StrictTotalOrder compareInt ∧
    ∃ t, run (NewWith compareInt) sampleOps = some t ∧
      (t.root = .nil ∨ ∃ k v l r, t.root = .mk k v .black l r) :=
  ⟨compareInt_strict, root_black_after_calls compareInt compareInt_strict sampleOps⟩

/-- C3: under a strict total order, after every finite sequence of Put and Remove calls
from the empty tree no red node has a red child (nil children count as black). -/
theorem no_red_red_after_calls (cmp : K → K → Int) (hc : StrictTotalOrder cmp)
    (ops : List (Op K V)) :
    ∃ t, run (NewWith cmp) ops = some t ∧ t.root.All NoRedChildAt := by
  obtain ⟨t, h1, hi⟩ := run_inv hc ops (NewWith cmp) (Inv_new cmp)
  exact ⟨t, h1, noRedChild_of_RR _ hi.rr⟩

theorem no_red_red_after_calls_witness :
    StrictTotalOrder compareInt ∧
    ∃ t, run (NewWith compareInt) sampleOps = some t ∧ t.root.All NoRedChildAt :=
  ⟨compareInt_strict, no_red_red_after_calls compareInt compareInt_strict sampleOps⟩

/-- C4: under a strict total order, after every finite sequence of Put and Remove calls
from the empty tree every node has the same number of black nodes on each path from it down
to a nil link; the sequences include the Remove of a black node whose single child is
red. -/
theorem black_height_after_calls (cmp : K → K → Int) (hc : StrictTotalOrder cmp)
    (ops : List (Op K V)) :
    ∃ t, run (NewWith cmp) ops = some t ∧ t.root.All SameBlackCount := by
  obtain ⟨t, h1, hi⟩ := run_inv hc ops (NewWith cmp) (Inv_new cmp)
  exact ⟨t, h1, sameBlackCount_of_Bal _ hi.bal⟩

theorem black_height_after_calls_witness :
    StrictTotalOrder compareInt ∧
    run (NewWith compareInt) (redChildOps.take 4)
      = some ⟨.mk 2 20 .black (.mk 1 10 .black .nil .nil)
          (.mk 3 30 .black .nil (.mk 4 40 .red .nil .nil)), 4, compareInt⟩ ∧
    ∃ t, run (NewWith compareInt) redChildOps = some t ∧ t.root.All SameBlackCount :=
  ⟨compareInt_strict, by rfl,
    black_height_after_calls compareInt compareInt_strict redChildOps⟩

theorem count_zero_iff (n : Node K V) : n.count = 0 ↔ n = .nil := by
  cases n with
  | nil => simp
  | mk k v c l r => simp

theorem mem_keys_iff (t : Tree K V) (key : K) :
    key ∈ t.Keys ↔ ∃ v, (key, v) ∈ t.root.toList := by
  simp [Tree.Keys]

theorem tally_run [DecidableEq K] {cmp : K → K → Int} (hc : StrictTotalOrder cmp)
    (ops : List (Op K V)) (t : Tree K V) (hi : Inv cmp t) :
    ∃ t', run t ops = some t' ∧ Inv cmp t' ∧
      t'.size = t.size + newPuts t ops - trueRemoves t ops := by
  induction ops generalizing t with
  | nil => exact ⟨t, rfl, hi, by simp [newPuts, trueRemoves]⟩
  | cons op ops ih =>
    cases op with
    | put key value =>
      obtain ⟨t1, h1, hi1, xs, ys, hl1, hcase⟩ := Put_spec hc t hi key value
      obtain ⟨t2, h2, hi2, hs2⟩ := ih t1 hi1
      refine ⟨t2, by simp [run, step, h1, h2], hi2, ?_⟩
      have ho1 := hi1.ordered
      rw [hl1] at ho1
      rcases hcase with ⟨hl, hs⟩ | ⟨v0, hl, hs⟩
      · have hnot : key ∉ t.Keys := by
          rw [mem_keys_iff, hl]
          rintro ⟨v, hv⟩
          exact Ordered_not_mem hc ho1 v hv
        simp only [newPuts, trueRemoves, step, h1, hnot, if_false]
        rw [hs2, hs]
        push_cast
        omega
      · have hmem : key ∈ t.Keys := by
          rw [mem_keys_iff, hl]
          exact ⟨v0, List.mem_append_right _ (List.mem_cons_self _ _)⟩
        simp only [newPuts, trueRemoves, step, h1, hmem, if_true]
        rw [hs2, hs]
        push_cast
        omega
    | remove key =>
      obtain ⟨t1, b, h1, hi1, hcase⟩ := Remove_spec hc t hi key
      obtain ⟨t2, h2, hi2, hs2⟩ := ih t1 hi1
      refine ⟨t2, by simp [run, step, h1, h2], hi2, ?_⟩
      rcases hcase with ⟨rfl, rfl, -, -⟩ | ⟨rfl, xs, v0, ys, -, -, hs⟩
      · simp only [newPuts, trueRemoves, step, h1, Option.map_some']
        rw [hs2]
        simp
      · simp only [newPuts, trueRemoves, step, h1, Option.map_some']
        rw [hs2, hs]
        simp
        omega

/-- C5: under a strict total order, after every finite sequence of Put and Remove calls
from the empty tree, `Size()` is the number of nodes reachable from the root, which is the
number of Put calls that inserted a key not then present minus the number of Remove calls
that returned true; and `Empty()` is true exactly when the root is nil. -/
theorem size_after_calls [DecidableEq K] (cmp : K → K → Int) (hc : StrictTotalOrder cmp)
    (ops : List (Op K V)) :
    ∃ t, run (NewWith cmp) ops = some t ∧ t.Size = t.root.count ∧
      t.Size = (newPuts (NewWith cmp : Tree K V) ops : Int)
        - trueRemoves (NewWith cmp : Tree K V) ops ∧
      (t.Empty = true ↔ t.root = .nil) := by
  obtain ⟨t, h1, hi, hs⟩ := tally_run hc ops (NewWith cmp) (Inv_new cmp)
  refine ⟨t, h1, hi.size, ?_, ?_⟩
  · simpa [Tree.Size, NewWith] using hs
  · rw [← count_zero_iff]
    simp [Tree.Empty, hi.size]

theorem size_after_calls_witness :
    StrictTotalOrder compareInt ∧
    ∃ t, run (NewWith compareInt) sampleOps = some t ∧ t.Size = t.root.count ∧
      t.Size = (newPuts (NewWith compareInt : Tree Int Int) sampleOps : Int)
        - trueRemoves (NewWith compareInt : Tree Int Int) sampleOps ∧
      (t.Empty = true ↔ t.root = .nil) :=
  ⟨compareInt_strict, size_after_calls compareInt compareInt_strict sampleOps⟩

/-- C6: on every tree reachable from the empty tree under a strict total order, `Put(k, v)`
returns and afterwards `Get(k)` is `(v, true)`, whether `k` was absent or present. -/
theorem get_after_put [Inhabited V] (cmp : K → K → Int) (hc : StrictTotalOrder cmp)
    (t : Tree K V) (ht : Reachable cmp t) (k : K) (v : V) :
    ∃ t', t.Put k v = some t' ∧ t'.Get k = (v, true) := by
  obtain ⟨t', h1, hi1, xs, ys, hl, -⟩ := Put_spec hc t (ht.inv hc) k v
  refine ⟨t', h1, (Get_spec hc t' hi1 k).1 v ?_⟩
  rw [hl]
  exact List.mem_append_right _ (List.mem_cons_self _ _)

theorem get_after_put_witness :
    StrictTotalOrder compareInt ∧ Reachable compareInt sampleTree ∧
    (∃ t', sampleTree.Put 4 40 = some t' ∧ t'.Get 4 = (40, true)) ∧
    (∃ t', sampleTree.Put 3 33 = some t' ∧ t'.Get 3 = (33, true)) :=
  ⟨compareInt_strict, sampleTree_reachable,
    get_after_put compareInt compareInt_strict sampleTree sampleTree_reachable 4 40,
    get_after_put compareInt compareInt_strict sampleTree sampleTree_reachable 3 33⟩

theorem Get_congr [Inhabited V] {cmp : K → K → Int} (hc : StrictTotalOrder cmp)
    (t t' : Tree K V) (hi : Inv cmp t) (hi' : Inv cmp t') (k : K)
    (h : ∀ v, (k, v) ∈ t'.root.toList ↔ (k, v) ∈ t.root.toList) : t'.Get k = t.Get k := by
  by_cases hex : ∃ v, (k, v) ∈ t.root.toList
  · obtain ⟨v, hv⟩ := hex
    rw [(Get_spec hc t hi k).1 v hv, (Get_spec hc t' hi' k).1 v ((h v).2 hv)]
  · have hn : ∀ v, (k, v) ∉ t.root.toList := fun v hv => hex ⟨v, hv⟩
    rw [(Get_spec hc t hi k).2 hn, (Get_spec hc t' hi' k).2 (fun v hv => hn v ((h v).1 hv))]

/-- C7: on every tree reachable from the empty tree under a strict total order, for keys
`k` and `k'` that do not compare equal, `Get(k')` gives the same result after `Put(k, v)`
as before it. -/
theorem get_other_after_put [Inhabited V] (cmp : K → K → Int) (hc : StrictTotalOrder cmp)
    (t : Tree K V) (ht : Reachable cmp t) (k k' : K) (v : V) (hne : cmp k k' ≠ 0) :
    ∃ t', t.Put k v = some t' ∧ t'.Get k' = t.Get k' := by
  have hkk : k' ≠ k := fun h => hne (h ▸ hc.zero_of_eq k)
  obtain ⟨t', h1, hi1, xs, ys, hl, hcase⟩ := Put_spec hc t (ht.inv hc) k v
  refine ⟨t', h1, Get_congr hc t t' (ht.inv hc) hi1 k' ?_⟩
  intro w
  rcases hcase with ⟨hl0, -⟩ | ⟨v0, hl0, -⟩ <;>
    simp [hl, hl0, hkk]

theorem get_other_after_put_witness :
    StrictTotalOrder compareInt ∧ Reachable compareInt sampleTree ∧ compareInt 4 3 ≠ 0 ∧
    ∃ t', sampleTree.Put 4 40 = some t' ∧ t'.Get 3 = sampleTree.Get 3 :=
  ⟨compareInt_strict, sampleTree_reachable, by decide,
    get_other_after_put compareInt compareInt_strict sampleTree sampleTree_reachable 4 3 40
      (by decide)⟩

/-- C8: on every tree reachable from the empty tree under a strict total order, for a key
`k` present in it, `Remove(k)` returns true, afterwards `Get(k)` is the zero value with
`false`, and `Size()` is one less than before. -/
theorem remove_present [Inhabited V] (cmp : K → K → Int) (hc : StrictTotalOrder cmp)
    (t : Tree K V) (ht : Reachable cmp t) (k : K) (hk : k ∈ t.Keys) :
    ∃ t', t.Remove k = some (t', true) ∧ t'.Get k = (default, false) ∧
      t'.Size = t.Size - 1 := by
  have hi := ht.inv hc
  obtain ⟨t', b, h1, hi1, hcase⟩ := Remove_spec hc t hi k
  rcases hcase with ⟨-, -, -, habs⟩ | ⟨rfl, xs, v0, ys, hl, hl', hs⟩
  · obtain ⟨v, hv⟩ := (mem_keys_iff t k).1 hk
    exact absurd hv (habs v)
  · refine ⟨t', h1, (Get_spec hc t' hi1 k).2 ?_, hs⟩
    have ho := hi.ordered
    rw [hl] at ho
    rw [hl']
    exact Ordered_not_mem hc ho

theorem remove_present_witness :
    StrictTotalOrder compareInt ∧ Reachable compareInt sampleTree ∧
    (2 : Int) ∈ sampleTree.Keys ∧
    ∃ t', sampleTree.Remove 2 = some (t', true) ∧ t'.Get 2 = (default, false) ∧
      t'.Size = sampleTree.Size - 1 :=
  ⟨compareInt_strict, sampleTree_reachable, by decide,
    remove_present compareInt compareInt_strict sampleTree sampleTree_reachable 2
      (by decide)⟩

/-- C9: on every tree reachable from the empty tree under a strict total order, for keys
`k` and `k'` that do not compare equal, `Remove(k)` returns and `Get(k')` gives the same
result after it as before it, also when the removed node has two children and takes over
the key and value of its in-order predecessor. -/
theorem get_other_after_remove [Inhabited V] (cmp : K → K → Int)
    (hc : StrictTotalOrder cmp) (t : Tree K V) (ht : Reachable cmp t) (k k' : K)
    (hne : cmp k k' ≠ 0) :
    ∃ t' found, t.Remove k = some (t', found) ∧ t'.Get k' = t.Get k' := by
  have hkk : k' ≠ k := fun h => hne (h ▸ hc.zero_of_eq k)
  have hi := ht.inv hc
  obtain ⟨t', b, h1, hi1, hcase⟩ := Remove_spec hc t hi k
  refine ⟨t', b, h1, ?_⟩
  rcases hcase with ⟨-, rfl, -, -⟩ | ⟨-, xs, v0, ys, hl, hl', -⟩
  · rfl
  · apply Get_congr hc t t' hi hi1 k'
    intro w
    simp [hl, hl', hkk]

theorem get_other_after_remove_witness :
    StrictTotalOrder compareInt ∧ Reachable compareInt sampleTree ∧ compareInt 2 1 ≠ 0 ∧
    ∃ t' found, sampleTree.Remove 2 = some (t', found) ∧ t'.Get 1 = sampleTree.Get 1 :=
  ⟨compareInt_strict, sampleTree_reachable, by decide,
    get_other_after_remove compareInt compareInt_strict sampleTree sampleTree_reachable 2 1
      (by decide)⟩

/-- C10: on every tree, for a key that `lookup` does not find, `Remove` returns false and
leaves the tree as it was: same root (structure, colours, keys, values) and same size. -/
theorem remove_absent (t : Tree K V) (k : K) (h : t.lookup k = none) :
    t.Remove k = some (t, false) := by
  simp [Tree.Remove, h]

theorem remove_absent_witness :
    sampleTree.lookup 9 = none ∧ sampleTree.Remove 9 = some (sampleTree, false) :=
  ⟨by rfl, remove_absent sampleTree 9 (by rfl)⟩

/-! ## Put on a key that compares equal to a stored key -/

theorem lookup_eq_descend (t : Tree K V) (key : K) :
    t.lookup key =
      if (descend t.comparator key t.root []).node.isNil then none
      else some (descend t.comparator key t.root []) := by
  simp [Tree.lookup, lookupLoop_eq]

theorem descend_nil_root (cmp : K → K → Int) (key : K) (path : List (Frame K V)) :
    descend cmp key (.nil : Node K V) path = ⟨.nil, path⟩ := rfl

/-- What `Put` does when the descent reaches a node whose key compares equal: the node
keeps its place, colour and children and takes the new key and value. -/
theorem Put_found (t : Tree K V) (key : K) (value : V) (k0 : K) (v0 : V) (c : color)
    (l r : Node K V) (path : List (Frame K V))
    (h : t.lookup key = some ⟨.mk k0 v0 c l r, path⟩) :
    t.Put key value = some { t with root := zip path (.mk key value c l r) } ∧
      t.root = zip path (.mk k0 v0 c l r) ∧ t.comparator key k0 = 0 := by
  rw [lookup_eq_descend] at h
  have hz := descend_zip t.comparator key t.root []
  have hf := descend_found t.comparator key t.root []
  generalize hd : descend t.comparator key t.root [] = d at h hz hf
  split at h
  · cases h
  · cases h
    simp only [zip] at hz
    refine ⟨?_, hz.symm, hf k0 v0 c l r rfl⟩
    cases hr : t.root with
    | nil => rw [hr, descend_nil_root] at hd; cases hd
    | mk rk rv rc rl rr =>
      rw [hr] at hd
      simp [Tree.Put, hr, putLoop_eq, hd]

theorem skeleton_zip (path : List (Frame K V)) (n m : Node K V)
    (h : n.skeleton = m.skeleton) : (zip path n).skeleton = (zip path m).skeleton := by
  induction path generalizing n m with
  | nil => exact h
  | cons f rest ih =>
    obtain ⟨d, k, v, c, o⟩ := f
    cases d <;> exact ih _ _ (by simp [Frame.plug, Node.skeleton, h])

theorem Put_at_found (t : Tree K V) (k : K) (v : V) (k' : K) (v' : V) (c : color)
    (l r : Node K V) (path : List (Frame K V))
    (h : t.lookup k = some ⟨.mk k' v' c l r, path⟩) :
    t.comparator k k' = 0 ∧
    ∃ t', t.Put k v = some t' ∧ t'.Size = t.Size ∧ t'.comparator = t.comparator ∧
      t'.root.skeleton = t.root.skeleton ∧
      t.root = zip path (.mk k' v' c l r) ∧ t'.root = zip path (.mk k v c l r) := by
  obtain ⟨h1, h2, h3⟩ := Put_found t k v k' v' c l r path h
  refine ⟨h3, _, h1, rfl, rfl, ?_, h2, rfl⟩
  rw [h2]
  exact skeleton_zip path _ _ rfl

/-- C12, counterexample: under `compareAbs` the tree built by `Put(2,20); Put(1,10);
Put(3,30)` stores the key 3; the key -3 compares equal to it, the descent of `Put(-3, 33)`
reaches that node, and afterwards the node stores the key -3, not 3. -/
theorem put_keeps_key_counterexample :
    run (NewWith compareAbs) [.put 2 20, .put 1 10, .put 3 30] = some absTree ∧
    compareAbs (-3) 3 = 0 ∧ absTree.Keys = [1, 2, 3] ∧
    absTree.Put (-3) 33
      = some ⟨.mk 2 20 .black (.mk 1 10 .red .nil .nil) (.mk (-3) 33 .red .nil .nil), 3,
          compareAbs⟩ ∧
    ∃ t', absTree.Put (-3) 33 = some t' ∧ t'.Keys = [1, 2, -3] :=
  ⟨by rfl, by decide, by decide, by rfl, _, rfl, by decide⟩

/-- C12, amended: `Put` overwrites the key of the matched node together with its value.
For every comparator, every tree and every key `k` for which the descent from the root
reaches a node storing a key `k'` with `comparator(k, k') = 0`, after `Put(k, v)` the tree is
the one before with `k` and `v` stored in that node, so the in-order pair `(k', v')` is
replaced by `(k, v)`; the stored key stays `k'` only when `k' = k`, which is always so when
the comparator is a strict total order. -/
theorem put_sets_key (t : Tree K V) (k : K) (v : V) (k' : K) (v' : V) (c : color)
    (l r : Node K V) (path : List (Frame K V))
    (h : t.lookup k = some ⟨.mk k' v' c l r, path⟩) :
    t.comparator k k' = 0 ∧
    t.Put k v = some { t with root := zip path (.mk k v c l r) } ∧
    (∃ xs ys, t.root.toList = xs ++ (k', v') :: ys ∧
      (zip path (.mk k v c l r)).toList = xs ++ (k, v) :: ys) ∧
    (StrictTotalOrder t.comparator → k' = k) := by
  obtain ⟨h1, h2, h3⟩ := Put_found t k v k' v' c l r path h
  refine ⟨h3, h1, ⟨before path ++ l.toList, r.toList ++ after path, ?_, ?_⟩,
    fun hc => (hc.eq_of_zero h3).symm⟩
  · rw [h2]; simp
  · simp

theorem put_sets_key_witness :
    absTree.lookup (-3)
      = some ⟨.mk 3 30 .red .nil .nil, [⟨.right, 2, 20, .black, .mk 1 10 .red .nil .nil⟩]⟩ ∧
    (absTree.comparator (-3) 3 = 0 ∧
    absTree.Put (-3) 33 = some ⟨zip [⟨.right, 2, 20, .black, .mk 1 10 .red .nil .nil⟩]
        (.mk (-3) 33 .red .nil .nil), absTree.size, absTree.comparator⟩ ∧
    (∃ xs ys, absTree.root.toList = xs ++ ((3 : Int), (30 : Int)) :: ys ∧
      (zip [⟨.right, 2, 20, .black, .mk 1 10 .red .nil .nil⟩]
        (.mk (-3) 33 .red .nil .nil)).toList = xs ++ ((-3 : Int), (33 : Int)) :: ys) ∧
    (StrictTotalOrder absTree.comparator → (3 : Int) = -3)) :=
  ⟨by rfl, put_sets_key absTree (-3) 33 3 30 .red .nil .nil
    [⟨.right, 2, 20, .black, .mk 1 10 .red .nil .nil⟩] (by rfl)⟩

/-! ## Idempotence and the round trip -/

theorem lookup_spec {cmp : K → K → Int} (hc : StrictTotalOrder cmp) (t : Tree K V)
    (hi : Inv cmp t) (key : K) :
    (∀ v, (key, v) ∈ t.root.toList →
      ∃ c l r path, t.lookup key = some ⟨.mk key v c l r, path⟩) ∧
    ((∀ v, (key, v) ∉ t.root.toList) → t.lookup key = none) := by
  obtain ⟨root, size, comparator⟩ := t
  obtain ⟨hcmp, hord, -, -, -, -⟩ := hi
  simp only at hcmp hord
  subst hcmp
  have hz := descend_zip comparator key root []
  have hb := descend_brackets comparator key root [] (by intro f hf; cases hf)
  have hf := descend_found comparator key root []
  have hlook := lookup_eq_descend ⟨root, size, comparator⟩ key
  simp only at hlook
  generalize descend comparator key root [] = d at hz hb hf hlook
  obtain ⟨dn, dp⟩ := d
  simp only [zip] at hz hb hf hlook
  subst hz
  have hbounds := brackets_bounds hc dp dn hb hord
  cases dn with
  | nil =>
    simp only [isNil_nil, if_true] at hlook
    refine ⟨?_, fun _ => hlook⟩
    intro v hv
    simp only [toList_zip, Node.toList, List.append_nil, List.mem_append] at hv
    rcases hv with hv | hv
    · exact absurd (hbounds.1 _ hv) (hc.irrefl key)
    · exact absurd (hbounds.2 _ hv) (hc.irrefl key)
  | mk k0 v0 c0 l0 r0 =>
    have hk := hc.eq_of_zero (hf k0 v0 c0 l0 r0 rfl)
    subst hk
    simp only [isNil_mk, Bool.false_eq_true, if_false] at hlook
    have hl2 : (zip dp (.mk key v0 c0 l0 r0)).toList
        = (before dp ++ l0.toList) ++ (key, v0) :: (r0.toList ++ after dp) := by
      simp
    simp only at hord ⊢
    rw [hl2] at hord ⊢
    constructor
    · intro v hv
      have := Ordered_unique hc hord hv
      subst this
      exact ⟨c0, l0, r0, dp, hlook⟩
    · intro h
      exact absurd (List.mem_append_right _ (List.mem_cons_self _ _)) (h v0)

/-- C11: on every tree reachable from the empty tree under a strict total order, for every
key `k` that compares equal to a stored key `k'`: `Put(k, v)` returns, `Size()` and the
comparator are the ones before, the shape of the tree and the colour of every node are the
ones before (no insertion fixup runs), and the tree afterwards is the tree before with `v` in
the place of the value of the matched node: that node keeps its key, its colour, its two
subtrees and its ancestors, so the keys are the same and only that one value changes. -/
theorem put_equal_overwrites (cmp : K → K → Int) (hc : StrictTotalOrder cmp) (t : Tree K V)
    (ht : Reachable cmp t) (k k' : K) (v : V) (hmem : k' ∈ t.Keys) (heq : cmp k k' = 0) :
    t.root.isNil = false ∧
    ∃ v' c l r path t', t.root = zip path (.mk k' v' c l r) ∧
      t.Put k v = some t' ∧ t'.Size = t.Size ∧ t'.comparator = t.comparator ∧
      t'.root.skeleton = t.root.skeleton ∧
      t'.root = zip path (.mk k' v c l r) ∧ t'.Keys = t.Keys ∧
      ∃ xs ys, t.root.toList = xs ++ (k', v') :: ys ∧ t'.root.toList = xs ++ (k', v) :: ys := by
  have hi := ht.inv hc
  have hk : k = k' := hc.eq_of_zero heq
  subst hk
  obtain ⟨v', hv'⟩ := (mem_keys_iff t k).1 hmem
  obtain ⟨c, l, r, path, hlook⟩ := (lookup_spec hc t hi k).1 v' hv'
  obtain ⟨-, t', hp, hs, hcmp, hsk, hroot, hroot'⟩ := Put_at_found t k v k v' c l r path hlook
  have hnil : t.root.isNil = false := by
    cases hr : t.root with
    | nil => rw [hr] at hv'; simp [Node.toList] at hv'
    | mk _ _ _ _ _ => rfl
  refine ⟨hnil, v', c, l, r, path, t', hroot, hp, hs, hcmp, hsk, hroot', ?_,
    before path ++ l.toList, r.toList ++ after path, ?_, ?_⟩
  · simp [Tree.Keys, hroot, hroot', toList_zip]
  · simp [hroot, toList_zip]
  · simp [hroot', toList_zip]

theorem put_equal_overwrites_witness :
    StrictTotalOrder compareInt ∧ Reachable compareInt sampleTree ∧
    (3 : Int) ∈ sampleTree.Keys ∧ compareInt 3 3 = 0 ∧
    (sampleTree.root.isNil = false ∧
    ∃ v' c l r path t', sampleTree.root = zip path (.mk 3 v' c l r) ∧
      sampleTree.Put 3 33 = some t' ∧ t'.Size = sampleTree.Size ∧
      t'.comparator = sampleTree.comparator ∧
      t'.root.skeleton = sampleTree.root.skeleton ∧
      t'.root = zip path (.mk 3 33 c l r) ∧ t'.Keys = sampleTree.Keys ∧
      ∃ xs ys, sampleTree.root.toList = xs ++ (3, v') :: ys ∧
        t'.root.toList = xs ++ (3, 33) :: ys) :=
  ⟨compareInt_strict, sampleTree_reachable, by decide, by decide,
    put_equal_overwrites compareInt compareInt_strict sampleTree sampleTree_reachable 3 3 33
      (by decide) (by decide)⟩

theorem Tree.eta (t : Tree K V) : ({ t with root := t.root } : Tree K V) = t := by
  cases t; rfl

/-- C14: on every tree reachable from the empty tree under a strict total order, for every
`k` and `v`, `Put(k, v)` returns a tree on which a second `Put(k, v)` returns that same tree:
same structure, colours, keys, values and size. -/
theorem put_idempotent (cmp : K → K → Int) (hc : StrictTotalOrder cmp) (t : Tree K V)
    (ht : Reachable cmp t) (k : K) (v : V) :
    ∃ t1, t.Put k v = some t1 ∧ t1.Put k v = some t1 := by
  obtain ⟨t1, h1, hi1, xs, ys, hl, -⟩ := Put_spec hc t (ht.inv hc) k v
  refine ⟨t1, h1, ?_⟩
  obtain ⟨c, l, r, path, hlook⟩ := (lookup_spec hc t1 hi1 k).1 v
    (by rw [hl]; exact List.mem_append_right _ (List.mem_cons_self _ _))
  obtain ⟨h2, h3, -⟩ := Put_found t1 k v k v c l r path hlook
  rw [h2, ← h3, Tree.eta]

theorem put_idempotent_witness :
    StrictTotalOrder compareInt ∧ Reachable compareInt sampleTree ∧
    (∃ t1, sampleTree.Put 4 40 = some t1 ∧ t1.Put 4 40 = some t1) ∧
    (∃ t1, sampleTree.Put 3 33 = some t1 ∧ t1.Put 3 33 = some t1) :=
  ⟨compareInt_strict, sampleTree_reachable,
    put_idempotent compareInt compareInt_strict sampleTree sampleTree_reachable 4 40,
    put_idempotent compareInt compareInt_strict sampleTree sampleTree_reachable 3 33⟩

/-- C15: on every tree reachable from the empty tree under a strict total order, for every
key `k`, `Remove(k)` returns a tree on which a second `Remove(k)` returns false and leaves
that same tree. -/
theorem remove_idempotent (cmp : K → K → Int) (hc : StrictTotalOrder cmp) (t : Tree K V)
    (ht : Reachable cmp t) (k : K) :
    ∃ t1 found, t.Remove k = some (t1, found) ∧ t1.Remove k = some (t1, false) := by
  have hi := ht.inv hc
  obtain ⟨t1, b, h1, hi1, hcase⟩ := Remove_spec hc t hi k
  refine ⟨t1, b, h1, ?_⟩
  have hnone : t1.lookup k = none := by
    rcases hcase with ⟨-, rfl, hl, -⟩ | ⟨-, xs, v0, ys, hl, hl', -⟩
    · exact hl
    · apply (lookup_spec hc t1 hi1 k).2
      have ho := hi.ordered
      rw [hl] at ho
      rw [hl']
      exact Ordered_not_mem hc ho
  simp [Tree.Remove, hnone]

theorem remove_idempotent_witness :
    StrictTotalOrder compareInt ∧ Reachable compareInt sampleTree ∧
    (∃ t1 found, sampleTree.Remove 2 = some (t1, found) ∧ t1.Remove 2 = some (t1, false)) ∧
    (∃ t1 found, sampleTree.Remove 7 = some (t1, found) ∧ t1.Remove 7 = some (t1, false)) :=
  ⟨compareInt_strict, sampleTree_reachable,
    remove_idempotent compareInt compareInt_strict sampleTree sampleTree_reachable 2,
    remove_idempotent compareInt compareInt_strict sampleTree sampleTree_reachable 7⟩

theorem run_append (t : Tree K V) (a b : List (Op K V)) :
    run t (a ++ b) = (run t a).bind (fun t' => run t' b) := by
  induction a generalizing t with
  | nil => rfl
  | cons op ops ih =>
    simp only [List.cons_append, run]
    cases step t op with
    | none => rfl
    | some t1 => simpa using ih t1

theorem run_puts_keys {cmp : K → K → Int} (hc : StrictTotalOrder cmp)
    (pairs : List (K × V)) (t : Tree K V) (hi : Inv cmp t) :
    ∃ t', run t (pairs.map (fun p => Op.put p.1 p.2)) = some t' ∧ Inv cmp t' ∧
      ∀ k, k ∈ t'.Keys ↔ k ∈ t.Keys ∨ k ∈ pairs.map Prod.fst := by
  induction pairs generalizing t with
  | nil => exact ⟨t, rfl, hi, by simp⟩
  | cons p ps ih =>
    obtain ⟨t1, h1, hi1, xs, ys, hl, hcase⟩ := Put_spec hc t hi p.1 p.2
    obtain ⟨t2, h2, hi2, hk2⟩ := ih t1 hi1
    refine ⟨t2, by simp [run, step, h1, h2], hi2, ?_⟩
    intro k
    rw [hk2 k]
    have hk1 : k ∈ t1.Keys ↔ k ∈ t.Keys ∨ k = p.1 := by
      rcases hcase with ⟨hl0, -⟩ | ⟨v0, hl0, -⟩
      · simp only [Tree.Keys, hl, hl0, List.map_append, List.map_cons, List.mem_append,
          List.mem_cons]
        tauto
      · simp only [Tree.Keys, hl, hl0, List.map_append, List.map_cons, List.mem_append,
          List.mem_cons]
        tauto
    rw [hk1]
    simp only [List.map_cons, List.mem_cons]
    tauto

theorem run_removes_keys {cmp : K → K → Int} (hc : StrictTotalOrder cmp)
    (ks : List K) (t : Tree K V) (hi : Inv cmp t) :
    ∃ t', run t (ks.map (fun k => (Op.remove k : Op K V))) = some t' ∧ Inv cmp t' ∧
      ∀ k, k ∈ t'.Keys ↔ k ∈ t.Keys ∧ k ∉ ks := by
  induction ks generalizing t with
  | nil => exact ⟨t, rfl, hi, by simp⟩
  | cons k0 ks ih =>
    obtain ⟨t1, b, h1, hi1, hcase⟩ := Remove_spec hc t hi k0
    obtain ⟨t2, h2, hi2, hk2⟩ := ih t1 hi1
    refine ⟨t2, by simp [run, step, h1, h2], hi2, ?_⟩
    intro k
    rw [hk2 k]
    have hk1 : k ∈ t1.Keys ↔ k ∈ t.Keys ∧ k ≠ k0 := by
      rcases hcase with ⟨-, rfl, -, habs⟩ | ⟨-, xs, v0, ys, hl, hl', -⟩
      · constructor
        · intro hk
          refine ⟨hk, ?_⟩
          rintro rfl
          obtain ⟨v, hv⟩ := (mem_keys_iff _ _).1 hk
          exact habs v hv
        · exact fun h => h.1
      · have ho := hi.ordered
        rw [hl] at ho
        have hno := Ordered_not_mem hc ho
        constructor
        · intro hk
          obtain ⟨v, hv⟩ := (mem_keys_iff _ _).1 hk
          rw [hl'] at hv
          refine ⟨(mem_keys_iff _ _).2 ⟨v, ?_⟩, ?_⟩
          · rw [hl]
            rcases List.mem_append.1 hv with h | h
            · exact List.mem_append_left _ h
            · exact List.mem_append_right _ (List.mem_cons_of_mem _ h)
          · rintro rfl
            exact hno v hv
        · rintro ⟨hk, hne⟩
          obtain ⟨v, hv⟩ := (mem_keys_iff _ _).1 hk
          rw [hl] at hv
          refine (mem_keys_iff _ _).2 ⟨v, ?_⟩
          rw [hl']
          rcases List.mem_append.1 hv with h | h
          · exact List.mem_append_left _ h
          · rcases List.mem_cons.1 h with h | h
            · exact absurd (congrArg Prod.fst h) hne
            · exact List.mem_append_right _ h
    rw [hk1]
    simp only [List.mem_cons, not_or]
    tauto

/-- C13: under a strict total order, for every list of pairs with pairwise distinct keys
and every permutation of its keys, `Put` of all the pairs on the empty tree followed by
`Remove` of all the keys in the permuted order ends with `Size() == 0` and a nil root. -/
theorem round_trip (cmp : K → K → Int) (hc : StrictTotalOrder cmp) (pairs : List (K × V))
    (order : List K) (_hd : (pairs.map Prod.fst).Nodup)
    (hp : order.Perm (pairs.map Prod.fst)) :
    ∃ t, run (NewWith cmp)
        (pairs.map (fun p => Op.put p.1 p.2) ++ order.map (fun k => Op.remove k)) = some t ∧
      t.Size = 0 ∧ t.root = .nil := by
  obtain ⟨t1, h1, hi1, hk1⟩ := run_puts_keys hc pairs (NewWith cmp) (Inv_new cmp)
  obtain ⟨t2, h2, hi2, hk2⟩ := run_removes_keys hc order t1 hi1
  have hroot : t2.root = .nil := by
    cases hr : t2.root with
    | nil => rfl
    | mk k v c l r =>
      have hmem : k ∈ t2.Keys := by simp [Tree.Keys, hr]
      have h3 := (hk2 k).1 hmem
      have h4 := (hk1 k).1 h3.1
      rcases h4 with h4 | h4
      · simp [Tree.Keys, NewWith] at h4
      · exact absurd (hp.mem_iff.2 h4) h3.2
  refine ⟨t2, by rw [run_append, h1]; exact h2, ?_, hroot⟩
  simp [Tree.Size, hi2.size, hroot]

theorem round_trip_witness :
    StrictTotalOrder compareInt ∧
    ([((5 : Int), (50 : Int)), (6, 60), (7, 70), (3, 30)].map Prod.fst).Nodup ∧
    ([7, 3, 5, 6] : List Int).Perm ([((5 : Int), (50 : Int)), (6, 60), (7, 70), (3, 30)].map
      Prod.fst) ∧
    ∃ t, run (NewWith compareInt)
        ([((5 : Int), (50 : Int)), (6, 60), (7, 70), (3, 30)].map (fun p => Op.put p.1 p.2)
          ++ ([7, 3, 5, 6] : List Int).map (fun k => Op.remove k)) = some t ∧
      t.Size = 0 ∧ t.root = .nil :=
  ⟨compareInt_strict, by decide, by decide,
    round_trip compareInt compareInt_strict [(5, 50), (6, 60), (7, 70), (3, 30)] [7, 3, 5, 6]
      (by decide) (by decide)⟩

/-! ## Floor and Ceiling -/

theorem StrictTotalOrder.lt_of_le_of_lt {cmp : K → K → Int} (hc : StrictTotalOrder cmp)
    {a b c : K} (h1 : cmp a b ≤ 0) (h2 : cmp b c < 0) : cmp a c < 0 := by
  rcases lt_or_eq_of_le h1 with h | h
  · exact hc.trans _ _ _ h h2
  · rw [hc.eq_of_zero h]; exact h2

theorem StrictTotalOrder.lt_of_lt_of_le {cmp : K → K → Int} (hc : StrictTotalOrder cmp)
    {a b c : K} (h1 : cmp a b < 0) (h2 : cmp b c ≤ 0) : cmp a c < 0 := by
  rcases lt_or_eq_of_le h2 with h | h
  · exact hc.trans _ _ _ h1 h
  · rw [← hc.eq_of_zero h]; exact h1

theorem StrictTotalOrder.le_antisymm {cmp : K → K → Int} (hc : StrictTotalOrder cmp)
    {a b : K} (h1 : cmp a b ≤ 0) (h2 : cmp b a ≤ 0) : a = b := by
  rcases lt_or_eq_of_le h1 with h | h
  · have := (hc.swap b a).2 h
    omega
  · exact hc.eq_of_zero h

theorem StrictTotalOrder.le_of_not_lt {cmp : K → K → Int} (hc : StrictTotalOrder cmp)
    {a b : K} (h : ¬ cmp a b < 0) : cmp b a ≤ 0 := by
  by_contra h2
  exact h ((hc.swap b a).1 (by omega))

theorem ordered_of_bst {cmp : K → K → Int} (hc : StrictTotalOrder cmp) (n : Node K V)
    (h : n.All (BSTAt cmp)) : Ordered cmp n.toList := by
  induction n with
  | nil => exact List.Pairwise.nil
  | mk k v c l r ihl ihr =>
    obtain ⟨⟨h1, h2⟩, hl, hr⟩ := h
    have hlk : ∀ e ∈ l.toList, cmp e.1 k < 0 := fun e he =>
      h1 e.1 (List.mem_map.2 ⟨e, he, rfl⟩)
    have hkr : ∀ e ∈ r.toList, cmp k e.1 < 0 := fun e he =>
      (hc.swap _ _).1 (h2 e.1 (List.mem_map.2 ⟨e, he, rfl⟩))
    unfold Ordered
    simp only [Node.toList, List.pairwise_append, List.pairwise_cons]
    refine ⟨ihl hl, ⟨hkr, ihr hr⟩, ?_⟩
    intro a ha b hb
    rcases List.mem_cons.1 hb with rfl | hb
    · exact hlk a ha
    · exact hc.trans _ _ _ (hlk a ha) (hkr b hb)

theorem floorLoop_spec {cmp : K → K → Int} (hc : StrictTotalOrder cmp) (q : K)
    (n : Node K V) (ho : Ordered cmp n.toList) (path : List (Frame K V))
    (floor : Option (Cursor K V)) (found : Bool) :
    (∃ k v c l r p, floorLoop cmp q n path floor found = (some ⟨.mk k v c l r, p⟩, true) ∧
        zip p (.mk k v c l r) = zip path n ∧ (k, v) ∈ n.toList ∧ cmp k q ≤ 0 ∧
        ∀ e ∈ n.toList, cmp e.1 q ≤ 0 → cmp e.1 k ≤ 0) ∨
    ((∀ e ∈ n.toList, 0 < cmp e.1 q) ∧
        floorLoop cmp q n path floor found
          = if found then (floor, true) else (none, false)) := by
  induction n generalizing path floor found with
  | nil => exact Or.inr ⟨by simp, rfl⟩
  | mk k v c l r ihl ihr =>
    unfold Ordered at ho
    simp only [Node.toList, List.pairwise_append, List.pairwise_cons] at ho
    obtain ⟨hol, ⟨hkr, hor⟩, hcross⟩ := ho
    have hlk : ∀ e ∈ l.toList, cmp e.1 k < 0 := fun e he =>
      hcross e he (k, v) (List.mem_cons_self _ _)
    simp only [floorLoop]
    split
    · -- the key itself
      rename_i h0
      have hq := hc.eq_of_zero h0
      subst hq
      refine Or.inl ⟨q, v, c, l, r, path, rfl, rfl, by simp, by omega, fun e _ h => h⟩
    · split
      · -- q is below this key: go left
        rename_i h0 hlt
        have hkq : 0 < cmp k q := (hc.swap _ _).2 hlt
        rcases ihl hol (⟨.left, k, v, c, r⟩ :: path) floor found with
          ⟨k1, v1, c1, l1, r1, p, he, hz, hm, hle, hmax⟩ | ⟨hall, he⟩
        · refine Or.inl ⟨k1, v1, c1, l1, r1, p, he, by simpa using hz, by simp [hm], hle, ?_⟩
          intro e hmem hle2
          simp only [Node.toList, List.mem_append, List.mem_cons] at hmem
          rcases hmem with h | rfl | h
          · exact hmax e h hle2
          · have hle3 : cmp k q ≤ 0 := hle2
            omega
          · have := hc.trans _ _ _ hlt (hkr e h)
            have := (hc.swap _ _).2 this
            omega
        · refine Or.inr ⟨?_, he⟩
          intro e hmem
          simp only [Node.toList, List.mem_append, List.mem_cons] at hmem
          rcases hmem with h | rfl | h
          · exact hall e h
          · exact hkq
          · exact (hc.swap _ _).2 (hc.trans _ _ _ hlt (hkr e h))
      · -- q is above this key: remember it and go right
        rename_i h0 hlt
        have hqk : 0 < cmp q k := by omega
        have hkq : cmp k q < 0 := (hc.swap _ _).1 hqk
        rcases ihr hor (⟨.right, k, v, c, l⟩ :: path) (some ⟨.mk k v c l r, path⟩) true with
          ⟨k1, v1, c1, l1, r1, p, he, hz, hm, hle, hmax⟩ | ⟨hall, he⟩
        · refine Or.inl ⟨k1, v1, c1, l1, r1, p, he, by simpa using hz, by simp [hm], hle, ?_⟩
          intro e hmem hle2
          simp only [Node.toList, List.mem_append, List.mem_cons] at hmem
          have hk1 : cmp k k1 < 0 := hkr _ hm
          rcases hmem with h | rfl | h
          · exact le_of_lt (hc.trans _ _ _ (hlk e h) hk1)
          · exact le_of_lt hk1
          · exact hmax e h hle2
        · refine Or.inl ⟨k, v, c, l, r, path, by simpa using he, rfl, by simp,
            le_of_lt hkq, ?_⟩
          intro e hmem hle2
          simp only [Node.toList, List.mem_append, List.mem_cons] at hmem
          rcases hmem with h | rfl | h
          · exact le_of_lt (hlk e h)
          · exact le_of_eq (hc.zero_of_eq _)
          · have := hall e h
            omega

theorem floorScan_spec {cmp : K → K → Int} (hc : StrictTotalOrder cmp) (q : K)
    (ks : List K) :
    (∃ b, floorScan cmp q ks = some b ∧ b ∈ ks ∧ cmp b q ≤ 0 ∧
        ∀ k ∈ ks, cmp k q ≤ 0 → cmp k b ≤ 0) ∨
    (floorScan cmp q ks = none ∧ ∀ k ∈ ks, 0 < cmp k q) := by
  induction ks with
  | nil => exact Or.inr ⟨rfl, by simp⟩
  | cons k ks ih =>
    rcases ih with ⟨b, hb, hmem, hle, hmax⟩ | ⟨hn, hall⟩
    · simp only [floorScan, hb]
      split
      · rename_i h
        refine Or.inl ⟨k, rfl, List.mem_cons_self _ _, h.1, ?_⟩
        intro k' hk' hle'
        rcases List.mem_cons.1 hk' with rfl | hk'
        · exact le_of_eq (hc.zero_of_eq _)
        · exact le_of_lt (hc.lt_of_le_of_lt (hmax k' hk' hle') h.2)
      · rename_i h
        refine Or.inl ⟨b, rfl, List.mem_cons_of_mem _ hmem, hle, ?_⟩
        intro k' hk' hle'
        rcases List.mem_cons.1 hk' with rfl | hk'
        · exact hc.le_of_not_lt (fun hlt => h ⟨hle', hlt⟩)
        · exact hmax k' hk' hle'
    · simp only [floorScan, hn]
      split
      · rename_i h
        refine Or.inl ⟨k, rfl, List.mem_cons_self _ _, h, ?_⟩
        intro k' hk' hle'
        rcases List.mem_cons.1 hk' with rfl | hk'
        · exact le_of_eq (hc.zero_of_eq _)
        · have := hall k' hk'
          omega
      · rename_i h
        refine Or.inr ⟨rfl, ?_⟩
        intro k' hk'
        rcases List.mem_cons.1 hk' with rfl | hk'
        · omega
        · exact hall k' hk'

/-- C16: on every tree that satisfies the binary-search-tree property under a strict total
order, `Floor(q)` returns either a node of the tree with `true`, whose key is stored, is
less than or equal to `q` and is the largest such key, or `(nil, false)`; it returns
`(nil, false)` exactly when the tree is empty or every stored key is greater than `q`; it
returns the node of `q` itself when `q` is stored; and its key agrees with a linear scan
over the stored keys. -/
theorem floor_largest_below (t : Tree K V) (hc : StrictTotalOrder t.comparator)
    (hb : t.root.All (BSTAt t.comparator)) (q : K) :
    ((∃ n k v, t.Floor q = (some n, true) ∧ n.root = t.root ∧ n.entry = some (k, v) ∧
        k ∈ t.Keys ∧ t.comparator k q ≤ 0 ∧
        ∀ k' ∈ t.Keys, t.comparator k' q ≤ 0 → t.comparator k' k ≤ 0) ∨
      t.Floor q = (none, false)) ∧
    (t.Floor q = (none, false) ↔ (t.root = .nil ∨ ∀ k' ∈ t.Keys, 0 < t.comparator k' q)) ∧
    (q ∈ t.Keys → ∃ n v, t.Floor q = (some n, true) ∧ n.entry = some (q, v)) ∧
    (t.Floor q).1.bind (fun n => n.entry.map Prod.fst) = floorScan t.comparator q t.Keys := by
  have ho := ordered_of_bst hc t.root hb
  have hempty : t.root = .nil → ∀ k' ∈ t.Keys, 0 < t.comparator k' q := by
    intro h k' hk'
    simp [Tree.Keys, h] at hk'
  rcases floorLoop_spec hc q t.root ho [] none false with
    ⟨k, v, c, l, r, p, he, hz, hm, hle, hmax⟩ | ⟨hall, he⟩
  · have hk : k ∈ t.Keys := List.mem_map.2 ⟨(k, v), hm, rfl⟩
    have hmax' : ∀ k' ∈ t.Keys, t.comparator k' q ≤ 0 → t.comparator k' k ≤ 0 := by
      intro k' hk' hle'
      obtain ⟨e, he', rfl⟩ := List.mem_map.1 hk'
      exact hmax e he' hle'
    have hF : t.Floor q = (some ⟨.mk k v c l r, p⟩, true) := he
    refine ⟨Or.inl ⟨_, k, v, hF, hz, rfl, hk, hle, hmax'⟩, ?_, ?_, ?_⟩
    · rw [hF]
      constructor
      · intro h; cases h
      · rintro (h | h)
        · have := hempty h k hk
          omega
        · have := h k hk
          omega
    · intro hq
      have h1 := hmax' q hq (le_of_eq (hc.zero_of_eq q))
      have h2 := hc.le_antisymm h1 hle
      subst h2
      exact ⟨_, v, hF, rfl⟩
    · rw [hF]
      rcases floorScan_spec hc q t.Keys with ⟨b, hb1, hb2, hb3, hb4⟩ | ⟨hn, hall⟩
      · rw [hb1]
        have := hc.le_antisymm (hb4 k hk hle) (hmax' b hb2 hb3)
        simp [Cursor.entry, this]
      · have := hall k hk
        omega
  · have hF : t.Floor q = (none, false) := by simpa using he
    have hall' : ∀ k' ∈ t.Keys, 0 < t.comparator k' q := by
      intro k' hk'
      obtain ⟨e, he', rfl⟩ := List.mem_map.1 hk'
      exact hall e he'
    refine ⟨Or.inr hF, ⟨fun _ => Or.inr hall', fun _ => hF⟩, ?_, ?_⟩
    · intro hq
      have := hall' q hq
      have := hc.zero_of_eq q
      omega
    · rw [hF]
      rcases floorScan_spec hc q t.Keys with ⟨b, hb1, hb2, hb3, hb4⟩ | ⟨hn, -⟩
      · have := hall' b hb2
        omega
      · rw [hn]; rfl

theorem floor_largest_below_witness :
    StrictTotalOrder sampleTree.comparator ∧ sampleTree.root.All (BSTAt sampleTree.comparator) ∧
    (((∃ n k v, sampleTree.Floor 5 = (some n, true) ∧ n.root = sampleTree.root ∧
        n.entry = some (k, v) ∧ k ∈ sampleTree.Keys ∧ sampleTree.comparator k 5 ≤ 0 ∧
        ∀ k' ∈ sampleTree.Keys, sampleTree.comparator k' 5 ≤ 0 →
          sampleTree.comparator k' k ≤ 0) ∨
      sampleTree.Floor 5 = (none, false)) ∧
    (sampleTree.Floor 5 = (none, false) ↔
      (sampleTree.root = .nil ∨ ∀ k' ∈ sampleTree.Keys, 0 < sampleTree.comparator k' 5)) ∧
    ((5 : Int) ∈ sampleTree.Keys →
      ∃ n v, sampleTree.Floor 5 = (some n, true) ∧ n.entry = some (5, v)) ∧
    (sampleTree.Floor 5).1.bind (fun n => n.entry.map Prod.fst)
      = floorScan sampleTree.comparator 5 sampleTree.Keys) :=
  ⟨compareInt_strict, by simp [sampleTree, Node.All, BSTAt, Node.keys, compareInt],
    floor_largest_below sampleTree compareInt_strict
      (by simp [sampleTree, Node.All, BSTAt, Node.keys, compareInt]) 5⟩

theorem ceilingLoop_spec {cmp : K → K → Int} (hc : StrictTotalOrder cmp) (q : K)
    (n : Node K V) (ho : Ordered cmp n.toList) (path : List (Frame K V))
    (ceiling : Option (Cursor K V)) (found : Bool) :
    (∃ k v c l r p, ceilingLoop cmp q n path ceiling found = (some ⟨.mk k v c l r, p⟩, true) ∧
        zip p (.mk k v c l r) = zip path n ∧ (k, v) ∈ n.toList ∧ 0 ≤ cmp k q ∧
        ∀ e ∈ n.toList, 0 ≤ cmp e.1 q → cmp k e.1 ≤ 0) ∨
    ((∀ e ∈ n.toList, cmp e.1 q < 0) ∧
        ceilingLoop cmp q n path ceiling found
          = if found then (ceiling, true) else (none, false)) := by
  induction n generalizing path ceiling found with
  | nil => exact Or.inr ⟨by simp, rfl⟩
  | mk k v c l r ihl ihr =>
    unfold Ordered at ho
    simp only [Node.toList, List.pairwise_append, List.pairwise_cons] at ho
    obtain ⟨hol, ⟨hkr, hor⟩, hcross⟩ := ho
    have hlk : ∀ e ∈ l.toList, cmp e.1 k < 0 := fun e he =>
      hcross e he (k, v) (List.mem_cons_self _ _)
    simp only [ceilingLoop]
    split
    · -- the key itself
      rename_i h0
      have hq := hc.eq_of_zero h0
      subst hq
      refine Or.inl ⟨q, v, c, l, r, path, rfl, rfl, by simp, by omega, fun e _ h => ?_⟩
      exact hc.le_of_not_lt (fun hlt => by omega)
    · split
      · -- q is below this key: remember it and go left
        rename_i h0 hlt
        have hkq : 0 < cmp k q := (hc.swap _ _).2 hlt
        rcases ihl hol (⟨.left, k, v, c, r⟩ :: path) (some ⟨.mk k v c l r, path⟩) true with
          ⟨k1, v1, c1, l1, r1, p, he, hz, hm, hle, hmin⟩ | ⟨hall, he⟩
        · refine Or.inl ⟨k1, v1, c1, l1, r1, p, he, by simpa using hz, by simp [hm], hle, ?_⟩
          intro e hmem hle2
          simp only [Node.toList, List.mem_append, List.mem_cons] at hmem
          have hk1 : cmp k1 k < 0 := hlk _ hm
          rcases hmem with h | rfl | h
          · exact hmin e h hle2
          · exact le_of_lt hk1
          · exact le_of_lt (hc.trans _ _ _ hk1 (hkr e h))
        · refine Or.inl ⟨k, v, c, l, r, path, by simpa using he, rfl, by simp,
            le_of_lt hkq, ?_⟩
          intro e hmem hle2
          simp only [Node.toList, List.mem_append, List.mem_cons] at hmem
          rcases hmem with h | rfl | h
          · have := hall e h
            omega
          · exact le_of_eq (hc.zero_of_eq _)
          · exact le_of_lt (hkr e h)
      · -- q is above this key: go right
        rename_i h0 hlt
        have hqk : 0 < cmp q k := by omega
        have hkq : cmp k q < 0 := (hc.swap _ _).1 hqk
        rcases ihr hor (⟨.right, k, v, c, l⟩ :: path) ceiling found with
          ⟨k1, v1, c1, l1, r1, p, he, hz, hm, hle, hmin⟩ | ⟨hall, he⟩
        · refine Or.inl ⟨k1, v1, c1, l1, r1, p, he, by simpa using hz, by simp [hm], hle, ?_⟩
          intro e hmem hle2
          simp only [Node.toList, List.mem_append, List.mem_cons] at hmem
          rcases hmem with h | rfl | h
          · have := hc.trans _ _ _ (hlk e h) hkq
            omega
          · have hle3 : 0 ≤ cmp k q := hle2
            omega
          · exact hmin e h hle2
        · refine Or.inr ⟨?_, he⟩
          intro e hmem
          simp only [Node.toList, List.mem_append, List.mem_cons] at hmem
          rcases hmem with h | rfl | h
          · exact hc.trans _ _ _ (hlk e h) hkq
          · exact hkq
          · exact hall e h

theorem ceilingScan_spec {cmp : K → K → Int} (hc : StrictTotalOrder cmp) (q : K)
    (ks : List K) :
    (∃ b, ceilingScan cmp q ks = some b ∧ b ∈ ks ∧ 0 ≤ cmp b q ∧
        ∀ k ∈ ks, 0 ≤ cmp k q → cmp b k ≤ 0) ∨
    (ceilingScan cmp q ks = none ∧ ∀ k ∈ ks, cmp k q < 0) := by
  induction ks with
  | nil => exact Or.inr ⟨rfl, by simp⟩
  | cons k ks ih =>
    rcases ih with ⟨b, hb, hmem, hle, hmin⟩ | ⟨hn, hall⟩
    · simp only [ceilingScan, hb]
      split
      · rename_i h
        refine Or.inl ⟨k, rfl, List.mem_cons_self _ _, h.1, ?_⟩
        intro k' hk' hle'
        rcases List.mem_cons.1 hk' with rfl | hk'
        · exact le_of_eq (hc.zero_of_eq _)
        · exact le_of_lt (hc.lt_of_lt_of_le h.2 (hmin k' hk' hle'))
      · rename_i h
        refine Or.inl ⟨b, rfl, List.mem_cons_of_mem _ hmem, hle, ?_⟩
        intro k' hk' hle'
        rcases List.mem_cons.1 hk' with rfl | hk'
        · exact hc.le_of_not_lt (fun hlt => h ⟨hle', hlt⟩)
        · exact hmin k' hk' hle'
    · simp only [ceilingScan, hn]
      split
      · rename_i h
        refine Or.inl ⟨k, rfl, List.mem_cons_self _ _, h, ?_⟩
        intro k' hk' hle'
        rcases List.mem_cons.1 hk' with rfl | hk'
        · exact le_of_eq (hc.zero_of_eq _)
        · have := hall k' hk'
          omega
      · rename_i h
        refine Or.inr ⟨rfl, ?_⟩
        intro k' hk'
        rcases List.mem_cons.1 hk' with rfl | hk'
        · omega
        · exact hall k' hk'

/-- C17: on every tree that satisfies the binary-search-tree property under a strict total
order, `Ceiling(q)` returns either a node of the tree with `true`, whose key is stored, is
greater than or equal to `q` and is the smallest such key, or `(nil, false)`; it returns
`(nil, false)` exactly when the tree is empty or every stored key is smaller than `q`; it
returns the node of `q` itself when `q` is stored; and its key agrees with a linear scan
over the stored keys. -/
theorem ceiling_smallest_above (t : Tree K V) (hc : StrictTotalOrder t.comparator)
    (hb : t.root.All (BSTAt t.comparator)) (q : K) :
    ((∃ n k v, t.Ceiling q = (some n, true) ∧ n.root = t.root ∧ n.entry = some (k, v) ∧
        k ∈ t.Keys ∧ 0 ≤ t.comparator k q ∧
        ∀ k' ∈ t.Keys, 0 ≤ t.comparator k' q → t.comparator k k' ≤ 0) ∨
      t.Ceiling q = (none, false)) ∧
    (t.Ceiling q = (none, false) ↔ (t.root = .nil ∨ ∀ k' ∈ t.Keys, t.comparator k' q < 0)) ∧
    (q ∈ t.Keys → ∃ n v, t.Ceiling q = (some n, true) ∧ n.entry = some (q, v)) ∧
    (t.Ceiling q).1.bind (fun n => n.entry.map Prod.fst)
      = ceilingScan t.comparator q t.Keys := by
  have ho := ordered_of_bst hc t.root hb
  have hempty : t.root = .nil → ∀ k' ∈ t.Keys, t.comparator k' q < 0 := by
    intro h k' hk'
    simp [Tree.Keys, h] at hk'
  rcases ceilingLoop_spec hc q t.root ho [] none false with
    ⟨k, v, c, l, r, p, he, hz, hm, hle, hmin⟩ | ⟨hall, he⟩
  · have hk : k ∈ t.Keys := List.mem_map.2 ⟨(k, v), hm, rfl⟩
    have hmin' : ∀ k' ∈ t.Keys, 0 ≤ t.comparator k' q → t.comparator k k' ≤ 0 := by
      intro k' hk' hle'
      obtain ⟨e, he', rfl⟩ := List.mem_map.1 hk'
      exact hmin e he' hle'
    have hF : t.Ceiling q = (some ⟨.mk k v c l r, p⟩, true) := he
    refine ⟨Or.inl ⟨_, k, v, hF, hz, rfl, hk, hle, hmin'⟩, ?_, ?_, ?_⟩
    · rw [hF]
      constructor
      · intro h; cases h
      · rintro (h | h)
        · have := hempty h k hk
          omega
        · have := h k hk
          omega
    · intro hq
      have h1 := hmin' q hq (le_of_eq (hc.zero_of_eq q).symm)
      have h2 : t.comparator q k ≤ 0 := hc.le_of_not_lt (fun hlt => by omega)
      have h3 := hc.le_antisymm h1 h2
      subst h3
      exact ⟨_, v, hF, rfl⟩
    · rw [hF]
      rcases ceilingScan_spec hc q t.Keys with ⟨b, hb1, hb2, hb3, hb4⟩ | ⟨hn, hall⟩
      · rw [hb1]
        have := hc.le_antisymm (hmin' b hb2 hb3) (hb4 k hk hle)
        simp [Cursor.entry, this]
      · have := hall k hk
        omega
  · have hF : t.Ceiling q = (none, false) := by simpa using he
    have hall' : ∀ k' ∈ t.Keys, t.comparator k' q < 0 := by
      intro k' hk'
      obtain ⟨e, he', rfl⟩ := List.mem_map.1 hk'
      exact hall e he'
    refine ⟨Or.inr hF, ⟨fun _ => Or.inr hall', fun _ => hF⟩, ?_, ?_⟩
    · intro hq
      have := hall' q hq
      have := hc.zero_of_eq q
      omega
    · rw [hF]
      rcases ceilingScan_spec hc q t.Keys with ⟨b, hb1, hb2, hb3, hb4⟩ | ⟨hn, -⟩
      · have := hall' b hb2
        omega
      · rw [hn]; rfl

theorem ceiling_smallest_above_witness :
    StrictTotalOrder sampleTree.comparator ∧ sampleTree.root.All (BSTAt sampleTree.comparator) ∧
    (((∃ n k v, sampleTree.Ceiling 0 = (some n, true) ∧ n.root = sampleTree.root ∧
        n.entry = some (k, v) ∧ k ∈ sampleTree.Keys ∧ 0 ≤ sampleTree.comparator k 0 ∧
        ∀ k' ∈ sampleTree.Keys, 0 ≤ sampleTree.comparator k' 0 →
          sampleTree.comparator k k' ≤ 0) ∨
      sampleTree.Ceiling 0 = (none, false)) ∧
    (sampleTree.Ceiling 0 = (none, false) ↔
      (sampleTree.root = .nil ∨ ∀ k' ∈ sampleTree.Keys, sampleTree.comparator k' 0 < 0)) ∧
    ((0 : Int) ∈ sampleTree.Keys →
      ∃ n v, sampleTree.Ceiling 0 = (some n, true) ∧ n.entry = some (0, v)) ∧
    (sampleTree.Ceiling 0).1.bind (fun n => n.entry.map Prod.fst)
      = ceilingScan sampleTree.comparator 0 sampleTree.Keys) :=
  ⟨compareInt_strict, by simp [sampleTree, Node.All, BSTAt, Node.keys, compareInt],
    ceiling_smallest_above sampleTree compareInt_strict
      (by simp [sampleTree, Node.All, BSTAt, Node.keys, compareInt]) 0⟩

/-! ## Left and Right -/

theorem leftLoop_spec (n : Node K V) (path : List (Frame K V))
    (parent : Option (Cursor K V)) :
    (n = .nil ∧ leftLoop n path parent = parent) ∨
    (∃ k v c r p rest, leftLoop n path parent = some ⟨.mk k v c .nil r, p⟩ ∧
      zip p (.mk k v c .nil r) = zip path n ∧ n.toList = (k, v) :: rest) := by
  induction n generalizing path parent with
  | nil => exact Or.inl ⟨rfl, rfl⟩
  | mk k v c l r ihl _ =>
    right
    simp only [leftLoop]
    rcases ihl (⟨.left, k, v, c, r⟩ :: path) (some ⟨.mk k v c l r, path⟩) with
      ⟨rfl, he⟩ | ⟨k1, v1, c1, r1, p, rest, he, hz, hl⟩
    · exact ⟨k, v, c, r, path, r.toList, he, rfl, by simp⟩
    · exact ⟨k1, v1, c1, r1, p, rest ++ (k, v) :: r.toList, he, by simpa using hz,
        by simp [hl]⟩

theorem rightLoop_spec (n : Node K V) (path : List (Frame K V))
    (parent : Option (Cursor K V)) :
    (n = .nil ∧ rightLoop n path parent = parent) ∨
    (∃ k v c l p rest, rightLoop n path parent = some ⟨.mk k v c l .nil, p⟩ ∧
      zip p (.mk k v c l .nil) = zip path n ∧ n.toList = rest ++ [(k, v)]) := by
  induction n generalizing path parent with
  | nil => exact Or.inl ⟨rfl, rfl⟩
  | mk k v c l r _ ihr =>
    right
    simp only [rightLoop]
    rcases ihr (⟨.right, k, v, c, l⟩ :: path) (some ⟨.mk k v c l r, path⟩) with
      ⟨rfl, he⟩ | ⟨k1, v1, c1, l1, p, rest, he, hz, hl⟩
    · exact ⟨k, v, c, l, path, l.toList, he, rfl, by simp⟩
    · exact ⟨k1, v1, c1, l1, p, l.toList ++ (k, v) :: rest, he, by simpa using hz,
        by simp [hl]⟩

/-- C18: on every tree that satisfies the binary-search-tree property under a strict total
order, `Left()` returns a node of the tree holding the minimum stored key and `Right()` a
node holding the maximum stored key; each returns nil exactly when the tree is empty, which
is exactly when treemap `Min()` and `Max()` report `exist == false`, and otherwise `Min()`
and `Max()` return the key and value of those nodes. -/
theorem left_right_extremes [Inhabited K] [Inhabited V] (t : Tree K V)
    (hc : StrictTotalOrder t.comparator) (hb : t.root.All (BSTAt t.comparator)) :
    (t.Left = none ↔ t.root = .nil) ∧ (t.Right = none ↔ t.root = .nil) ∧
    (∀ n, t.Left = some n → n.root = t.root ∧ ∃ k v, n.entry = some (k, v) ∧
      treemap.Map.Min ⟨t⟩ = (k, v, true) ∧ k ∈ t.Keys ∧
      ∀ k' ∈ t.Keys, t.comparator k k' ≤ 0) ∧
    (∀ n, t.Right = some n → n.root = t.root ∧ ∃ k v, n.entry = some (k, v) ∧
      treemap.Map.Max ⟨t⟩ = (k, v, true) ∧ k ∈ t.Keys ∧
      ∀ k' ∈ t.Keys, t.comparator k' k ≤ 0) ∧
    (t.root = .nil → treemap.Map.Min ⟨t⟩ = (default, default, false) ∧
      treemap.Map.Max ⟨t⟩ = (default, default, false)) := by
  have ho := ordered_of_bst hc t.root hb
  unfold Ordered at ho
  refine ⟨?_, ?_, ?_, ?_, ?_⟩
  · rcases leftLoop_spec t.root [] none with ⟨h1, h2⟩ | ⟨k, v, c, r, p, rest, he, hz, hl⟩
    · exact ⟨fun _ => h1, fun _ => h2⟩
    · constructor
      · intro h; rw [Tree.Left, he] at h; cases h
      · intro h; rw [h] at hl; cases hl
  · rcases rightLoop_spec t.root [] none with ⟨h1, h2⟩ | ⟨k, v, c, l, p, rest, he, hz, hl⟩
    · exact ⟨fun _ => h1, fun _ => h2⟩
    · constructor
      · intro h; rw [Tree.Right, he] at h; cases h
      · intro h; rw [h] at hl; simp at hl
  · intro n hn
    rcases leftLoop_spec t.root [] none with ⟨h1, h2⟩ | ⟨k, v, c, r, p, rest, he, hz, hl⟩
    · rw [Tree.Left, h2] at hn; cases hn
    · rw [Tree.Left, he] at hn
      cases hn
      refine ⟨hz, k, v, rfl, ?_, ?_, ?_⟩
      · simp [treemap.Map.Min, Tree.Left, he]
      · simp [Tree.Keys, hl]
      · intro k' hk'
        rw [hl, List.pairwise_cons] at ho
        simp only [Tree.Keys, hl, List.map_cons, List.mem_cons, List.mem_map] at hk'
        rcases hk' with rfl | ⟨e, he', rfl⟩
        · exact le_of_eq (hc.zero_of_eq _)
        · exact le_of_lt (ho.1 e he')
  · intro n hn
    rcases rightLoop_spec t.root [] none with ⟨h1, h2⟩ | ⟨k, v, c, l, p, rest, he, hz, hl⟩
    · rw [Tree.Right, h2] at hn; cases hn
    · rw [Tree.Right, he] at hn
      cases hn
      refine ⟨hz, k, v, rfl, ?_, ?_, ?_⟩
      · simp [treemap.Map.Max, Tree.Right, he]
      · simp [Tree.Keys, hl]
      · intro k' hk'
        rw [hl, List.pairwise_append] at ho
        simp only [Tree.Keys, hl, List.map_append, List.map_cons, List.map_nil,
          List.mem_append, List.mem_singleton, List.mem_map] at hk'
        rcases hk' with ⟨e, he', rfl⟩ | rfl
        · exact le_of_lt (ho.2.2 e he' (k, v) (List.mem_singleton_self _))
        · exact le_of_eq (hc.zero_of_eq _)
  · intro h
    simp [treemap.Map.Min, treemap.Map.Max, Tree.Left, Tree.Right, h, leftLoop, rightLoop]

theorem left_right_extremes_witness :
    StrictTotalOrder sampleTree.comparator ∧ sampleTree.root.All (BSTAt sampleTree.comparator) ∧
    ((sampleTree.Left = none ↔ sampleTree.root = .nil) ∧
    (sampleTree.Right = none ↔ sampleTree.root = .nil) ∧
    (∀ n, sampleTree.Left = some n → n.root = sampleTree.root ∧ ∃ k v,
      n.entry = some (k, v) ∧ treemap.Map.Min ⟨sampleTree⟩ = (k, v, true) ∧
      k ∈ sampleTree.Keys ∧ ∀ k' ∈ sampleTree.Keys, sampleTree.comparator k k' ≤ 0) ∧
    (∀ n, sampleTree.Right = some n → n.root = sampleTree.root ∧ ∃ k v,
      n.entry = some (k, v) ∧ treemap.Map.Max ⟨sampleTree⟩ = (k, v, true) ∧
      k ∈ sampleTree.Keys ∧ ∀ k' ∈ sampleTree.Keys, sampleTree.comparator k' k ≤ 0) ∧
    (sampleTree.root = .nil → treemap.Map.Min ⟨sampleTree⟩ = (default, default, false) ∧
      treemap.Map.Max ⟨sampleTree⟩ = (default, default, false))) :=
  ⟨compareInt_strict, by simp [sampleTree, Node.All, BSTAt, Node.keys, compareInt],
    left_right_extremes sampleTree compareInt_strict
      (by simp [sampleTree, Node.All, BSTAt, Node.keys, compareInt])⟩

/-! ## Get, Keys and Values -/

theorem fillSlice_spec {α : Type} (d : α) (items done : List α) :
    fillSlice (done ++ List.replicate items.length d) done.length items
      = some (done ++ items) := by
  induction items generalizing done with
  | nil => simp [fillSlice]
  | cons x xs ih =>
    have hlt : done.length < (done ++ List.replicate (x :: xs).length d).length := by
      simp
    have hset : (done ++ List.replicate (x :: xs).length d).set done.length x
        = (done ++ [x]) ++ List.replicate xs.length d := by
      rw [List.set_append_right _ _ (le_refl _)]
      simp [List.replicate_succ]
    simp only [fillSlice, hlt, if_true, hset]
    have := ih (done ++ [x])
    simpa using this

theorem slices_of_size [Inhabited K] [Inhabited V] (t : Tree K V)
    (hs : t.size = t.root.count) :
    t.KeysSlice = some t.Keys ∧ t.ValuesSlice = some t.Values := by
  have hlen : t.size.toNat = t.root.toList.length := by
    rw [hs, count_eq_length]; simp
  have hnn : ¬ t.size < 0 := by rw [hs]; omega
  constructor
  · have := fillSlice_spec (default : K) (t.root.toList.map Prod.fst) []
    simp only [List.length_map, List.nil_append, List.length_nil] at this
    simp [Tree.KeysSlice, makeSlice, hnn, hlen, this, Tree.Keys]
  · have := fillSlice_spec (default : V) (t.root.toList.map Prod.snd) []
    simp only [List.length_map, List.nil_append, List.length_nil] at this
    simp [Tree.ValuesSlice, makeSlice, hnn, hlen, this, Tree.Values]

theorem keys_values_index (t : Tree K V) (i : Nat) (k : K) (v : V) :
    (t.Keys[i]? = some k ∧ t.Values[i]? = some v) ↔ t.root.toList[i]? = some (k, v) := by
  simp only [Tree.Keys, Tree.Values, List.getElem?_map]
  cases t.root.toList[i]? with
  | none => simp
  | some e =>
    obtain ⟨a, b⟩ := e
    simp

/-- C19: on every tree reachable from the empty tree under a strict total order, `Get(k)`
returns `(v, true)` exactly when some node stores a key comparing equal to `k` with the value
`v`, which is exactly when a key comparing equal to `k` stands at some index of `Keys()` with
`v` at the same index of `Values()`; and it returns the zero value with `false` when no
stored key compares equal to `k`. -/
theorem get_iff_stored [Inhabited V] (cmp : K → K → Int) (hc : StrictTotalOrder cmp)
    (t : Tree K V) (ht : Reachable cmp t) (k : K) :
    (∀ v, t.Get k = (v, true) ↔ ∃ k', cmp k k' = 0 ∧ (k', v) ∈ t.root.toList) ∧
    (∀ v, t.Get k = (v, true) ↔
      ∃ (i : Nat) (k' : K), t.Keys[i]? = some k' ∧ cmp k k' = 0 ∧ t.Values[i]? = some v) ∧
    ((∀ k' ∈ t.Keys, cmp k k' ≠ 0) → t.Get k = (default, false)) := by
  have hi := ht.inv hc
  have hg := Get_spec hc t hi k
  have h1 : ∀ v, t.Get k = (v, true) ↔ ∃ k', cmp k k' = 0 ∧ (k', v) ∈ t.root.toList := by
    intro v
    constructor
    · intro h
      by_cases hex : ∃ v0, (k, v0) ∈ t.root.toList
      · obtain ⟨v0, hv0⟩ := hex
        rw [hg.1 v0 hv0] at h
        cases h
        exact ⟨k, hc.zero_of_eq k, hv0⟩
      · rw [hg.2 (fun v0 hv0 => hex ⟨v0, hv0⟩)] at h
        cases h
    · rintro ⟨k', hk', hm⟩
      have := hc.eq_of_zero hk'
      subst this
      exact hg.1 v hm
  refine ⟨h1, ?_, ?_⟩
  · intro v
    rw [h1 v]
    constructor
    · rintro ⟨k', hk', hm⟩
      obtain ⟨i, hi'⟩ := List.mem_iff_getElem?.1 hm
      exact ⟨i, k', ((keys_values_index t i k' v).2 hi').1, hk',
        ((keys_values_index t i k' v).2 hi').2⟩
    · rintro ⟨i, k', h2, hk', h3⟩
      exact ⟨k', hk', List.mem_iff_getElem?.2 ⟨i, (keys_values_index t i k' v).1 ⟨h2, h3⟩⟩⟩
  · intro h
    apply hg.2
    intro v hv
    exact h k ((mem_keys_iff t k).2 ⟨v, hv⟩) (hc.zero_of_eq k)

theorem get_iff_stored_witness :
    StrictTotalOrder compareInt ∧ Reachable compareInt sampleTree ∧
    ((∀ v, sampleTree.Get 3 = (v, true) ↔
      ∃ k', compareInt 3 k' = 0 ∧ (k', v) ∈ sampleTree.root.toList) ∧
    (∀ v, sampleTree.Get 3 = (v, true) ↔
      ∃ (i : Nat) (k' : Int), sampleTree.Keys[i]? = some k' ∧ compareInt 3 k' = 0 ∧
        sampleTree.Values[i]? = some v) ∧
    ((∀ k' ∈ sampleTree.Keys, compareInt 3 k' ≠ 0) → sampleTree.Get 3 = (default, false))) :=
  ⟨compareInt_strict, sampleTree_reachable,
    get_iff_stored compareInt compareInt_strict sampleTree sampleTree_reachable 3⟩

/-- C20: on every tree reachable from the empty tree under a strict total order, `Keys()`
and `Values()` return without an index out of range, every slot of their slices is filled
by the in-order traversal, both have length `Size()`, and at every index `i` below that
length `Values()[i]` is the value stored with the key `Keys()[i]`. -/
theorem keys_values_slices [Inhabited K] [Inhabited V] (cmp : K → K → Int)
    (hc : StrictTotalOrder cmp) (t : Tree K V) (ht : Reachable cmp t) :
    t.KeysSlice = some t.Keys ∧ t.ValuesSlice = some t.Values ∧
    (t.Keys.length : Int) = t.Size ∧ (t.Values.length : Int) = t.Size ∧
    ∀ i, i < t.Keys.length → ∃ k v, t.Keys[i]? = some k ∧ t.Values[i]? = some v ∧
      t.root.toList[i]? = some (k, v) ∧ t.Get k = (v, true) := by
  have hi := ht.inv hc
  obtain ⟨h1, h2⟩ := slices_of_size t hi.size
  refine ⟨h1, h2, ?_, ?_, ?_⟩
  · simp [Tree.Keys, Tree.Size, hi.size, count_eq_length]
  · simp [Tree.Values, Tree.Size, hi.size, count_eq_length]
  · intro i hlt
    have hlt' : i < t.root.toList.length := by simpa [Tree.Keys] using hlt
    obtain ⟨e, hget⟩ : ∃ e, t.root.toList[i]? = some e :=
      ⟨_, List.getElem?_eq_getElem hlt'⟩
    obtain ⟨k, v⟩ := e
    have hkv := (keys_values_index t i k v).2 hget
    exact ⟨k, v, hkv.1, hkv.2, hget,
      (Get_spec hc t hi k).1 v (List.mem_iff_getElem?.2 ⟨i, hget⟩)⟩

theorem keys_values_slices_witness :
    StrictTotalOrder compareInt ∧ Reachable compareInt sampleTree ∧
    (sampleTree.KeysSlice = some sampleTree.Keys ∧
    sampleTree.ValuesSlice = some sampleTree.Values ∧
    (sampleTree.Keys.length : Int) = sampleTree.Size ∧
    (sampleTree.Values.length : Int) = sampleTree.Size ∧
    ∀ i, i < sampleTree.Keys.length → ∃ k v, sampleTree.Keys[i]? = some k ∧
      sampleTree.Values[i]? = some v ∧ sampleTree.root.toList[i]? = some (k, v) ∧
      sampleTree.Get k = (v, true)) :=
  ⟨compareInt_strict, sampleTree_reachable,
    keys_values_slices compareInt compareInt_strict sampleTree sampleTree_reachable⟩

/-! ## Clear and the height bound -/

/-- C21: on every tree, after `Clear()` the root is nil, `Size()` is 0, `Empty()` is true,
`Left()` and `Right()` return nil, `Get(k)` is not found for every key, and the comparator
is the one before. -/
theorem clear_resets [Inhabited V] (t : Tree K V) (k : K) :
    t.Clear.root = .nil ∧ t.Clear.Size = 0 ∧ t.Clear.Empty = true ∧
    t.Clear.Left = none ∧ t.Clear.Right = none ∧ t.Clear.Get k = (default, false) ∧
    t.Clear.comparator = t.comparator :=
  ⟨rfl, rfl, rfl, rfl, rfl, rfl, rfl⟩

theorem pow_bh_le_count (n : Node K V) (h : Bal n) : 2 ^ bh n ≤ n.count + 1 := by
  induction n with
  | nil => simp
  | mk k v c l r ihl ihr =>
    obtain ⟨hl, hr, he⟩ := h
    have h1 := ihl hl
    have h2 := ihr hr
    rw [← he] at h2
    simp only [bh, Node.count]
    split
    · rw [pow_succ]; omega
    · simp only [Nat.add_zero]; omega

theorem height_le_bh (n : Node K V) (hb : Bal n) (hr : RR n) :
    n.height ≤ 2 * bh n + (if nodeColor n = .red then 1 else 0) := by
  induction n with
  | nil => simp [Node.height]
  | mk k v c l r ihl ihr =>
    obtain ⟨hbl, hbr, he⟩ := hb
    obtain ⟨hrl, hrr, hred⟩ := hr
    have h1 := ihl hbl hrl
    have h2 := ihr hbr hrr
    rw [← he] at h2
    cases c
    · simp only [Node.height, bh, nodeColor_mk, if_true]
      split at h1 <;> split at h2 <;> simp <;> omega
    · obtain ⟨hcl, hcr⟩ := hred rfl
      simp only [hcl, hcr] at h1 h2
      simp only [Node.height, bh, nodeColor_mk]
      simp at h1 h2 ⊢
      omega

/-- C22: on every tree reachable from the empty tree under a strict total order, with `h`
the number of nodes on the longest root-to-nil path and `n = Size()`,
`2 ^ ceil(h / 2) <= n + 1`, and `h <= 2 * log2(n + 1)` with the logarithm rounded down. -/
theorem height_logarithmic (cmp : K → K → Int) (hc : StrictTotalOrder cmp) (t : Tree K V)
    (ht : Reachable cmp t) :
    (2 : Int) ^ ((t.root.height + 1) / 2) ≤ t.Size + 1 ∧
    t.root.height ≤ 2 * Nat.log 2 (t.Size.toNat + 1) := by
  have hi := ht.inv hc
  have h1 := pow_bh_le_count t.root hi.bal
  have h2 := height_le_bh t.root hi.bal hi.rr
  simp only [hi.black] at h2
  simp at h2
  have h3 : (t.root.height + 1) / 2 ≤ bh t.root := by omega
  have h4 : 2 ^ ((t.root.height + 1) / 2) ≤ t.root.count + 1 :=
    le_trans (Nat.pow_le_pow_right (by norm_num) h3) h1
  constructor
  · rw [Tree.Size, hi.size]
    exact_mod_cast h4
  · have h5 : bh t.root ≤ Nat.log 2 (t.root.count + 1) :=
      Nat.le_log_of_pow_le (by norm_num) h1
    rw [Tree.Size, hi.size]
    simp only [Int.toNat_ofNat]
    omega

theorem height_logarithmic_witness :
    StrictTotalOrder compareInt ∧ Reachable compareInt sampleTree ∧
    (2 : Int) ^ ((sampleTree.root.height + 1) / 2) ≤ sampleTree.Size + 1 ∧
    sampleTree.root.height ≤ 2 * Nat.log 2 (sampleTree.Size.toNat + 1) :=
  ⟨compareInt_strict, sampleTree_reachable,
    height_logarithmic compareInt compareInt_strict sampleTree sampleTree_reachable⟩

/-! ## Membership in the in-order list -/

theorem Get_iff [Inhabited V] {cmp : K → K → Int} (hc : StrictTotalOrder cmp)
    (t : Tree K V) (hi : Inv cmp t) (key : K) (v : V) :
    t.Get key = (v, true) ↔ (key, v) ∈ t.root.toList := by
  have hg := Get_spec hc t hi key
  constructor
  · intro h
    by_cases hex : ∃ w, (key, w) ∈ t.root.toList
    · obtain ⟨w, hw⟩ := hex
      have := hg.1 w hw
      rw [h] at this
      simp only [Prod.mk.injEq, and_true] at this
      rw [this]
      exact hw
    · have := hg.2 (fun w hw => hex ⟨w, hw⟩)
      rw [h] at this
      simp at this
  · exact hg.1 v

theorem Get_found_iff [Inhabited V] {cmp : K → K → Int} (hc : StrictTotalOrder cmp)
    (t : Tree K V) (hi : Inv cmp t) (key : K) :
    (t.Get key).2 = true ↔ ∃ v, (key, v) ∈ t.root.toList := by
  have hg := Get_spec hc t hi key
  constructor
  · intro h
    by_contra hex
    have := hg.2 (fun w hw => hex ⟨w, hw⟩)
    rw [this] at h
    simp at h
  · rintro ⟨v, hv⟩
    rw [hg.1 v hv]

theorem mem_functional [Inhabited V] {cmp : K → K → Int} (hc : StrictTotalOrder cmp)
    (t : Tree K V) (hi : Inv cmp t) {key : K} {v w : V}
    (hv : (key, v) ∈ t.root.toList) (hw : (key, w) ∈ t.root.toList) : v = w := by
  have h1 := (Get_spec hc t hi key).1 v hv
  have h2 := (Get_spec hc t hi key).1 w hw
  rw [h1] at h2
  simpa using h2

theorem Put_mem {cmp : K → K → Int} (hc : StrictTotalOrder cmp) (t : Tree K V)
    (hi : Inv cmp t) (key : K) (value : V) :
    ∃ t', t.Put key value = some t' ∧ Inv cmp t' ∧
      ∀ k x, (k, x) ∈ t'.root.toList ↔
        (k = key ∧ x = value) ∨ (k ≠ key ∧ (k, x) ∈ t.root.toList) := by
  obtain ⟨t', hp, hi', xs, ys, hl', hcase⟩ := Put_spec hc t hi key value
  refine ⟨t', hp, hi', ?_⟩
  have ho' := hi'.ordered
  rw [hl'] at ho'
  have hmem : ∀ k x, (k ≠ key ∧ (k, x) ∈ t.root.toList) ↔ (k, x) ∈ xs ++ ys := by
    intro k x
    constructor
    · rintro ⟨hne, hm⟩
      rcases hcase with ⟨hl, -⟩ | ⟨v0, hl, -⟩
      · rw [hl] at hm; exact hm
      · rw [hl] at hm
        simp only [List.mem_append, List.mem_cons, Prod.mk.injEq] at hm ⊢
        rcases hm with hm | ⟨hk, -⟩ | hm
        · exact Or.inl hm
        · exact absurd hk hne
        · exact Or.inr hm
    · intro hm
      refine ⟨?_, ?_⟩
      · rintro rfl
        exact Ordered_not_mem hc ho' x hm
      · rcases hcase with ⟨hl, -⟩ | ⟨v0, hl, -⟩
        · rw [hl]; exact hm
        · rw [hl]
          simp only [List.mem_append, List.mem_cons] at hm ⊢
          tauto
  intro k x
  rw [hmem, hl']
  simp only [List.mem_append, List.mem_cons, Prod.mk.injEq]
  tauto

theorem Remove_mem {cmp : K → K → Int} (hc : StrictTotalOrder cmp) (t : Tree K V)
    (hi : Inv cmp t) (key : K) :
    ∃ t' b, t.Remove key = some (t', b) ∧ Inv cmp t' ∧
      (∀ k x, (k, x) ∈ t'.root.toList ↔ (k ≠ key ∧ (k, x) ∈ t.root.toList)) ∧
      ((∃ v, (key, v) ∈ t.root.toList) → t'.size = t.size - 1) ∧
      ((∀ v, (key, v) ∉ t.root.toList) → t' = t) := by
  obtain ⟨t', b, hr, hi', hcase⟩ := Remove_spec hc t hi key
  refine ⟨t', b, hr, hi', ?_⟩
  rcases hcase with ⟨-, ht, -, hn⟩ | ⟨-, xs, v0, ys, hl, hl', hs⟩
  · subst ht
    refine ⟨?_, ?_, fun _ => rfl⟩
    · intro k x
      constructor
      · intro hm
        refine ⟨?_, hm⟩
        rintro rfl
        exact hn x hm
      · exact fun h => h.2
    · rintro ⟨v, hv⟩
      exact absurd hv (hn v)
  · have ho := hi.ordered
    rw [hl] at ho
    refine ⟨?_, fun _ => hs, ?_⟩
    · intro k x
      rw [hl, hl']
      constructor
      · intro hm
        refine ⟨?_, ?_⟩
        · rintro rfl
          exact Ordered_not_mem hc ho x hm
        · simp only [List.mem_append, List.mem_cons] at hm ⊢
          tauto
      · rintro ⟨hne, hm⟩
        simp only [List.mem_append, List.mem_cons, Prod.mk.injEq] at hm ⊢
        rcases hm with hm | ⟨hk, -⟩ | hm
        · exact Or.inl hm
        · exact absurd hk hne
        · exact Or.inr hm
    · intro hn
      exact absurd (by rw [hl]; simp) (hn v0)

theorem Inv_clear (cmp : K → K → Int) (t : Tree K V) (hi : Inv cmp t) :
    Inv cmp t.Clear :=
  ⟨hi.comparator, List.Pairwise.nil, trivial, trivial, rfl, rfl⟩

/-! ## The hash set -/

end rbtree

namespace hashset

open rbtree

variable {T : Type}

theorem Set_Contains_iff {cmp : T → T → Int} (hc : StrictTotalOrder cmp) (s : Set T)
    (hi : Inv cmp s.items.tree) (items : List T) :
    s.Contains items = true ↔ ∀ x ∈ items, (x, ()) ∈ s.items.tree.root.toList := by
  induction items with
  | nil => simp [Set.Contains]
  | cons item items ih =>
    have hf := Get_found_iff hc s.items.tree hi item
    simp only [Set.Contains, treemap.Map.Get, List.mem_cons, forall_eq_or_imp]
    by_cases hg : (s.items.tree.Get item).2 = true
    · obtain ⟨u, hu⟩ := hf.1 hg
      simp [hg, ih, hu]
    · have hn : (item, ()) ∉ s.items.tree.root.toList := fun hm => hg (hf.2 ⟨(), hm⟩)
      simp [hg, hn]

theorem Set_Add_spec {cmp : T → T → Int} (hc : StrictTotalOrder cmp) (items : List T)
    (s : Set T) (hi : Inv cmp s.items.tree) :
    ∃ s', s.Add items = some s' ∧ Inv cmp s'.items.tree ∧
      ∀ x, (x, ()) ∈ s'.items.tree.root.toList ↔
        x ∈ items ∨ (x, ()) ∈ s.items.tree.root.toList := by
  induction items generalizing s with
  | nil => exact ⟨s, rfl, hi, by simp⟩
  | cons item items ih =>
    obtain ⟨t', hp, hi', hm⟩ := Put_mem hc s.items.tree hi item ()
    obtain ⟨s', hs', hi'', hm'⟩ := ih ⟨⟨t'⟩⟩ hi'
    refine ⟨s', by simp [Set.Add, treemap.Map.Put, hp, hs'], hi'', ?_⟩
    intro x
    rw [hm', hm]
    simp only [List.mem_cons]
    by_cases hx : x = item <;> simp [hx]

theorem Set_Remove_spec {cmp : T → T → Int} (hc : StrictTotalOrder cmp) (items : List T)
    (s : Set T) (hi : Inv cmp s.items.tree) :
    ∃ s', s.Remove items = some s' ∧ Inv cmp s'.items.tree ∧
      ∀ x, (x, ()) ∈ s'.items.tree.root.toList ↔
        x ∉ items ∧ (x, ()) ∈ s.items.tree.root.toList := by
  induction items generalizing s with
  | nil => exact ⟨s, rfl, hi, by simp⟩
  | cons item items ih =>
    obtain ⟨t', b, hr, hi', hm, -, -⟩ := Remove_mem hc s.items.tree hi item
    obtain ⟨s', hs', hi'', hm'⟩ := ih ⟨⟨t'⟩⟩ hi'
    refine ⟨s', by simp [Set.Remove, treemap.Map.Remove, hr, hs'], hi'', ?_⟩
    intro x
    rw [hm', hm]
    simp only [List.mem_cons]
    tauto

theorem Set_NewWith_spec {cmp : T → T → Int} (hc : StrictTotalOrder cmp) (values : List T) :
    ∃ s, NewWith cmp values = some s ∧ Inv cmp s.items.tree ∧
      ∀ x, (x, ()) ∈ s.items.tree.root.toList ↔ x ∈ values := by
  obtain ⟨s, hs, hi, hm⟩ := Set_Add_spec hc values ⟨treemap.NewWith cmp⟩ (Inv_new cmp)
  cases values with
  | nil => exact ⟨⟨treemap.NewWith cmp⟩, rfl, Inv_new cmp, by simp [treemap.NewWith, rbtree.NewWith, Node.toList]⟩
  | cons v vs =>
    refine ⟨s, by simpa [NewWith] using hs, hi, ?_⟩
    intro x
    rw [hm]
    simp [treemap.NewWith, rbtree.NewWith, Node.toList]

theorem Set_run_spec [DecidableEq T] {cmp : T → T → Int} (hc : StrictTotalOrder cmp)
    (ops : List (Op T)) (s : Set T) (hi : Inv cmp s.items.tree) (now : T → Bool)
    (hnow : ∀ x, (x, ()) ∈ s.items.tree.root.toList ↔ now x = true) :
    ∃ s', run s ops = some s' ∧ Inv cmp s'.items.tree ∧
      ∀ x, (x, ()) ∈ s'.items.tree.root.toList ↔ present x (now x) ops = true := by
  induction ops generalizing s now with
  | nil => exact ⟨s, rfl, hi, by simpa [present] using hnow⟩
  | cons op ops ih =>
    cases op with
    | add items =>
      obtain ⟨s1, h1, hi1, hm1⟩ := Set_Add_spec hc items s hi
      obtain ⟨s', h2, hi2, hm2⟩ := ih s1 hi1 (fun x => now x || decide (x ∈ items))
        (fun x => by rw [hm1, hnow]; simp [or_comm])
      exact ⟨s', by simp [run, step, h1, h2], hi2, fun x => by rw [hm2]; simp [present]⟩
    | remove items =>
      obtain ⟨s1, h1, hi1, hm1⟩ := Set_Remove_spec hc items s hi
      obtain ⟨s', h2, hi2, hm2⟩ := ih s1 hi1 (fun x => now x && ! decide (x ∈ items))
        (fun x => by rw [hm1, hnow]; simp [and_comm])
      exact ⟨s', by simp [run, step, h1, h2], hi2, fun x => by rw [hm2]; simp [present]⟩
    | clear =>
      obtain ⟨s', h2, hi2, hm2⟩ := ih s.Clear (Inv_clear cmp _ hi) (fun _ => false)
        (fun x => by simp [Set.Clear, treemap.Map.Clear, Tree.Clear, Node.toList])
      exact ⟨s', by simp [run, step, h2], hi2, fun x => by rw [hm2]; simp [present]⟩

theorem Built_inv {cmp : T → T → Int} (hc : StrictTotalOrder cmp) {s : Set T}
    (h : Built cmp s) : Inv cmp s.items.tree := by
  classical
  obtain ⟨values, ops, s0, h0, hr⟩ := h
  obtain ⟨s0', h0', hi0, hm0⟩ := Set_NewWith_spec hc values
  rw [h0] at h0'
  cases h0'
  obtain ⟨s', hr', hi', -⟩ := Set_run_spec hc ops s0 hi0 (fun x => decide (x ∈ values))
    (fun x => by rw [hm0]; simp)
  rw [hr] at hr'
  cases hr'
  exact hi'

/-- C29: for a set made by `NewWith(comparator, values...)` under a strict total order and
then any calls of `Add`, `Remove` and `Clear`, `Contains(items...)` returns true exactly when
every element of `items` has been added and not since removed; and `Contains()` with no
arguments returns true on every set. -/
theorem contains_iff_present [DecidableEq T] (cmp : T → T → Int) (hc : StrictTotalOrder cmp)
    (values : List T) (ops : List (Op T)) :
    (∃ s0 s, NewWith cmp values = some s0 ∧ run s0 ops = some s ∧
      ∀ items, s.Contains items = true ↔
        ∀ x ∈ items, present x (decide (x ∈ values)) ops = true) ∧
    ∀ s : Set T, s.Contains [] = true := by
  refine ⟨?_, fun _ => rfl⟩
  obtain ⟨s0, h0, hi0, hm0⟩ := Set_NewWith_spec hc values
  obtain ⟨s, hr, hi, hm⟩ := Set_run_spec hc ops s0 hi0 (fun x => decide (x ∈ values))
    (fun x => by rw [hm0]; simp)
  refine ⟨s0, s, h0, hr, fun items => ?_⟩
  rw [Set_Contains_iff hc s hi]
  exact forall₂_congr fun x _ => hm x

theorem contains_iff_present_witness :
    StrictTotalOrder compareInt ∧
    ((∃ s0 s, NewWith compareInt [1, 2] = some s0 ∧
        run s0 [.add [3], .remove [1], .clear, .add [4, 5]] = some s ∧
      ∀ items, s.Contains items = true ↔
        ∀ x ∈ items, present x (decide (x ∈ [1, 2]))
          [.add [3], .remove [1], .clear, .add [4, 5]] = true) ∧
    ∀ s : Set Int, s.Contains [] = true) :=
  ⟨compareInt_strict,
    contains_iff_present compareInt compareInt_strict [1, 2]
      [.add [3], .remove [1], .clear, .add [4, 5]]⟩

end hashset

namespace rbtree

variable {K V : Type}

end rbtree

namespace hashset

open rbtree

variable {T : Type}

theorem Values_spec [Inhabited T] {cmp : T → T → Int} (s : Set T)
    (hi : Inv cmp s.items.tree) : s.Values = some s.items.tree.Keys :=
  (slices_of_size s.items.tree hi.size).1

theorem intersectionLoop_spec {cmp : T → T → Int} (hc : StrictTotalOrder cmp)
    (other : Set T) (ho : Inv cmp other.items.tree) (items : List T) (result : Set T)
    (hi : Inv cmp result.items.tree) :
    ∃ r, intersectionLoop other items result = some r ∧ Inv cmp r.items.tree ∧
      ∀ x, (x, ()) ∈ r.items.tree.root.toList ↔
        (x, ()) ∈ result.items.tree.root.toList ∨
          (x ∈ items ∧ (x, ()) ∈ other.items.tree.root.toList) := by
  induction items generalizing result with
  | nil => exact ⟨result, rfl, hi, by simp⟩
  | cons item items ih =>
    have hcon := Set_Contains_iff hc other ho [item]
    simp only [List.mem_singleton, forall_eq] at hcon
    by_cases hin : other.Contains [item] = true
    · obtain ⟨r1, h1, hi1, hm1⟩ := Set_Add_spec hc [item] result hi
      obtain ⟨r, h2, hi2, hm2⟩ := ih r1 hi1
      refine ⟨r, by simp [intersectionLoop, hin, h1, h2], hi2, ?_⟩
      intro x
      rw [hm2, hm1, List.mem_singleton, List.mem_cons]
      have := hcon.1 hin
      constructor
      · rintro ((rfl | h) | ⟨h, h'⟩)
        · exact Or.inr ⟨Or.inl rfl, this⟩
        · exact Or.inl h
        · exact Or.inr ⟨Or.inr h, h'⟩
      · rintro (h | ⟨rfl | h, h'⟩)
        · exact Or.inl (Or.inr h)
        · exact Or.inl (Or.inl rfl)
        · exact Or.inr ⟨h, h'⟩
    · obtain ⟨r, h2, hi2, hm2⟩ := ih result hi
      refine ⟨r, by simp [intersectionLoop, hin, h2], hi2, ?_⟩
      intro x
      rw [hm2]
      have hn : (item, ()) ∉ other.items.tree.root.toList := fun h => hin (hcon.2 h)
      simp only [List.mem_cons]
      constructor
      · rintro (h | ⟨h, h'⟩)
        · exact Or.inl h
        · exact Or.inr ⟨Or.inr h, h'⟩
      · rintro (h | ⟨rfl | h, h'⟩)
        · exact Or.inl h
        · exact absurd h' hn
        · exact Or.inr ⟨h, h'⟩

/-- C30: for two sets `a` and `b` built with the same strict-total-order comparator,
`a.Intersection(b)` returns a set, and for every element `x` that set contains `x` exactly
when `a` contains `x` and `b` contains `x`, whichever operand is the smaller one. -/
theorem intersection_contains [Inhabited T] (cmp : T → T → Int) (hc : StrictTotalOrder cmp)
    (a b : Set T) (ha : Built cmp a) (hb : Built cmp b) :
    ∃ r, a.Intersection b = some r ∧
      ∀ x, r.Contains [x] = true ↔ (a.Contains [x] = true ∧ b.Contains [x] = true) := by
  have hia := Built_inv hc ha
  have hib := Built_inv hc hb
  have hnew : Inv cmp a.New.items.tree := by
    have := @Inv_new T Unit a.items.tree.comparator
    rw [hia.comparator] at this
    simpa [Set.New, treemap.NewWith, treemap.Map.Comparator, Tree.Comparator,
      hia.comparator] using this
  have hempty : ∀ x, (x, ()) ∉ a.New.items.tree.root.toList := by
    intro x
    simp [Set.New, treemap.NewWith, rbtree.NewWith, Node.toList]
  have hca : ∀ x, a.Contains [x] = true ↔ (x, ()) ∈ a.items.tree.root.toList := fun x => by
    simpa using Set_Contains_iff hc a hia [x]
  have hcb : ∀ x, b.Contains [x] = true ↔ (x, ()) ∈ b.items.tree.root.toList := fun x => by
    simpa using Set_Contains_iff hc b hib [x]
  have hka : ∀ x, x ∈ a.items.tree.Keys ↔ (x, ()) ∈ a.items.tree.root.toList := fun x => by
    rw [mem_keys_iff]
    exact ⟨fun ⟨_, h⟩ => h, fun h => ⟨(), h⟩⟩
  have hkb : ∀ x, x ∈ b.items.tree.Keys ↔ (x, ()) ∈ b.items.tree.root.toList := fun x => by
    rw [mem_keys_iff]
    exact ⟨fun ⟨_, h⟩ => h, fun h => ⟨(), h⟩⟩
  by_cases hsz : a.Size ≤ b.Size
  · obtain ⟨r, hr, hir, hm⟩ := intersectionLoop_spec hc b hib a.items.tree.Keys a.New hnew
    refine ⟨r, by simp [Set.Intersection, hsz, Values_spec a hia, hr], fun x => ?_⟩
    have hcr : r.Contains [x] = true ↔ (x, ()) ∈ r.items.tree.root.toList := by
      simpa using Set_Contains_iff hc r hir [x]
    rw [hcr, hm, hca, hcb, hka]
    have := hempty x
    tauto
  · obtain ⟨r, hr, hir, hm⟩ := intersectionLoop_spec hc a hia b.items.tree.Keys a.New hnew
    refine ⟨r, by simp [Set.Intersection, hsz, Values_spec b hib, hr], fun x => ?_⟩
    have hcr : r.Contains [x] = true ↔ (x, ()) ∈ r.items.tree.root.toList := by
      simpa using Set_Contains_iff hc r hir [x]
    rw [hcr, hm, hca, hcb, hkb]
    have := hempty x
    tauto

theorem intersection_contains_witness :
    StrictTotalOrder compareInt ∧ Built compareInt sampleSet ∧ Built compareInt smallSet ∧
    (∃ r, sampleSet.Intersection smallSet = some r ∧
      ∀ x, r.Contains [x] = true ↔
        (sampleSet.Contains [x] = true ∧ smallSet.Contains [x] = true)) ∧
    (∃ r, smallSet.Intersection sampleSet = some r ∧
      ∀ x, r.Contains [x] = true ↔
        (smallSet.Contains [x] = true ∧ sampleSet.Contains [x] = true)) :=
  ⟨compareInt_strict, ⟨[1, 2, 3], [], sampleSet, by rfl, by rfl⟩,
    ⟨[3, 4], [], smallSet, by rfl, by rfl⟩,
    intersection_contains compareInt compareInt_strict sampleSet smallSet
      ⟨[1, 2, 3], [], sampleSet, by rfl, by rfl⟩ ⟨[3, 4], [], smallSet, by rfl, by rfl⟩,
    intersection_contains compareInt compareInt_strict smallSet sampleSet
      ⟨[3, 4], [], smallSet, by rfl, by rfl⟩ ⟨[1, 2, 3], [], sampleSet, by rfl, by rfl⟩⟩

end hashset

namespace rbtree

variable {K V : Type}

/-! ## The bidirectional tree map -/

end rbtree

namespace treebidimap

open rbtree

variable {K V : Type}

theorem sampleMap_reachable : Reachable compareInt compareInt sampleMap :=
  ⟨[.put 1 10, .put 2 20], by rfl⟩

theorem linked_remove {α β E : Type} {ca : α → α → Int} {cb : β → β → Int}
    (ha : StrictTotalOrder ca) (hb : StrictTotalOrder cb)
    (A : Tree α (Option E)) (B : Tree β (Option E)) (pb : E → β)
    (hA : Inv ca A) (hB : Inv cb B) (a : α)
    (hlink : ∀ x, (a, x) ∈ A.root.toList → ∃ e, x = some e ∧ (pb e, x) ∈ B.root.toList)
    (hkey : ∀ b x, (b, x) ∈ B.root.toList → ∃ e, x = some e ∧ pb e = b) :
    (∃ d, A.Get a = (d, false) ∧ ∀ x, (a, x) ∉ A.root.toList) ∨
    (∃ e B1 flag, A.Get a = (some e, true) ∧ B.Remove (pb e) = some (B1, flag) ∧
      Inv cb B1 ∧
      ∀ b x, (b, x) ∈ B1.root.toList ↔
        ((b, x) ∈ B.root.toList ∧ (a, x) ∉ A.root.toList)) := by
  by_cases hex : ∃ x, (a, x) ∈ A.root.toList
  · right
    obtain ⟨x, hx⟩ := hex
    obtain ⟨e, rfl, hbe⟩ := hlink x hx
    obtain ⟨B1, flag, hr, hi1, hm, -, -⟩ := Remove_mem hb B hB (pb e)
    refine ⟨e, B1, flag, (Get_iff ha A hA a _).2 hx, hr, hi1, ?_⟩
    intro b y
    rw [hm]
    constructor
    · rintro ⟨hne, hy⟩
      refine ⟨hy, fun hay => hne ?_⟩
      have := mem_functional ha A hA hay hx
      subst this
      obtain ⟨e', he', hpe⟩ := hkey b _ hy
      cases he'
      exact hpe.symm
    · rintro ⟨hy, hay⟩
      refine ⟨?_, hy⟩
      rintro rfl
      have := mem_functional hb B hB hy hbe
      subst this
      exact hay hx
  · left
    have hn : ∀ x, (a, x) ∉ A.root.toList := fun x hx => hex ⟨x, hx⟩
    exact ⟨default, (Get_spec ha A hA a).2 hn, hn⟩

theorem put_finish {kc : K → K → Int} {vc : V → V → Int} (hk : StrictTotalOrder kc)
    (hv : StrictTotalOrder vc) (m : Map K V) (hi : BInv kc vc m) (key : K) (value : V)
    (fwd1 : Tree K (Option (entry K V))) (inv1 : Tree V (Option (entry K V)))
    (hif : Inv kc fwd1) (hii : Inv vc inv1)
    (hm1 : ∀ v y, (v, y) ∈ inv1.root.toList ↔
      ((v, y) ∈ m.inverseMap.root.toList ∧ (key, y) ∉ m.forwardMap.root.toList))
    (hm2 : ∀ k x, (k, x) ∈ fwd1.root.toList ↔
      ((k, x) ∈ m.forwardMap.root.toList ∧ (value, x) ∉ inv1.root.toList)) :
    ∃ fwd2 inv2, fwd1.Put key (some ⟨key, value⟩) = some fwd2 ∧
      inv1.Put value (some ⟨key, value⟩) = some inv2 ∧
      BInv kc vc { m with forwardMap := fwd2, inverseMap := inv2 } ∧
      ∀ k v, Map.Holds { m with forwardMap := fwd2, inverseMap := inv2 } k v ↔
        (k = key ∧ v = value) ∨ (k ≠ key ∧ v ≠ value ∧ m.Holds k v) := by
  obtain ⟨hf, hin, f2i, i2f⟩ := hi
  obtain ⟨fwd2, hp1, hi1, hmf⟩ := Put_mem hk fwd1 hif key (some ⟨key, value⟩)
  obtain ⟨inv2, hp2, hi2, hmi⟩ := Put_mem hv inv1 hii value (some ⟨key, value⟩)
  refine ⟨fwd2, inv2, hp1, hp2, ⟨hi1, hi2, ?_, ?_⟩, ?_⟩
  · intro k x hx
    simp only at hx ⊢
    rw [hmf] at hx
    rcases hx with ⟨rfl, rfl⟩ | ⟨hne, hx⟩
    · exact ⟨value, rfl, (hmi _ _).2 (Or.inl ⟨rfl, rfl⟩)⟩
    · rw [hm2] at hx
      obtain ⟨hx, hnv⟩ := hx
      obtain ⟨v', rfl, hv'⟩ := f2i k x hx
      have h1 : (v', some (⟨k, v'⟩ : entry K V)) ∈ inv1.root.toList := by
        rw [hm1]
        refine ⟨hv', fun hkx => ?_⟩
        obtain ⟨v'', he, -⟩ := f2i key _ hkx
        simp only [Option.some.injEq, entry.mk.injEq] at he
        exact hne he.1
      refine ⟨v', rfl, (hmi _ _).2 (Or.inr ⟨?_, h1⟩)⟩
      rintro rfl
      exact hnv h1
  · intro v y hy
    simp only at hy ⊢
    rw [hmi] at hy
    rcases hy with ⟨rfl, rfl⟩ | ⟨hne, hy⟩
    · exact ⟨key, rfl, (hmf _ _).2 (Or.inl ⟨rfl, rfl⟩)⟩
    · have hy1 := hy
      rw [hm1] at hy
      obtain ⟨hy, hnk⟩ := hy
      obtain ⟨k', rfl, hk'⟩ := i2f v y hy
      refine ⟨k', rfl, (hmf _ _).2 (Or.inr ⟨?_, ?_⟩)⟩
      · rintro rfl
        exact hnk hk'
      · rw [hm2]
        refine ⟨hk', fun hvx => ?_⟩
        rw [hm1] at hvx
        obtain ⟨k'', he, -⟩ := i2f value _ hvx.1
        simp only [Option.some.injEq, entry.mk.injEq] at he
        exact hne he.2
  · intro k v
    simp only [Map.Holds]
    rw [hmf, hm2]
    constructor
    · rintro (⟨rfl, he⟩ | ⟨hne, hx, hnv⟩)
      · simp only [Option.some.injEq, entry.mk.injEq, true_and] at he
        exact Or.inl ⟨rfl, he⟩
      · refine Or.inr ⟨hne, ?_, hx⟩
        rintro rfl
        apply hnv
        rw [hm1]
        obtain ⟨v', he, hv'⟩ := f2i k _ hx
        simp only [Option.some.injEq, entry.mk.injEq, true_and] at he
        subst he
        refine ⟨hv', fun hkx => ?_⟩
        obtain ⟨v'', he, -⟩ := f2i key _ hkx
        simp only [Option.some.injEq, entry.mk.injEq] at he
        exact hne he.1
    · rintro (⟨rfl, rfl⟩ | ⟨hne, hnv, hx⟩)
      · exact Or.inl ⟨rfl, rfl⟩
      · refine Or.inr ⟨hne, hx, fun hvx => ?_⟩
        rw [hm1] at hvx
        obtain ⟨k'', he, -⟩ := i2f value _ hvx.1
        simp only [Option.some.injEq, entry.mk.injEq] at he
        exact hnv he.2

theorem bidi_Put_spec {kc : K → K → Int} {vc : V → V → Int} (hk : StrictTotalOrder kc)
    (hv : StrictTotalOrder vc) (m : Map K V) (hi : BInv kc vc m) (key : K) (value : V) :
    ∃ m', m.Put key value = some m' ∧ BInv kc vc m' ∧
      ∀ k v, m'.Holds k v ↔ (k = key ∧ v = value) ∨ (k ≠ key ∧ v ≠ value ∧ m.Holds k v) := by
  have hi0 := hi
  obtain ⟨hf, hin, f2i, i2f⟩ := hi
  have h1 := linked_remove hk hv m.forwardMap m.inverseMap entry.value hf hin key
    (fun x hx => by
      obtain ⟨v, rfl, h⟩ := f2i key x hx
      exact ⟨_, rfl, h⟩)
    (fun b x hx => by
      obtain ⟨k, rfl, -⟩ := i2f b x hx
      exact ⟨_, rfl, rfl⟩)
  obtain ⟨inv1, hii, hm1, hs1⟩ : ∃ inv1, Inv vc inv1 ∧
      (∀ v y, (v, y) ∈ inv1.root.toList ↔
        ((v, y) ∈ m.inverseMap.root.toList ∧ (key, y) ∉ m.forwardMap.root.toList)) ∧
      ((∃ d, m.forwardMap.Get key = (d, false) ∧ inv1 = m.inverseMap) ∨
       (∃ e flag, m.forwardMap.Get key = (some e, true) ∧
          m.inverseMap.Remove e.value = some (inv1, flag))) := by
    rcases h1 with ⟨d, hg, hn⟩ | ⟨e, B1, flag, hg, hr, hi1, hm⟩
    · exact ⟨m.inverseMap, hin, fun v y => ⟨fun h => ⟨h, hn y⟩, fun h => h.1⟩,
        Or.inl ⟨d, hg, rfl⟩⟩
    · exact ⟨B1, hi1, hm, Or.inr ⟨e, flag, hg, hr⟩⟩
  have h2 := linked_remove hv hk inv1 m.forwardMap entry.key hii hf value
    (fun x hx => by
      obtain ⟨k, rfl, h⟩ := i2f value x ((hm1 _ _).1 hx).1
      exact ⟨_, rfl, h⟩)
    (fun b x hx => by
      obtain ⟨v, rfl, -⟩ := f2i b x hx
      exact ⟨_, rfl, rfl⟩)
  obtain ⟨fwd1, hif, hm2, hs2⟩ : ∃ fwd1, Inv kc fwd1 ∧
      (∀ k x, (k, x) ∈ fwd1.root.toList ↔
        ((k, x) ∈ m.forwardMap.root.toList ∧ (value, x) ∉ inv1.root.toList)) ∧
      ((∃ d, inv1.Get value = (d, false) ∧ fwd1 = m.forwardMap) ∨
       (∃ e flag, inv1.Get value = (some e, true) ∧
          m.forwardMap.Remove e.key = some (fwd1, flag))) := by
    rcases h2 with ⟨d, hg, hn⟩ | ⟨e, B1, flag, hg, hr, hi1, hm⟩
    · exact ⟨m.forwardMap, hf, fun v y => ⟨fun h => ⟨h, hn y⟩, fun h => h.1⟩,
        Or.inl ⟨d, hg, rfl⟩⟩
    · exact ⟨B1, hi1, hm, Or.inr ⟨e, flag, hg, hr⟩⟩
  obtain ⟨fwd2, inv2, hp1, hp2, hb, hh⟩ :=
    put_finish hk hv m hi0 key value fwd1 inv1 hif hii hm1 hm2
  refine ⟨{ m with forwardMap := fwd2, inverseMap := inv2 }, ?_, hb, hh⟩
  rcases hs1 with ⟨d1, hg1, rfl⟩ | ⟨e1, flag1, hg1, hr1⟩ <;>
    rcases hs2 with ⟨d2, hg2, rfl⟩ | ⟨e2, flag2, hg2, hr2⟩ <;>
    simp [Map.Put, *]

end treebidimap

namespace rbtree

variable {K V : Type}

end rbtree

namespace treebidimap

open rbtree

variable {K V : Type}

theorem bidi_Remove_spec {kc : K → K → Int} {vc : V → V → Int} (hk : StrictTotalOrder kc)
    (hv : StrictTotalOrder vc) (m : Map K V) (hi : BInv kc vc m) (key : K) :
    ∃ m', m.Remove key = some m' ∧ BInv kc vc m' ∧
      (∀ k v, m'.Holds k v ↔ (k ≠ key ∧ m.Holds k v)) ∧
      ((∃ v, m.Holds key v) → m'.Size = m.Size - 1) ∧
      ((∀ v, ¬ m.Holds key v) → m' = m) := by
  have hi0 := hi
  obtain ⟨hf, hin, f2i, i2f⟩ := hi
  by_cases hex : ∃ x, (key, x) ∈ m.forwardMap.root.toList
  · obtain ⟨x, hx⟩ := hex
    obtain ⟨v1, rfl, hv1⟩ := f2i key x hx
    have hg := (Get_iff hk m.forwardMap hf key _).2 hx
    obtain ⟨fwd1, b1, hr1, hi1, hmf, hsz, -⟩ := Remove_mem hk m.forwardMap hf key
    obtain ⟨inv1, b2, hr2, hi2, hmi, -, -⟩ := Remove_mem hv m.inverseMap hin v1
    refine ⟨{ m with forwardMap := fwd1, inverseMap := inv1 }, by simp [Map.Remove, *],
      ⟨hi1, hi2, ?_, ?_⟩, ?_, fun _ => ?_, fun hn => absurd hx (hn v1)⟩
    · intro k y hy
      simp only at hy ⊢
      rw [hmf] at hy
      obtain ⟨hne, hy⟩ := hy
      obtain ⟨v', rfl, hv'⟩ := f2i k y hy
      refine ⟨v', rfl, (hmi _ _).2 ⟨?_, hv'⟩⟩
      rintro rfl
      have := mem_functional hv m.inverseMap hin hv' hv1
      simp only [Option.some.injEq, entry.mk.injEq] at this
      exact hne this.1
    · intro v y hy
      simp only at hy ⊢
      rw [hmi] at hy
      obtain ⟨hne, hy⟩ := hy
      obtain ⟨k', rfl, hk'⟩ := i2f v y hy
      refine ⟨k', rfl, (hmf _ _).2 ⟨?_, hk'⟩⟩
      rintro rfl
      have := mem_functional hk m.forwardMap hf hk' hx
      simp only [Option.some.injEq, entry.mk.injEq] at this
      exact hne this.2
    · intro k v
      simp only [Map.Holds]
      rw [hmf]
    · simp only [Map.Size, Tree.Size]
      exact hsz ⟨_, hx⟩
  · have hn : ∀ x, (key, x) ∉ m.forwardMap.root.toList := fun x hx => hex ⟨x, hx⟩
    have hg := (Get_spec hk m.forwardMap hf key).2 hn
    refine ⟨m, by simp [Map.Remove, hg], hi0, ?_, ?_, fun _ => rfl⟩
    · intro k v
      constructor
      · intro h
        refine ⟨?_, h⟩
        rintro rfl
        exact hn _ h
      · exact fun h => h.2
    · rintro ⟨v, h⟩
      exact absurd h (hn _)

theorem BInv_new (kc : K → K → Int) (vc : V → V → Int) :
    BInv kc vc (NewWith kc vc : Map K V) :=
  ⟨Inv_new kc, Inv_new vc, fun _ _ h => by simp [NewWith, rbtree.NewWith, Node.toList] at h,
    fun _ _ h => by simp [NewWith, rbtree.NewWith, Node.toList] at h⟩

theorem BInv_clear {kc : K → K → Int} {vc : V → V → Int} (m : Map K V)
    (hi : BInv kc vc m) : BInv kc vc m.Clear :=
  ⟨Inv_clear kc _ hi.fwd, Inv_clear vc _ hi.inv,
    fun _ _ h => by simp [Map.Clear, Tree.Clear, Node.toList] at h,
    fun _ _ h => by simp [Map.Clear, Tree.Clear, Node.toList] at h⟩

theorem bidi_run_inv {kc : K → K → Int} {vc : V → V → Int} (hk : StrictTotalOrder kc)
    (hv : StrictTotalOrder vc) (ops : List (Op K V)) (m : Map K V) (hi : BInv kc vc m) :
    ∃ m', run m ops = some m' ∧ BInv kc vc m' := by
  induction ops generalizing m with
  | nil => exact ⟨m, rfl, hi⟩
  | cons op ops ih =>
    cases op with
    | put key value =>
      obtain ⟨m1, h1, hi1, -⟩ := bidi_Put_spec hk hv m hi key value
      obtain ⟨m', h2, hi2⟩ := ih m1 hi1
      exact ⟨m', by simp [run, step, h1, h2], hi2⟩
    | remove key =>
      obtain ⟨m1, h1, hi1, -⟩ := bidi_Remove_spec hk hv m hi key
      obtain ⟨m', h2, hi2⟩ := ih m1 hi1
      exact ⟨m', by simp [run, step, h1, h2], hi2⟩
    | clear =>
      obtain ⟨m', h2, hi2⟩ := ih m.Clear (BInv_clear m hi)
      exact ⟨m', by simp [run, step, h2], hi2⟩

theorem Reachable_binv {kc : K → K → Int} {vc : V → V → Int} (hk : StrictTotalOrder kc)
    (hv : StrictTotalOrder vc) {m : Map K V} (h : Reachable kc vc m) : BInv kc vc m := by
  obtain ⟨ops, hr⟩ := h
  obtain ⟨m', hr', hi⟩ := bidi_run_inv hk hv ops _ (BInv_new kc vc)
  rw [hr] at hr'
  cases hr'
  exact hi

theorem bidi_Get_spec [Inhabited V] {kc : K → K → Int} {vc : V → V → Int}
    (hk : StrictTotalOrder kc) (m : Map K V) (hi : BInv kc vc m) (k : K) :
    (∀ v, m.Get k = some (v, true) ↔ m.Holds k v) ∧
    ((∀ v, ¬ m.Holds k v) → m.Get k = some (default, false)) ∧
    ∃ r, m.Get k = some r := by
  by_cases hex : ∃ x, (k, x) ∈ m.forwardMap.root.toList
  · obtain ⟨x, hx⟩ := hex
    obtain ⟨v0, rfl, -⟩ := hi.f2i k x hx
    have hg := (Get_iff hk m.forwardMap hi.fwd k _).2 hx
    have hget : m.Get k = some (v0, true) := by simp [Map.Get, hg]
    refine ⟨fun v => ?_, fun hn => absurd hx (hn v0), _, hget⟩
    rw [hget]
    constructor
    · intro h
      simp only [Option.some.injEq, Prod.mk.injEq, and_true] at h
      subst h
      exact hx
    · intro h
      have := mem_functional hk m.forwardMap hi.fwd h hx
      simp only [Option.some.injEq, entry.mk.injEq, true_and] at this
      rw [this]
  · have hn : ∀ x, (k, x) ∉ m.forwardMap.root.toList := fun x hx => hex ⟨x, hx⟩
    have hg := (Get_spec hk m.forwardMap hi.fwd k).2 hn
    have hget : m.Get k = some (default, false) := by simp [Map.Get, hg]
    refine ⟨fun v => ?_, fun _ => hget, _, hget⟩
    rw [hget]
    constructor
    · intro h
      simp at h
    · intro h
      exact absurd h (hn _)

theorem holds_iff_inverse {kc : K → K → Int} {vc : V → V → Int} (m : Map K V)
    (hi : BInv kc vc m) (k : K) (v : V) :
    m.Holds k v ↔ (v, some (⟨k, v⟩ : entry K V)) ∈ m.inverseMap.root.toList := by
  constructor
  · intro h
    obtain ⟨v', he, h'⟩ := hi.f2i k _ h
    simp only [Option.some.injEq, entry.mk.injEq, true_and] at he
    subst he
    exact h'
  · intro h
    obtain ⟨k', he, h'⟩ := hi.i2f v _ h
    simp only [Option.some.injEq, entry.mk.injEq, and_true] at he
    subst he
    exact h'

theorem bidi_GetKey_spec [Inhabited K] {kc : K → K → Int} {vc : V → V → Int}
    (hv : StrictTotalOrder vc) (m : Map K V) (hi : BInv kc vc m) (v : V) :
    (∀ k, m.GetKey v = some (k, true) ↔ m.Holds k v) ∧
    ((∀ k, ¬ m.Holds k v) → m.GetKey v = some (default, false)) ∧
    ∃ r, m.GetKey v = some r := by
  by_cases hex : ∃ x, (v, x) ∈ m.inverseMap.root.toList
  · obtain ⟨x, hx⟩ := hex
    obtain ⟨k0, rfl, -⟩ := hi.i2f v x hx
    have hg := (Get_iff hv m.inverseMap hi.inv v _).2 hx
    have hget : m.GetKey v = some (k0, true) := by simp [Map.GetKey, hg]
    refine ⟨fun k => ?_, fun hn => absurd ((holds_iff_inverse m hi k0 v).2 hx) (hn k0),
      _, hget⟩
    rw [hget, holds_iff_inverse m hi]
    constructor
    · intro h
      simp only [Option.some.injEq, Prod.mk.injEq, and_true] at h
      subst h
      exact hx
    · intro h
      have := mem_functional hv m.inverseMap hi.inv h hx
      simp only [Option.some.injEq, entry.mk.injEq, and_true] at this
      rw [this]
  · have hn : ∀ x, (v, x) ∉ m.inverseMap.root.toList := fun x hx => hex ⟨x, hx⟩
    have hg := (Get_spec hv m.inverseMap hi.inv v).2 hn
    have hget : m.GetKey v = some (default, false) := by simp [Map.GetKey, hg]
    refine ⟨fun k => ?_, fun _ => hget, _, hget⟩
    rw [hget, holds_iff_inverse m hi]
    constructor
    · intro h
      simp at h
    · intro h
      exact absurd h (hn _)

end treebidimap

namespace rbtree

variable {K V : Type}

end rbtree

namespace treebidimap

open rbtree

variable {K V : Type}

theorem bidi_Get_congr [Inhabited V] {kc : K → K → Int} {vc : V → V → Int}
    (hk : StrictTotalOrder kc) (m m' : Map K V) (hi : BInv kc vc m) (hi' : BInv kc vc m')
    (k : K) (h : ∀ v, m'.Holds k v ↔ m.Holds k v) : m'.Get k = m.Get k := by
  obtain ⟨h1, h2, -⟩ := bidi_Get_spec hk m hi k
  obtain ⟨h1', h2', -⟩ := bidi_Get_spec hk m' hi' k
  by_cases hex : ∃ v, m.Holds k v
  · obtain ⟨v, hv⟩ := hex
    rw [(h1 v).2 hv, (h1' v).2 ((h v).2 hv)]
  · have hn : ∀ v, ¬ m.Holds k v := fun v hv => hex ⟨v, hv⟩
    rw [h2 hn, h2' (fun v hv => hn v ((h v).1 hv))]

theorem bidi_GetKey_congr [Inhabited K] {kc : K → K → Int} {vc : V → V → Int}
    (hv : StrictTotalOrder vc) (m m' : Map K V) (hi : BInv kc vc m) (hi' : BInv kc vc m')
    (v : V) (h : ∀ k, m'.Holds k v ↔ m.Holds k v) : m'.GetKey v = m.GetKey v := by
  obtain ⟨h1, h2, -⟩ := bidi_GetKey_spec hv m hi v
  obtain ⟨h1', h2', -⟩ := bidi_GetKey_spec hv m' hi' v
  by_cases hex : ∃ k, m.Holds k v
  · obtain ⟨k, hk⟩ := hex
    rw [(h1 k).2 hk, (h1' k).2 ((h k).2 hk)]
  · have hn : ∀ k, ¬ m.Holds k v := fun k hk => hex ⟨k, hk⟩
    rw [h2 hn, h2' (fun k hk => hn k ((h k).1 hk))]

/-- C24: on every map reachable from the empty map by `Put`, `Remove` and `Clear`, with both
comparators strict total orders, `Get(k)` returns `(v, true)` exactly when `GetKey(v)` returns
`(k, true)`. -/
theorem one_to_one [Inhabited K] [Inhabited V] (kc : K → K → Int) (vc : V → V → Int)
    (hk : StrictTotalOrder kc) (hv : StrictTotalOrder vc) (m : Map K V)
    (hm : Reachable kc vc m) (k : K) (v : V) :
    m.Get k = some (v, true) ↔ m.GetKey v = some (k, true) := by
  have hi := Reachable_binv hk hv hm
  rw [(bidi_Get_spec hk m hi k).1 v, (bidi_GetKey_spec hv m hi v).1 k]

theorem one_to_one_witness :
    StrictTotalOrder compareInt ∧ Reachable compareInt compareInt sampleMap ∧
    (sampleMap.Get 1 = some (10, true) ↔ sampleMap.GetKey 10 = some (1, true)) ∧
    (sampleMap.Get 1 = some (20, true) ↔ sampleMap.GetKey 20 = some (1, true)) :=
  ⟨compareInt_strict, sampleMap_reachable,
    one_to_one compareInt compareInt compareInt_strict compareInt_strict sampleMap
      sampleMap_reachable 1 10,
    one_to_one compareInt compareInt compareInt_strict compareInt_strict sampleMap
      sampleMap_reachable 1 20⟩

/-- C25: on every map reachable from the empty map under strict total orders, `Put(k, v)`
returns, and afterwards `Get(k)` returns `(v, true)` and `GetKey(v)` returns `(k, true)`. -/
theorem put_binds_both [Inhabited K] [Inhabited V] (kc : K → K → Int) (vc : V → V → Int)
    (hk : StrictTotalOrder kc) (hv : StrictTotalOrder vc) (m : Map K V)
    (hm : Reachable kc vc m) (k : K) (v : V) :
    ∃ m', m.Put k v = some m' ∧ m'.Get k = some (v, true) ∧
      m'.GetKey v = some (k, true) := by
  have hi := Reachable_binv hk hv hm
  obtain ⟨m', hp, hi', hh⟩ := bidi_Put_spec hk hv m hi k v
  have hkv : m'.Holds k v := (hh k v).2 (Or.inl ⟨rfl, rfl⟩)
  exact ⟨m', hp, ((bidi_Get_spec hk m' hi' k).1 v).2 hkv,
    ((bidi_GetKey_spec hv m' hi' v).1 k).2 hkv⟩

theorem put_binds_both_witness :
    StrictTotalOrder compareInt ∧ Reachable compareInt compareInt sampleMap ∧
    ∃ m', sampleMap.Put 1 20 = some m' ∧ m'.Get 1 = some (20, true) ∧
      m'.GetKey 20 = some (1, true) :=
  ⟨compareInt_strict, sampleMap_reachable,
    put_binds_both compareInt compareInt compareInt_strict compareInt_strict sampleMap
      sampleMap_reachable 1 20⟩

/-- C26: on every map reachable from the empty map under strict total orders, `Put(k, v)`
returns, and afterwards: if `k` was bound to `v1 ≠ v` then `GetKey(v1)` is not found; if `v`
was bound to `k2 ≠ k` then `Get(k2)` is not found; `Get` is the same on every key other than
`k` and the old key of `v`, `GetKey` is the same on every value other than `v` and the old
value of `k`; so every pair `(k', v')` with `k' ≠ k` and `v' ≠ v` is bound after exactly when
it was before. -/
theorem put_unbinds_old [Inhabited K] [Inhabited V] (kc : K → K → Int) (vc : V → V → Int)
    (hk : StrictTotalOrder kc) (hv : StrictTotalOrder vc) (m : Map K V)
    (hm : Reachable kc vc m) (k : K) (v : V) :
    ∃ m', m.Put k v = some m' ∧
      (∀ v1, m.Get k = some (v1, true) → v1 ≠ v → m'.GetKey v1 = some (default, false)) ∧
      (∀ k2, m.GetKey v = some (k2, true) → k2 ≠ k → m'.Get k2 = some (default, false)) ∧
      (∀ k', k' ≠ k → m.GetKey v ≠ some (k', true) → m'.Get k' = m.Get k') ∧
      (∀ v', v' ≠ v → m.Get k ≠ some (v', true) → m'.GetKey v' = m.GetKey v') ∧
      (∀ k' v', k' ≠ k → v' ≠ v →
        (m'.Get k' = some (v', true) ↔ m.Get k' = some (v', true)) ∧
        (m'.GetKey v' = some (k', true) ↔ m.GetKey v' = some (k', true))) := by
  have hi := Reachable_binv hk hv hm
  obtain ⟨m', hp, hi', hh⟩ := bidi_Put_spec hk hv m hi k v
  have hfun1 : ∀ {a : K} {b c : V}, m.Holds a b → m.Holds a c → b = c := by
    intro a b c hb hc
    have h1 := ((bidi_Get_spec hk m hi a).1 b).2 hb
    rw [((bidi_Get_spec hk m hi a).1 c).2 hc] at h1
    simp only [Option.some.injEq, Prod.mk.injEq, and_true] at h1
    exact h1.symm
  have hfun2 : ∀ {a b : K} {c : V}, m.Holds a c → m.Holds b c → a = b := by
    intro a b c ha hb
    have h1 := ((bidi_GetKey_spec hv m hi c).1 a).2 ha
    rw [((bidi_GetKey_spec hv m hi c).1 b).2 hb] at h1
    simp only [Option.some.injEq, Prod.mk.injEq, and_true] at h1
    exact h1.symm
  refine ⟨m', hp, ?_, ?_, ?_, ?_, ?_⟩
  · intro v1 hg hne
    rw [(bidi_Get_spec hk m hi k).1 v1] at hg
    apply (bidi_GetKey_spec hv m' hi' v1).2.1
    intro k' hk'
    rw [hh] at hk'
    rcases hk' with ⟨-, h⟩ | ⟨hnk, -, h⟩
    · exact hne h
    · exact hnk (hfun2 h hg)
  · intro k2 hg hne
    rw [(bidi_GetKey_spec hv m hi v).1 k2] at hg
    apply (bidi_Get_spec hk m' hi' k2).2.1
    intro v' hv'
    rw [hh] at hv'
    rcases hv' with ⟨h, -⟩ | ⟨-, hnv, h⟩
    · exact hne h
    · exact hnv (hfun1 h hg)
  · intro k' hne hg
    have hg : ¬ m.Holds k' v := fun h => hg (((bidi_GetKey_spec hv m hi v).1 k').2 h)
    apply bidi_Get_congr hk m m' hi hi'
    intro v'
    rw [hh]
    constructor
    · rintro (⟨h, -⟩ | ⟨-, -, h⟩)
      · exact absurd h hne
      · exact h
    · intro h
      refine Or.inr ⟨hne, ?_, h⟩
      rintro rfl
      exact hg h
  · intro v' hne hg
    have hg : ¬ m.Holds k v' := fun h => hg (((bidi_Get_spec hk m hi k).1 v').2 h)
    apply bidi_GetKey_congr hv m m' hi hi'
    intro k'
    rw [hh]
    constructor
    · rintro (⟨-, h⟩ | ⟨-, -, h⟩)
      · exact absurd h hne
      · exact h
    · intro h
      refine Or.inr ⟨?_, hne, h⟩
      rintro rfl
      exact hg h
  · intro k' v' hnk hnv
    rw [(bidi_Get_spec hk m hi k').1 v', (bidi_Get_spec hk m' hi' k').1 v',
      (bidi_GetKey_spec hv m hi v').1 k', (bidi_GetKey_spec hv m' hi' v').1 k', hh]
    simp [hnk, hnv]

theorem put_unbinds_old_witness :
    StrictTotalOrder compareInt ∧ Reachable compareInt compareInt sampleMap ∧
    ∃ m', sampleMap.Put 1 20 = some m' ∧
      (∀ v1, sampleMap.Get 1 = some (v1, true) → v1 ≠ 20 →
        m'.GetKey v1 = some (default, false)) ∧
      (∀ k2, sampleMap.GetKey 20 = some (k2, true) → k2 ≠ 1 →
        m'.Get k2 = some (default, false)) ∧
      (∀ k', k' ≠ 1 → sampleMap.GetKey 20 ≠ some (k', true) →
        m'.Get k' = sampleMap.Get k') ∧
      (∀ v', v' ≠ 20 → sampleMap.Get 1 ≠ some (v', true) →
        m'.GetKey v' = sampleMap.GetKey v') ∧
      (∀ k' v', k' ≠ 1 → v' ≠ 20 →
        (m'.Get k' = some (v', true) ↔ sampleMap.Get k' = some (v', true)) ∧
        (m'.GetKey v' = some (k', true) ↔ sampleMap.GetKey v' = some (k', true))) :=
  ⟨compareInt_strict, sampleMap_reachable,
    put_unbinds_old compareInt compareInt compareInt_strict compareInt_strict sampleMap
      sampleMap_reachable 1 20⟩

/-- C27: on every map reachable from the empty map under strict total orders, `Remove(k)`
returns; when `k` was bound to `v`, afterwards `Get(k)` and `GetKey(v)` are not found,
`Size()` is one less, and `Get` on every other key and `GetKey` on every other value are the
same; when `k` was not bound, the map is the same. -/
theorem remove_unbinds_both [Inhabited K] [Inhabited V] (kc : K → K → Int)
    (vc : V → V → Int) (hk : StrictTotalOrder kc) (hv : StrictTotalOrder vc) (m : Map K V)
    (hm : Reachable kc vc m) (k : K) :
    ∃ m', m.Remove k = some m' ∧
      (∀ v, m.Get k = some (v, true) →
        m'.Get k = some (default, false) ∧ m'.GetKey v = some (default, false) ∧
        m'.Size = m.Size - 1 ∧
        (∀ k', k' ≠ k → m'.Get k' = m.Get k') ∧
        (∀ v', v' ≠ v → m'.GetKey v' = m.GetKey v')) ∧
      ((∀ v, m.Get k ≠ some (v, true)) → m' = m) := by
  have hi := Reachable_binv hk hv hm
  obtain ⟨m', hr, hi', hh, hsz, hsame⟩ := bidi_Remove_spec hk hv m hi k
  refine ⟨m', hr, ?_, ?_⟩
  · intro v hg
    rw [(bidi_Get_spec hk m hi k).1 v] at hg
    refine ⟨?_, ?_, hsz ⟨v, hg⟩, ?_, ?_⟩
    · apply (bidi_Get_spec hk m' hi' k).2.1
      intro v' hv'
      exact ((hh _ _).1 hv').1 rfl
    · apply (bidi_GetKey_spec hv m' hi' v).2.1
      intro k' hk'
      obtain ⟨hne, h⟩ := (hh _ _).1 hk'
      have h1 := ((bidi_GetKey_spec hv m hi v).1 k').2 h
      rw [((bidi_GetKey_spec hv m hi v).1 k).2 hg] at h1
      simp only [Option.some.injEq, Prod.mk.injEq, and_true] at h1
      exact hne h1.symm
    · intro k' hne
      apply bidi_Get_congr hk m m' hi hi'
      intro v'
      rw [hh]
      exact ⟨fun h => h.2, fun h => ⟨hne, h⟩⟩
    · intro v' hne
      apply bidi_GetKey_congr hv m m' hi hi'
      intro k'
      rw [hh]
      refine ⟨fun h => h.2, fun h => ⟨?_, h⟩⟩
      rintro rfl
      have h1 := ((bidi_Get_spec hk m hi k').1 v').2 h
      rw [((bidi_Get_spec hk m hi k').1 v).2 hg] at h1
      simp only [Option.some.injEq, Prod.mk.injEq, and_true] at h1
      exact hne h1.symm
  · intro hn
    apply hsame
    intro v hv'
    exact hn v (((bidi_Get_spec hk m hi k).1 v).2 hv')

theorem remove_unbinds_both_witness :
    StrictTotalOrder compareInt ∧ Reachable compareInt compareInt sampleMap ∧
    ∃ m', sampleMap.Remove 1 = some m' ∧
      (∀ v, sampleMap.Get 1 = some (v, true) →
        m'.Get 1 = some (default, false) ∧ m'.GetKey v = some (default, false) ∧
        m'.Size = sampleMap.Size - 1 ∧
        (∀ k', k' ≠ 1 → m'.Get k' = sampleMap.Get k') ∧
        (∀ v', v' ≠ v → m'.GetKey v' = sampleMap.GetKey v')) ∧
      ((∀ v, sampleMap.Get 1 ≠ some (v, true)) → m' = sampleMap) :=
  ⟨compareInt_strict, sampleMap_reachable,
    remove_unbinds_both compareInt compareInt compareInt_strict compareInt_strict sampleMap
      sampleMap_reachable 1⟩

theorem entries_length {kc : K → K → Int} {vc : V → V → Int} (hk : StrictTotalOrder kc)
    (hv : StrictTotalOrder vc) (m : Map K V) (hi : BInv kc vc m) :
    m.inverseMap.root.toList.length = m.forwardMap.root.toList.length := by
  classical
  have hnd1 : (m.forwardMap.root.toList.map Prod.snd).Nodup := by
    rw [List.Nodup, List.pairwise_map]
    refine List.Pairwise.imp_of_mem ?_ hi.fwd.ordered
    intro a b ha hb hlt heq
    obtain ⟨va, hea, -⟩ := hi.f2i a.1 a.2 ha
    obtain ⟨vb, heb, -⟩ := hi.f2i b.1 b.2 hb
    rw [hea, heb] at heq
    simp only [Option.some.injEq, entry.mk.injEq] at heq
    rw [heq.1] at hlt
    exact hk.irrefl _ hlt
  have hnd2 : (m.inverseMap.root.toList.map Prod.snd).Nodup := by
    rw [List.Nodup, List.pairwise_map]
    refine List.Pairwise.imp_of_mem ?_ hi.inv.ordered
    intro a b ha hb hlt heq
    obtain ⟨ka, hea, -⟩ := hi.i2f a.1 a.2 ha
    obtain ⟨kb, heb, -⟩ := hi.i2f b.1 b.2 hb
    rw [hea, heb] at heq
    simp only [Option.some.injEq, entry.mk.injEq] at heq
    rw [heq.2] at hlt
    exact hv.irrefl _ hlt
  have hperm : (m.inverseMap.root.toList.map Prod.snd).Perm
      (m.forwardMap.root.toList.map Prod.snd) := by
    rw [List.perm_ext_iff_of_nodup hnd2 hnd1]
    intro x
    simp only [List.mem_map, Prod.exists, exists_eq_right]
    constructor
    · rintro ⟨v, h⟩
      obtain ⟨k, -, h'⟩ := hi.i2f v x h
      exact ⟨k, h'⟩
    · rintro ⟨k, h⟩
      obtain ⟨v, -, h'⟩ := hi.f2i k x h
      exact ⟨v, h'⟩
  simpa using hperm.length_eq

/-- C28: on every map reachable from the empty map under strict total orders, `Keys()` and
`Values()` return; `Keys()` is strictly ascending under the key comparator, `Values()` is
strictly ascending under the value comparator, both have length `Size()`, and a value is in
`Values()` exactly when `GetKey` finds it. -/
theorem keys_values_ascending [Inhabited K] [Inhabited V] (kc : K → K → Int)
    (vc : V → V → Int) (hk : StrictTotalOrder kc) (hv : StrictTotalOrder vc) (m : Map K V)
    (hm : Reachable kc vc m) :
    ∃ ks vs, m.Keys = some ks ∧ m.Values = some vs ∧
      ks.Pairwise (fun a b => kc a b < 0) ∧ vs.Pairwise (fun a b => vc a b < 0) ∧
      (ks.length : Int) = m.Size ∧ (vs.length : Int) = m.Size ∧
      ∀ v, v ∈ vs ↔ ∃ k, m.GetKey v = some (k, true) := by
  have hi := Reachable_binv hk hv hm
  refine ⟨m.forwardMap.Keys, m.inverseMap.Keys, (slices_of_size _ hi.fwd.size).1,
    (slices_of_size _ hi.inv.size).1, ?_, ?_, ?_, ?_, ?_⟩
  · simp only [Tree.Keys, List.pairwise_map]
    exact hi.fwd.ordered
  · simp only [Tree.Keys, List.pairwise_map]
    exact hi.inv.ordered
  · simp only [Tree.Keys, List.length_map, Map.Size, Tree.Size, hi.fwd.size, count_eq_length]
  · simp only [Tree.Keys, List.length_map, Map.Size, Tree.Size, hi.fwd.size, count_eq_length,
      entries_length hk hv m hi]
  · intro v
    rw [mem_keys_iff]
    constructor
    · rintro ⟨x, hx⟩
      obtain ⟨k, rfl, -⟩ := hi.i2f v x hx
      exact ⟨k, ((bidi_GetKey_spec hv m hi v).1 k).2 ((holds_iff_inverse m hi k v).2 hx)⟩
    · rintro ⟨k, hg⟩
      exact ⟨_, (holds_iff_inverse m hi k v).1 (((bidi_GetKey_spec hv m hi v).1 k).1 hg)⟩

theorem keys_values_ascending_witness :
    StrictTotalOrder compareInt ∧ Reachable compareInt compareInt sampleMap ∧
    ∃ ks vs, sampleMap.Keys = some ks ∧ sampleMap.Values = some vs ∧
      ks.Pairwise (fun a b => compareInt a b < 0) ∧
      vs.Pairwise (fun a b => compareInt a b < 0) ∧
      (ks.length : Int) = sampleMap.Size ∧ (vs.length : Int) = sampleMap.Size ∧
      ∀ v, v ∈ vs ↔ ∃ k, sampleMap.GetKey v = some (k, true) :=
  ⟨compareInt_strict, sampleMap_reachable,
    keys_values_ascending compareInt compareInt compareInt_strict compareInt_strict sampleMap
      sampleMap_reachable⟩

end treebidimap

namespace rbtree

variable {K V : Type}

/-! ## The iterator -/

theorem leftLoop_walk (n : Node K V) (path : List (Frame K V))
    (parent : Option (Cursor K V)) :
    n = .nil ∨
    ∃ k v c r p, leftLoop n path parent = some ⟨.mk k v c .nil r, p⟩ ∧
      n.toList ++ after path = (k, v) :: (r.toList ++ after p) := by
  induction n generalizing path parent with
  | nil => exact Or.inl rfl
  | mk k v c l r ihl _ =>
    right
    simp only [leftLoop]
    rcases ihl (⟨.left, k, v, c, r⟩ :: path) (some ⟨.mk k v c l r, path⟩) with
      rfl | ⟨k1, v1, c1, r1, p, he, hl⟩
    · exact ⟨k, v, c, r, path, rfl, by simp [Node.toList]⟩
    · exact ⟨k1, v1, c1, r1, p, he, by simpa [Node.toList, after] using hl⟩

theorem rightLoop_walk (n : Node K V) (path : List (Frame K V))
    (parent : Option (Cursor K V)) :
    n = .nil ∨
    ∃ k v c l p, rightLoop n path parent = some ⟨.mk k v c l .nil, p⟩ ∧
      before path ++ n.toList = (before p ++ l.toList) ++ [(k, v)] := by
  induction n generalizing path parent with
  | nil => exact Or.inl rfl
  | mk k v c l r _ ihr =>
    right
    simp only [rightLoop]
    rcases ihr (⟨.right, k, v, c, l⟩ :: path) (some ⟨.mk k v c l r, path⟩) with
      rfl | ⟨k1, v1, c1, l1, p, he, hl⟩
    · exact ⟨k, v, c, l, path, rfl, by simp [Node.toList]⟩
    · exact ⟨k1, v1, c1, l1, p, he, by simpa [Node.toList, before] using hl⟩

theorem ascendNext_spec (path : List (Frame K V)) (sub : Node K V) :
    (after path = [] ∧ ascendNext sub path = none) ∨
    ∃ k v c l r p, ascendNext sub path = some ⟨.mk k v c l r, p⟩ ∧
      after path = (k, v) :: (r.toList ++ after p) := by
  induction path generalizing sub with
  | nil => exact Or.inl ⟨rfl, rfl⟩
  | cons f rest ih =>
    obtain ⟨d, fk, fv, fc, fo⟩ := f
    cases d with
    | left => exact Or.inr ⟨fk, fv, fc, sub, fo, rest, rfl, rfl⟩
    | right =>
      rcases ih (.mk fk fv fc fo sub) with ⟨h1, h2⟩ | ⟨k, v, c, l, r, p, h1, h2⟩
      · exact Or.inl ⟨h1, h2⟩
      · exact Or.inr ⟨k, v, c, l, r, p, h1, h2⟩

theorem ascendPrev_spec (path : List (Frame K V)) (sub : Node K V) :
    (before path = [] ∧ ascendPrev sub path = none) ∨
    ∃ k v c l r p, ascendPrev sub path = some ⟨.mk k v c l r, p⟩ ∧
      before path = (before p ++ l.toList) ++ [(k, v)] := by
  induction path generalizing sub with
  | nil => exact Or.inl ⟨rfl, rfl⟩
  | cons f rest ih =>
    obtain ⟨d, fk, fv, fc, fo⟩ := f
    cases d with
    | right => exact Or.inr ⟨fk, fv, fc, fo, sub, rest, rfl, by simp [before]⟩
    | left =>
      rcases ih (.mk fk fv fc sub fo) with ⟨h1, h2⟩ | ⟨k, v, c, l, r, p, h1, h2⟩
      · exact Or.inl ⟨h1, h2⟩
      · exact Or.inr ⟨k, v, c, l, r, p, h1, h2⟩

theorem successor_spec (k : K) (v : V) (c : color) (l r : Node K V)
    (path : List (Frame K V)) :
    (r.toList ++ after path = [] ∧ successor ⟨.mk k v c l r, path⟩ = none) ∨
    ∃ k1 v1 c1 l1 r1 p, successor ⟨.mk k v c l r, path⟩ = some ⟨.mk k1 v1 c1 l1 r1, p⟩ ∧
      r.toList ++ after path = (k1, v1) :: (r1.toList ++ after p) := by
  cases r with
  | nil =>
    rcases ascendNext_spec path (.mk k v c l .nil) with ⟨h1, h2⟩ | ⟨k1, v1, c1, l1, r1, p, h1, h2⟩
    · exact Or.inl ⟨by simpa [Node.toList] using h1, by simpa [successor] using h2⟩
    · exact Or.inr ⟨k1, v1, c1, l1, r1, p, by simpa [successor] using h1,
        by simpa [Node.toList] using h2⟩
  | mk rk rv rc rl rr =>
    rcases leftLoop_walk (.mk rk rv rc rl rr) (⟨.right, k, v, c, l⟩ :: path) none with
      h | ⟨k1, v1, c1, r1, p, h1, h2⟩
    · cases h
    · exact Or.inr ⟨k1, v1, c1, .nil, r1, p, by simpa [successor] using h1,
        by simpa [after] using h2⟩

theorem predecessor_spec (k : K) (v : V) (c : color) (l r : Node K V)
    (path : List (Frame K V)) :
    (before path ++ l.toList = [] ∧ predecessor ⟨.mk k v c l r, path⟩ = none) ∨
    ∃ k1 v1 c1 l1 r1 p, predecessor ⟨.mk k v c l r, path⟩ = some ⟨.mk k1 v1 c1 l1 r1, p⟩ ∧
      before path ++ l.toList = (before p ++ l1.toList) ++ [(k1, v1)] := by
  cases l with
  | nil =>
    rcases ascendPrev_spec path (.mk k v c .nil r) with ⟨h1, h2⟩ | ⟨k1, v1, c1, l1, r1, p, h1, h2⟩
    · exact Or.inl ⟨by simpa [Node.toList] using h1, by simpa [predecessor] using h2⟩
    · exact Or.inr ⟨k1, v1, c1, l1, r1, p, by simpa [predecessor] using h1,
        by simpa [Node.toList] using h2⟩
  | mk lk lv lc ll lr =>
    rcases rightLoop_walk (.mk lk lv lc ll lr) (⟨.left, k, v, c, r⟩ :: path) none with
      h | ⟨k1, v1, c1, l1, p, h1, h2⟩
    · cases h
    · exact Or.inr ⟨k1, v1, c1, l1, .nil, p, by simpa [predecessor] using h1,
        by simpa [before] using h2⟩

theorem nextAll_from (t : Tree K V) (fuel : Nat) (k : K) (v : V) (c : color)
    (l r : Node K V) (path : List (Frame K V))
    (hfuel : (r.toList ++ after path).length < fuel) :
    nextAll fuel ⟨t, some ⟨.mk k v c l r, path⟩, .between⟩
      = some ((r.toList ++ after path).map Prod.fst, ⟨t, none, .finish⟩) := by
  induction fuel generalizing k v c l r path with
  | zero => omega
  | succ fuel ih =>
    rcases successor_spec k v c l r path with ⟨h1, h2⟩ | ⟨k1, v1, c1, l1, r1, p, h1, h2⟩
    · simp [nextAll, Iterator.Next, h1, h2]
    · rw [h2] at hfuel ⊢
      have := ih k1 v1 c1 l1 r1 p (by simp at hfuel ⊢; omega)
      simp [nextAll, Iterator.Next, h1, Iterator.Key, this]

theorem prevAll_from (t : Tree K V) (fuel : Nat) (k : K) (v : V) (c : color)
    (l r : Node K V) (path : List (Frame K V))
    (hfuel : (before path ++ l.toList).length < fuel) :
    prevAll fuel ⟨t, some ⟨.mk k v c l r, path⟩, .between⟩
      = some (((before path ++ l.toList).map Prod.fst).reverse, ⟨t, none, .begin⟩) := by
  induction fuel generalizing k v c l r path with
  | zero => omega
  | succ fuel ih =>
    rcases predecessor_spec k v c l r path with ⟨h1, h2⟩ | ⟨k1, v1, c1, l1, r1, p, h1, h2⟩
    · simp [prevAll, Iterator.Prev, h1, h2]
    · rw [h2] at hfuel ⊢
      have := ih k1 v1 c1 l1 r1 p (by simp at hfuel ⊢; omega)
      simp [prevAll, Iterator.Prev, h1, Iterator.Key, this]

theorem nextAll_begin (t : Tree K V) (fuel : Nat) (hfuel : t.root.toList.length < fuel) :
    nextAll fuel t.Iterator = some (t.Keys, ⟨t, none, .finish⟩) := by
  cases fuel with
  | zero => omega
  | succ fuel =>
    rcases leftLoop_walk t.root [] none with h | ⟨k, v, c, r, p, h1, h2⟩
    · simp [nextAll, Iterator.Next, Tree.Iterator, Tree.Left, Tree.Keys, h, leftLoop,
        Node.toList]
    · simp only [after, List.append_nil] at h2
      rw [h2] at hfuel
      have := nextAll_from t fuel k v c .nil r p (by simp at hfuel ⊢; omega)
      simp [nextAll, Iterator.Next, Tree.Iterator, Tree.Left, Tree.Keys, h1, h2,
        Iterator.Key, this]

theorem prevAll_finish (t : Tree K V) (fuel : Nat) (hfuel : t.root.toList.length < fuel) :
    prevAll fuel ⟨t, none, .finish⟩ = some (t.Keys.reverse, ⟨t, none, .begin⟩) := by
  cases fuel with
  | zero => omega
  | succ fuel =>
    rcases rightLoop_walk t.root [] none with h | ⟨k, v, c, l, p, h1, h2⟩
    · simp [prevAll, Iterator.Prev, Tree.Right, Tree.Keys, h, rightLoop, Node.toList]
    · simp only [before, List.nil_append] at h2
      rw [h2] at hfuel
      have := prevAll_from t fuel k v c l .nil p (by simp at hfuel ⊢; omega)
      simp [prevAll, Iterator.Prev, Tree.Right, Tree.Keys, h1, h2, Iterator.Key, this]

/-- C23: on every tree reachable from the empty tree under a strict total order, the
iterator made by `Iterator()` starts in the before-first state; with more calls allowed than
the tree has nodes, calling `Next()` until it returns false visits the in-order keys, each
once and in strictly ascending order, and calling `Prev()` from there until it returns false
visits the reverse of that sequence. -/
theorem iterator_symmetry (cmp : K → K → Int) (hc : StrictTotalOrder cmp) (t : Tree K V)
    (ht : Reachable cmp t) (fuel : Nat) (hfuel : t.Size < fuel) :
    t.Iterator.position = .begin ∧
    t.Keys.Pairwise (fun a b => cmp a b < 0) ∧
    ∃ last, nextAll fuel t.Iterator = some (t.Keys, last) ∧
      ∃ first, prevAll fuel last = some (t.Keys.reverse, first) := by
  have hi := ht.inv hc
  have hlen : t.root.toList.length < fuel := by
    have := hi.size
    rw [Tree.Size, this, count_eq_length] at hfuel
    exact_mod_cast hfuel
  refine ⟨rfl, ?_, ⟨t, none, .finish⟩, nextAll_begin t fuel hlen,
    ⟨t, none, .begin⟩, prevAll_finish t fuel hlen⟩
  simp only [Tree.Keys, List.pairwise_map]
  exact hi.ordered

theorem iterator_symmetry_witness :
    StrictTotalOrder compareInt ∧ Reachable compareInt sampleTree ∧ sampleTree.Size < (4 : Nat) ∧
    sampleTree.Iterator.position = .begin ∧
    sampleTree.Keys.Pairwise (fun a b => compareInt a b < 0) ∧
    ∃ last, nextAll 4 sampleTree.Iterator = some (sampleTree.Keys, last) ∧
      ∃ first, prevAll 4 last = some (sampleTree.Keys.reverse, first) :=
  ⟨compareInt_strict, sampleTree_reachable, by decide,
    iterator_symmetry compareInt compareInt_strict sampleTree sampleTree_reachable 4
      (by decide)⟩

/-! ## Union and difference of hash sets -/

end rbtree

namespace hashset

open rbtree

variable {T : Type}

theorem Set_New_inv {cmp : T → T → Int} (a : Set T) (hia : Inv cmp a.items.tree) :
    Inv cmp a.New.items.tree ∧ ∀ x, (x, ()) ∉ a.New.items.tree.root.toList := by
  constructor
  · have := @Inv_new T Unit a.items.tree.comparator
    rw [hia.comparator] at this
    simpa [Set.New, treemap.NewWith, treemap.Map.Comparator, Tree.Comparator,
      hia.comparator] using this
  · intro x
    simp [Set.New, treemap.NewWith, rbtree.NewWith, Node.toList]

theorem Set_mem_keys (a : Set T) (x : T) :
    x ∈ a.items.tree.Keys ↔ (x, ()) ∈ a.items.tree.root.toList := by
  rw [mem_keys_iff]
  exact ⟨fun ⟨_, h⟩ => h, fun h => ⟨(), h⟩⟩

theorem Set_Contains_one {cmp : T → T → Int} (hc : StrictTotalOrder cmp) (s : Set T)
    (hi : Inv cmp s.items.tree) (x : T) :
    s.Contains [x] = true ↔ (x, ()) ∈ s.items.tree.root.toList := by
  simpa using Set_Contains_iff hc s hi [x]

theorem unionLoop_spec {cmp : T → T → Int} (hc : StrictTotalOrder cmp)
    (items : List T) (result : Set T) (hi : Inv cmp result.items.tree) :
    ∃ r, unionLoop items result = some r ∧ Inv cmp r.items.tree ∧
      ∀ x, (x, ()) ∈ r.items.tree.root.toList ↔
        (x, ()) ∈ result.items.tree.root.toList ∨ x ∈ items := by
  induction items generalizing result with
  | nil => exact ⟨result, rfl, hi, by simp⟩
  | cons item items ih =>
    obtain ⟨r1, h1, hi1, hm1⟩ := Set_Add_spec hc [item] result hi
    obtain ⟨r, h2, hi2, hm2⟩ := ih r1 hi1
    refine ⟨r, by simp [unionLoop, h1, h2], hi2, ?_⟩
    intro x
    rw [hm2, hm1, List.mem_singleton, List.mem_cons]
    tauto

theorem differenceLoop_spec {cmp : T → T → Int} (hc : StrictTotalOrder cmp)
    (other : Set T) (ho : Inv cmp other.items.tree) (items : List T) (result : Set T)
    (hi : Inv cmp result.items.tree) :
    ∃ r, differenceLoop other items result = some r ∧ Inv cmp r.items.tree ∧
      ∀ x, (x, ()) ∈ r.items.tree.root.toList ↔
        (x, ()) ∈ result.items.tree.root.toList ∨
          (x ∈ items ∧ (x, ()) ∉ other.items.tree.root.toList) := by
  induction items generalizing result with
  | nil => exact ⟨result, rfl, hi, by simp⟩
  | cons item items ih =>
    have hcon := Set_Contains_one hc other ho item
    by_cases hin : other.Contains [item] = true
    · obtain ⟨r, h2, hi2, hm2⟩ := ih result hi
      refine ⟨r, by simp [differenceLoop, hin, h2], hi2, ?_⟩
      intro x
      rw [hm2, List.mem_cons]
      have := hcon.1 hin
      constructor
      · rintro (h | ⟨h, h'⟩)
        · exact Or.inl h
        · exact Or.inr ⟨Or.inr h, h'⟩
      · rintro (h | ⟨rfl | h, h'⟩)
        · exact Or.inl h
        · exact absurd this h'
        · exact Or.inr ⟨h, h'⟩
    · obtain ⟨r1, h1, hi1, hm1⟩ := Set_Add_spec hc [item] result hi
      obtain ⟨r, h2, hi2, hm2⟩ := ih r1 hi1
      refine ⟨r, by simp [differenceLoop, hin, h1, h2], hi2, ?_⟩
      intro x
      rw [hm2, hm1, List.mem_singleton, List.mem_cons]
      have hn : (item, ()) ∉ other.items.tree.root.toList := fun h => hin (hcon.2 h)
      constructor
      · rintro ((rfl | h) | ⟨h, h'⟩)
        · exact Or.inr ⟨Or.inl rfl, hn⟩
        · exact Or.inl h
        · exact Or.inr ⟨Or.inr h, h'⟩
      · rintro (h | ⟨rfl | h, h'⟩)
        · exact Or.inl (Or.inr h)
        · exact Or.inl (Or.inl rfl)
        · exact Or.inr ⟨h, h'⟩

/-- C31: for two sets `a` and `b` built with the same strict-total-order comparator,
`a.Union(b)` returns a set, and for every element `x` that set contains `x` exactly when `a`
contains `x` or `b` contains `x`. -/
theorem union_contains [Inhabited T] (cmp : T → T → Int) (hc : StrictTotalOrder cmp)
    (a b : Set T) (ha : Built cmp a) (hb : Built cmp b) :
    ∃ r, a.Union b = some r ∧
      ∀ x, r.Contains [x] = true ↔ (a.Contains [x] = true ∨ b.Contains [x] = true) := by
  have hia := Built_inv hc ha
  have hib := Built_inv hc hb
  obtain ⟨hnew, hempty⟩ := Set_New_inv a hia
  obtain ⟨r1, h1, hi1, hm1⟩ := unionLoop_spec hc a.items.tree.Keys a.New hnew
  obtain ⟨r, h2, hi2, hm2⟩ := unionLoop_spec hc b.items.tree.Keys r1 hi1
  refine ⟨r, by simp [Set.Union, Values_spec a hia, Values_spec b hib, h1, h2], fun x => ?_⟩
  rw [Set_Contains_one hc r hi2, Set_Contains_one hc a hia, Set_Contains_one hc b hib,
    hm2, hm1, Set_mem_keys, Set_mem_keys]
  have := hempty x
  tauto

theorem union_contains_witness :
    StrictTotalOrder compareInt ∧ Built compareInt sampleSet ∧ Built compareInt smallSet ∧
    ∃ r, sampleSet.Union smallSet = some r ∧
      ∀ x, r.Contains [x] = true ↔
        (sampleSet.Contains [x] = true ∨ smallSet.Contains [x] = true) :=
  ⟨compareInt_strict, ⟨[1, 2, 3], [], sampleSet, by rfl, by rfl⟩,
    ⟨[3, 4], [], smallSet, by rfl, by rfl⟩,
    union_contains compareInt compareInt_strict sampleSet smallSet
      ⟨[1, 2, 3], [], sampleSet, by rfl, by rfl⟩ ⟨[3, 4], [], smallSet, by rfl, by rfl⟩⟩

/-- C32: for two sets `a` and `b` built with the same strict-total-order comparator,
`a.Difference(b)` returns a set, and for every element `x` that set contains `x` exactly when
`a` contains `x` and `b` does not. -/
theorem difference_contains [Inhabited T] (cmp : T → T → Int) (hc : StrictTotalOrder cmp)
    (a b : Set T) (ha : Built cmp a) (hb : Built cmp b) :
    ∃ r, a.Difference b = some r ∧
      ∀ x, r.Contains [x] = true ↔ (a.Contains [x] = true ∧ b.Contains [x] = false) := by
  have hia := Built_inv hc ha
  have hib := Built_inv hc hb
  obtain ⟨hnew, hempty⟩ := Set_New_inv a hia
  obtain ⟨r, h1, hi1, hm1⟩ := differenceLoop_spec hc b hib a.items.tree.Keys a.New hnew
  refine ⟨r, by simp [Set.Difference, Values_spec a hia, h1], fun x => ?_⟩
  have hb' : b.Contains [x] = false ↔ (x, ()) ∉ b.items.tree.root.toList := by
    rw [← Set_Contains_one hc b hib]
    simp
  rw [Set_Contains_one hc r hi1, Set_Contains_one hc a hia, hb', hm1, Set_mem_keys]
  have := hempty x
  tauto

theorem difference_contains_witness :
    StrictTotalOrder compareInt ∧ Built compareInt sampleSet ∧ Built compareInt smallSet ∧
    ∃ r, sampleSet.Difference smallSet = some r ∧
      ∀ x, r.Contains [x] = true ↔
        (sampleSet.Contains [x] = true ∧ smallSet.Contains [x] = false) :=
  ⟨compareInt_strict, ⟨[1, 2, 3], [], sampleSet, by rfl, by rfl⟩,
    ⟨[3, 4], [], smallSet, by rfl, by rfl⟩,
    difference_contains compareInt compareInt_strict sampleSet smallSet
      ⟨[1, 2, 3], [], sampleSet, by rfl, by rfl⟩ ⟨[3, 4], [], smallSet, by rfl, by rfl⟩⟩

end hashset

namespace rbtree

variable {K V : Type}

/-! ## The size of a B-tree node -/

end rbtree

namespace btree

variable {K V : Type}

mutual
theorem Size_eq_nodes : ∀ n : Node K V, n.Size = n.nodes
  | .nil => rfl
  | .mk _ children => by
    simp only [Node.Size, Node.nodes]
    exact sizeLoop_eq 1 children
theorem sizeLoop_eq : ∀ (size : Int) (children : List (Node K V)),
    sizeLoop size children = size + nodesOf children
  | size, [] => by simp [sizeLoop, nodesOf]
  | size, child :: children => by
    simp only [sizeLoop, nodesOf]
    rw [sizeLoop_eq (size + child.Size) children, Size_eq_nodes child]
    omega
end

/-- C33: `Size()` counts one for every node, whatever the length of its `Entries`: on a leaf
holding two entries it returns 1 while two elements are stored, and on a root with one entry
over two such leaves it returns 3 while five elements are stored. -/
theorem size_of_two_entry_leaf :
    twoEntryLeaf.Size = 1 ∧ twoEntryLeaf.elements = 2 ∧
    fiveEntryTree.Size = 3 ∧ fiveEntryTree.elements = 5 ∧
    (Node.nil : Node Int Int).Size = 0 := by
  decide

end btree

namespace rbtree

variable {K V : Type}

/-! ## The linked hash set -/

end rbtree

namespace linkedhashset

open rbtree

variable {T L : Type}

/-- C34: on every linked hash set, for every item `x` that `Contains` reports as present,
`Add(x)` returns the set as it was: the table, the ordering list and `Size()` are the ones
before. -/
theorem add_contained_unchanged (Append : L → T → L) (Size : L → Int) (set : Set T L) (x : T)
    (h : set.Contains [x] = true) :
    ∃ set', set.Add Append [x] = some set' ∧ set' = set ∧ set'.table = set.table ∧
      set'.ordering = set.ordering ∧ set'.Size Size = set.Size Size :=
  ⟨set, by simp [Set.Add, h], rfl, rfl, rfl, rfl⟩

theorem add_contained_unchanged_witness :
    sampleLinkedSet.Contains [1] = true ∧
    ∃ set', sampleLinkedSet.Add (fun l x => l ++ [x]) [1] = some set' ∧ set' = sampleLinkedSet ∧
      set'.table = sampleLinkedSet.table ∧ set'.ordering = sampleLinkedSet.ordering ∧
      set'.Size (fun l => (l.length : Int)) = sampleLinkedSet.Size (fun l => (l.length : Int)) :=
  ⟨by decide, add_contained_unchanged (fun l x => l ++ [x]) (fun l => (l.length : Int))
    sampleLinkedSet 1 (by decide)⟩

end linkedhashset

namespace rbtree

variable {K V : Type}

/-! ## Refinement to a sorted association list -/

theorem assocInsert_new {cmp : K → K → Int} (hc : StrictTotalOrder cmp) (k : K) (v : V)
    (xs ys : List (K × V)) (ho : Ordered cmp (xs ++ (k, v) :: ys)) :
    assocInsert cmp k v (xs ++ ys) = xs ++ (k, v) :: ys := by
  induction xs with
  | nil =>
    cases ys with
    | nil => rfl
    | cons y ys =>
      obtain ⟨k', v'⟩ := y
      have : cmp k k' < 0 := by
        simp only [Ordered, List.nil_append, List.pairwise_cons] at ho
        exact ho.1 _ (List.mem_cons_self _ _)
      simp [assocInsert, this]
  | cons x xs ih =>
    obtain ⟨k', v'⟩ := x
    simp only [Ordered, List.cons_append, List.pairwise_cons] at ho
    have hlt : cmp k' k < 0 := ho.1 (k, v) (by simp)
    have hgt : 0 < cmp k k' := (hc.swap k k').2 hlt
    have h1 : ¬ cmp k k' < 0 := by omega
    have h2 : ¬ cmp k k' = 0 := by omega
    simp only [List.cons_append, assocInsert, h1, h2, if_false]
    exact congrArg _ (ih ho.2)

theorem assocInsert_old {cmp : K → K → Int} (hc : StrictTotalOrder cmp) (k : K) (v v0 : V)
    (xs ys : List (K × V)) (ho : Ordered cmp (xs ++ (k, v) :: ys)) :
    assocInsert cmp k v (xs ++ (k, v0) :: ys) = xs ++ (k, v) :: ys := by
  induction xs with
  | nil =>
    have h1 : ¬ cmp k k < 0 := hc.irrefl k
    have h2 : cmp k k = 0 := hc.zero_of_eq k
    simp [assocInsert, h1, h2]
  | cons x xs ih =>
    obtain ⟨k', v'⟩ := x
    simp only [Ordered, List.cons_append, List.pairwise_cons] at ho
    have hlt : cmp k' k < 0 := ho.1 (k, v) (by simp)
    have hgt : 0 < cmp k k' := (hc.swap k k').2 hlt
    have h1 : ¬ cmp k k' < 0 := by omega
    have h2 : ¬ cmp k k' = 0 := by omega
    simp only [List.cons_append, assocInsert, h1, h2, if_false]
    exact congrArg _ (ih ho.2)

theorem assocErase_old {cmp : K → K → Int} (hc : StrictTotalOrder cmp) (k : K) (v0 : V)
    (xs ys : List (K × V)) (ho : Ordered cmp (xs ++ (k, v0) :: ys)) :
    assocErase cmp k (xs ++ (k, v0) :: ys) = xs ++ ys := by
  induction xs with
  | nil => simp [assocErase, hc.zero_of_eq k]
  | cons x xs ih =>
    obtain ⟨k', v'⟩ := x
    simp only [Ordered, List.cons_append, List.pairwise_cons] at ho
    have hlt : cmp k' k < 0 := ho.1 (k, v0) (by simp)
    have hgt : 0 < cmp k k' := (hc.swap k k').2 hlt
    have h2 : ¬ cmp k k' = 0 := by omega
    simp only [List.cons_append, assocErase, h2, if_false]
    exact congrArg _ (ih ho.2)

theorem assocErase_absent {cmp : K → K → Int} (hc : StrictTotalOrder cmp) (k : K)
    (l : List (K × V)) (hn : ∀ v, (k, v) ∉ l) : assocErase cmp k l = l := by
  induction l with
  | nil => rfl
  | cons x xs ih =>
    obtain ⟨k', v'⟩ := x
    have h2 : ¬ cmp k k' = 0 := by
      intro h
      have := hc.eq_of_zero h
      subst this
      exact hn v' (List.mem_cons_self _ _)
    simp only [assocErase, h2, if_false]
    rw [ih (fun v hv => hn v (List.mem_cons_of_mem _ hv))]

/-- C39: on every tree reachable from the empty tree under a strict total order, with
`abs(t)` the in-order list of pairs: `Put(k, v)` returns a tree whose `abs` is `abs(t)` with
`(k, v)` inserted at its sorted position, or put in the place of the pair for `k` when there
is one; `Remove(k)` returns a tree whose `abs` is `abs(t)` with the pair for `k` deleted, and
`abs(t)` itself when `k` is absent. -/
theorem refines_assoc_list (cmp : K → K → Int) (hc : StrictTotalOrder cmp) (t : Tree K V)
    (ht : Reachable cmp t) (k : K) (v : V) :
    (∃ t', t.Put k v = some t' ∧ t'.abs = assocInsert cmp k v t.abs) ∧
    (∃ t' found, t.Remove k = some (t', found) ∧ t'.abs = assocErase cmp k t.abs ∧
      ((∀ v0, (k, v0) ∉ t.abs) → t'.abs = t.abs)) := by
  have hi := ht.inv hc
  constructor
  · obtain ⟨t', hp, hi', xs, ys, hl', hcase⟩ := Put_spec hc t hi k v
    refine ⟨t', hp, ?_⟩
    have ho' := hi'.ordered
    rw [hl'] at ho'
    simp only [Tree.abs]
    rcases hcase with ⟨hl, -⟩ | ⟨v0, hl, -⟩
    · rw [hl, hl', assocInsert_new hc k v xs ys ho']
    · rw [hl, hl', assocInsert_old hc k v v0 xs ys ho']
  · obtain ⟨t', b, hr, hi', hcase⟩ := Remove_spec hc t hi k
    refine ⟨t', b, hr, ?_⟩
    simp only [Tree.abs]
    rcases hcase with ⟨-, rfl, -, hn⟩ | ⟨-, xs, v0, ys, hl, hl', -⟩
    · exact ⟨(assocErase_absent hc k _ hn).symm, fun _ => rfl⟩
    · have ho := hi.ordered
      rw [hl] at ho
      refine ⟨by rw [hl, hl', assocErase_old hc k v0 xs ys ho], fun hn => ?_⟩
      exact absurd (by rw [hl]; simp) (hn v0)

theorem refines_assoc_list_witness :
    StrictTotalOrder compareInt ∧ Reachable compareInt sampleTree ∧
    (∃ t', sampleTree.Put 4 40 = some t' ∧
      t'.abs = assocInsert compareInt 4 40 sampleTree.abs) ∧
    (∃ t' found, sampleTree.Remove 4 = some (t', found) ∧
      t'.abs = assocErase compareInt 4 sampleTree.abs ∧
      ((∀ v0, (4, v0) ∉ sampleTree.abs) → t'.abs = sampleTree.abs)) :=
  ⟨compareInt_strict, sampleTree_reachable,
    refines_assoc_list compareInt compareInt_strict sampleTree sampleTree_reachable 4 40⟩

end rbtree

namespace treebidimap

open rbtree

variable {K V : Type}

/-- C40: on every map reachable from the empty map by `Put`, `Remove` and `Clear` under
strict total orders, the forward tree and the inverse tree have the same size and the same
number of nodes; every entry the forward tree stores under a key `k` carries the key `k` and
is the entry the inverse tree stores under that entry's value; and `Values()` returns a slice
whose length is `Size()`. -/
theorem forward_inverse_agree [Inhabited V] (kc : K → K → Int) (vc : V → V → Int)
    (hk : StrictTotalOrder kc) (hv : StrictTotalOrder vc) (m : Map K V)
    (hm : Reachable kc vc m) :
    m.forwardMap.Size = m.inverseMap.Size ∧
    m.forwardMap.root.count = m.inverseMap.root.count ∧
    (∀ k d, m.forwardMap.Get k = (some d, true) →
      d.key = k ∧ m.inverseMap.Get d.value = (some d, true)) ∧
    ∃ vs, m.Values = some vs ∧ (vs.length : Int) = m.Size := by
  have hi := Reachable_binv hk hv hm
  have hlen := entries_length hk hv m hi
  have hcount : m.forwardMap.root.count = m.inverseMap.root.count := by
    rw [count_eq_length, count_eq_length, hlen]
  refine ⟨?_, hcount, ?_, m.inverseMap.Keys, (slices_of_size _ hi.inv.size).1, ?_⟩
  · simp only [Tree.Size, hi.fwd.size, hi.inv.size, hcount]
  · intro k d hg
    have hmem := (Get_iff hk m.forwardMap hi.fwd k (some d)).1 hg
    obtain ⟨v, he, hin⟩ := hi.f2i k _ hmem
    simp only [Option.some.injEq] at he
    subst he
    exact ⟨rfl, (Get_iff hv m.inverseMap hi.inv v _).2 hin⟩
  · simp only [Tree.Keys, List.length_map, Map.Size, Tree.Size, hi.fwd.size, count_eq_length,
      hlen]

theorem forward_inverse_agree_witness :
    StrictTotalOrder compareInt ∧ Reachable compareInt compareInt sampleMap ∧
    sampleMap.forwardMap.Size = sampleMap.inverseMap.Size ∧
    sampleMap.forwardMap.root.count = sampleMap.inverseMap.root.count ∧
    (∀ k d, sampleMap.forwardMap.Get k = (some d, true) →
      d.key = k ∧ sampleMap.inverseMap.Get d.value = (some d, true)) ∧
    ∃ vs, sampleMap.Values = some vs ∧ (vs.length : Int) = sampleMap.Size :=
  ⟨compareInt_strict, sampleMap_reachable,
    forward_inverse_agree compareInt compareInt compareInt_strict compareInt_strict sampleMap
      sampleMap_reachable⟩

end treebidimap

namespace rbtree

variable {K V : Type}

/-! ## The predecessor swap of Remove -/

theorem maximumNode_append (l : Node K V) (p : List (Frame K V)) :
    maximumNode l p = ⟨(maximumNode l []).node, (maximumNode l []).path ++ p⟩ := by
  induction l generalizing p with
  | nil => rfl
  | mk k v c l r _ ihr =>
    simp only [maximumNode]
    split
    · rfl
    · rw [ihr (⟨.right, k, v, c, l⟩ :: p), ihr [⟨.right, k, v, c, l⟩]]
      simp

theorem lookup_zip (t : Tree K V) (key : K) (node : Cursor K V)
    (h : t.lookup key = some node) :
    t.root = zip node.path node.node ∧ node.node.isNil = false ∧
      ∀ k v c l r, node.node = .mk k v c l r → t.comparator key k = 0 := by
  rw [lookup_eq_descend] at h
  split at h
  · cases h
  · rename_i hn
    simp only [Option.some.injEq] at h
    subst h
    exact ⟨(descend_zip t.comparator key t.root []).symm, by simpa using hn,
      fun k v c l r hd => descend_found _ _ _ _ k v c l r hd⟩

/-- C35, counterexample: the claim as stated fails for the tree after `Remove`.  On the
reachable tree `rotationTree` the key 2 is in the root, which has two non-nil children and
the black leaf 1 as predecessor; `Remove(2)` puts the pair of 1 in that node and splices the
leaf out, and the deletion fixup then rotates the node to the left: the node, found under
the key 1, is afterwards the left child of the node 4, which is the new root, and its right
child is the node 3, so neither its parent nor its right child slot is the one before. -/
theorem remove_keeps_node_counterexample :
    Reachable compareInt rotationTree ∧
    rotationTree.lookup 2 = some ⟨.mk 2 20 .black (.mk 1 10 .black .nil .nil)
      (.mk 4 40 .black (.mk 3 30 .red .nil .nil) (.mk 5 50 .red .nil .nil)), []⟩ ∧
    ∃ t', rotationTree.Remove 2 = some (t', true) ∧
      t'.root = .mk 4 40 .black (.mk 1 10 .black .nil (.mk 3 30 .red .nil .nil))
        (.mk 5 50 .black .nil .nil) ∧
      t'.lookup 1 = some ⟨.mk 1 10 .black .nil (.mk 3 30 .red .nil .nil),
        [⟨.left, 4, 40, .black, .mk 5 50 .black .nil .nil⟩]⟩ :=
  ⟨⟨[.put 2 20, .put 1 10, .put 4 40, .put 3 30, .put 5 50], by rfl⟩, by rfl,
    _, by rfl, by rfl, by rfl⟩

/-- C35, amended: on every tree reachable from the empty tree under a strict total order,
when `Remove(k)` finds `k` in a node with two non-nil children: the predecessor is the
maximum node of the left subtree, it holds the last in-order pair of that subtree and has no
right child; the predecessor swap leaves the node where it is, under the same ancestors,
with the same colour and the same two subtrees, and only puts the key and value of the
predecessor in it; the rest of `Remove`, the fixup and the splice, then runs on the
predecessor, which is the node spliced out; `Remove` returns true, and the in-order pairs
afterwards are those before without the pair of `k`. -/
theorem remove_swaps_predecessor (cmp : K → K → Int) (hc : StrictTotalOrder cmp)
    (t : Tree K V) (ht : Reachable cmp t) (k k0 : K) (v0 : V) (c : color) (l r : Node K V)
    (path : List (Frame K V))
    (hlook : t.lookup k = some ⟨.mk k0 v0 c l r, path⟩)
    (hl : l.isNil = false) (hr : r.isNil = false) :
    k0 = k ∧ t.root = zip path (.mk k v0 c l r) ∧
    ∃ pk pv pc pl q,
      maximumNode l [] = ⟨.mk pk pv pc pl .nil, q⟩ ∧
      l.toList = before q ++ pl.toList ++ [(pk, pv)] ∧
      swapWithPredecessor ⟨.mk k0 v0 c l r, path⟩
        = some ⟨.mk pk pv pc pl .nil, q ++ ⟨.left, pk, pv, c, r⟩ :: path⟩ ∧
      Cursor.root ⟨.mk pk pv pc pl .nil, q ++ ⟨.left, pk, pv, c, r⟩ :: path⟩
        = zip path (.mk pk pv c l r) ∧
      t.Remove k = removeTail t ⟨.mk pk pv pc pl .nil, q ++ ⟨.left, pk, pv, c, r⟩ :: path⟩ ∧
      ∃ t', t.Remove k = some (t', true) ∧
        t.root.toList = before path ++ l.toList ++ (k, v0) :: (r.toList ++ after path) ∧
        t'.root.toList = before path ++ l.toList ++ (r.toList ++ after path) := by
  have hi := ht.inv hc
  obtain ⟨hroot, -, hkey⟩ := lookup_zip t k _ hlook
  simp only at hroot
  have hk0 : k0 = k := by
    have := hkey k0 v0 c l r rfl
    rw [hi.comparator] at this
    exact (hc.eq_of_zero this).symm
  subst hk0
  refine ⟨rfl, hroot, ?_⟩
  obtain ⟨pk, pv, pc, pl, q, hm0, -, -, hq4⟩ :=
    maximumNode_spec l hl ([] : List (Frame K V))
  have happ := maximumNode_append l (⟨.left, pk, pv, c, r⟩ :: path)
  rw [hm0] at happ
  simp only at happ
  obtain ⟨pk', pv', pc', pl', p', hm1, hm2, hm3, hm4⟩ :=
    maximumNode_spec l hl (⟨.left, pk, pv, c, r⟩ :: path)
  rw [happ] at hm1
  simp only [Cursor.mk.injEq, Node.mk.injEq] at hm1
  obtain ⟨⟨rfl, rfl, rfl, rfl, -⟩, rfl⟩ := hm1
  have hswap : swapWithPredecessor ⟨.mk k0 v0 c l r, path⟩
      = some ⟨.mk pk pv pc pl .nil, q ++ ⟨.left, pk, pv, c, r⟩ :: path⟩ := by
    simp [swapWithPredecessor, hm0, happ]
  have hrem : t.Remove k0
      = removeTail t ⟨.mk pk pv pc pl .nil, q ++ ⟨.left, pk, pv, c, r⟩ :: path⟩ := by
    rw [Remove_eq, hlook]
    simp [Node.getLeft, Node.getRight, hl, hr, hswap]
  have hbal := hi.bal
  have hrr := hi.rr
  have hblack := hi.black
  rw [hroot] at hbal hrr hblack
  obtain ⟨root', htail, -, -, -, hlist⟩ := removeTail_spec t pk pv pc pl .nil
    (q ++ ⟨.left, pk, pv, c, r⟩ :: path) (Or.inr rfl)
    (by rw [hm2]; simpa [Bal_zip] using hbal)
    (by rw [hm2]; simpa [RR_zip] using hrr)
    (by rw [hm2]; simpa using hblack)
  refine ⟨pk, pv, pc, pl, q, hm0, by simpa using hq4.symm, hswap, by simpa [Cursor.root] using hm2,
    hrem, _, hrem.trans htail, by rw [hroot]; simp, ?_⟩
  simp only [hlist, hm3, after, Node.toList, List.append_nil]
  have h5 := congrArg (fun z => z ++ (r.toList ++ after path)) hm4
  simpa using h5

theorem remove_swaps_predecessor_witness :
    StrictTotalOrder compareInt ∧ Reachable compareInt sampleTree ∧
    sampleTree.lookup 2 = some ⟨.mk 2 20 .black (.mk 1 10 .red .nil .nil)
      (.mk 3 30 .red .nil .nil), []⟩ ∧
    ((2 : Int) = 2 ∧
      sampleTree.root = zip [] (.mk 2 20 .black (.mk 1 10 .red .nil .nil)
        (.mk 3 30 .red .nil .nil)) ∧
    ∃ pk pv pc pl q,
      maximumNode (.mk 1 10 .red .nil .nil : Node Int Int) [] = ⟨.mk pk pv pc pl .nil, q⟩ ∧
      (Node.mk 1 10 .red .nil .nil : Node Int Int).toList
        = before q ++ pl.toList ++ [(pk, pv)] ∧
      swapWithPredecessor ⟨.mk 2 20 .black (.mk 1 10 .red .nil .nil)
          (.mk 3 30 .red .nil .nil), []⟩
        = some ⟨.mk pk pv pc pl .nil,
            q ++ ⟨.left, pk, pv, .black, .mk 3 30 .red .nil .nil⟩ :: []⟩ ∧
      Cursor.root ⟨.mk pk pv pc pl .nil,
          q ++ ⟨.left, pk, pv, .black, .mk 3 30 .red .nil .nil⟩ :: []⟩
        = zip [] (.mk pk pv .black (.mk 1 10 .red .nil .nil) (.mk 3 30 .red .nil .nil)) ∧
      sampleTree.Remove 2 = removeTail sampleTree ⟨.mk pk pv pc pl .nil,
          q ++ ⟨.left, pk, pv, .black, .mk 3 30 .red .nil .nil⟩ :: []⟩ ∧
      ∃ t', sampleTree.Remove 2 = some (t', true) ∧
        sampleTree.root.toList = before [] ++ (Node.mk 1 10 .red .nil .nil).toList ++
          (2, 20) :: ((Node.mk 3 30 .red .nil .nil).toList ++ after []) ∧
        t'.root.toList = before [] ++ (Node.mk 1 10 .red .nil .nil).toList ++
          ((Node.mk 3 30 .red .nil .nil).toList ++ after [])) :=
  ⟨compareInt_strict, sampleTree_reachable, by rfl,
    remove_swaps_predecessor compareInt compareInt_strict sampleTree sampleTree_reachable
      2 2 20 .black (.mk 1 10 .red .nil .nil) (.mk 3 30 .red .nil .nil) [] (by rfl) rfl rfl⟩

/-! ## Termination and the absence of nil dereferences -/

theorem insertCase3_depth (rec : Cursor K V → Option (Cursor K V)) (node : Cursor K V) :
    insertCase3 rec node
      = insertCase3 (fun g => if g.path.length + 2 = node.path.length then rec g else none)
          node := by
  obtain ⟨n, path⟩ := node
  rcases path with _ | ⟨f, _ | ⟨⟨gd, gk, gv, gc, go⟩, rest⟩⟩
  · simp [insertCase3]
  · simp [insertCase3]
  · cases go <;> simp [insertCase3]

theorem deleteCase3_depth (rec : Cursor K V → Option (Cursor K V)) (node : Cursor K V) :
    deleteCase3 rec node
      = deleteCase3 (fun p => if p.path.length + 1 = node.path.length then rec p else none)
          node := by
  obtain ⟨n, path⟩ := node
  rcases path with _ | ⟨⟨fd, fk, fv, fc, fo⟩, rest⟩
  · simp [deleteCase3]
  · cases fo <;> simp [deleteCase3]

set_option maxHeartbeats 1000000 in
theorem deleteCase2_depth (rec : Cursor K V → Option (Cursor K V)) (node : Cursor K V) :
    deleteCase2 rec node
      = deleteCase2 (fun p => if p.path.length + 1 = node.path.length then rec p else none)
          node := by
  obtain ⟨n, path⟩ := node
  rcases path with _ | ⟨⟨fd, fk, fv, fc, fo⟩, rest⟩
  · simp [deleteCase2, deleteCase3]
  · simp only [deleteCase2]
    split
    · rcases fo with _ | ⟨sk, sv, sc, sl, sr⟩
      · simp
      · cases fd <;> simp <;> simp [deleteCase3]
    · exact deleteCase3_depth rec _

theorem insertCase1_fuel (fuel1 fuel2 : Nat) (node : Cursor K V)
    (h1 : node.path.length < fuel1) (h2 : node.path.length < fuel2) :
    insertCase1 fuel1 node = insertCase1 fuel2 node := by
  induction fuel1 generalizing fuel2 node with
  | zero => omega
  | succ f1 ih =>
    cases fuel2 with
    | zero => omega
    | succ f2 =>
      simp only [insertCase1, insertCase2]
      split
      · rfl
      · split
        · rfl
        · rw [insertCase3_depth (insertCase1 f1), insertCase3_depth (insertCase1 f2)]
          congr 1
          funext g
          split
          · exact ih f2 g (by omega) (by omega)
          · rfl

theorem deleteCase1_fuel (fuel1 fuel2 : Nat) (node : Cursor K V)
    (h1 : node.path.length < fuel1) (h2 : node.path.length < fuel2) :
    deleteCase1 fuel1 node = deleteCase1 fuel2 node := by
  induction fuel1 generalizing fuel2 node with
  | zero => omega
  | succ f1 ih =>
    cases fuel2 with
    | zero => omega
    | succ f2 =>
      simp only [deleteCase1]
      split
      · rfl
      · rw [deleteCase2_depth (deleteCase1 f1), deleteCase2_depth (deleteCase1 f2)]
        congr 1
        funext p
        split
        · exact ih f2 p (by omega) (by omega)
        · rfl

theorem descend_depth (cmp : K → K → Int) (key : K) (n : Node K V)
    (path : List (Frame K V)) :
    (descend cmp key n path).path.length ≤ path.length + n.height := by
  induction n generalizing path with
  | nil => simp [descend]
  | mk k v c l r ihl ihr =>
    simp only [descend, Node.height]
    split
    · simp
    · split
      · have := ihl (⟨.left, k, v, c, r⟩ :: path)
        simp only [List.length_cons] at this
        omega
      · have := ihr (⟨.right, k, v, c, l⟩ :: path)
        simp only [List.length_cons] at this
        omega

/-- C37: on every tree reachable from the empty tree under a strict total order, `Put` and
`Remove` return; the descent of `Put` ends, at a nil slot or at an equal key, after at most
as many steps as the tree is high; the recursive call of `insertCase3` is on a node two
levels higher and that of `deleteCase3` on a node one level higher, so that a call budget
of the depth of the node plus one is enough for either ladder: any larger budget gives the
same result. -/
theorem put_remove_terminate (cmp : K → K → Int) (hc : StrictTotalOrder cmp) (t : Tree K V)
    (ht : Reachable cmp t) (key : K) (value : V) :
    (∃ t', t.Put key value = some t') ∧
    (∃ t' found, t.Remove key = some (t', found)) ∧
    (descend t.comparator key t.root []).path.length ≤ t.root.height ∧
    (t.root.isNil = false → ∃ r, putLoop t.comparator key value t.root [] = some r) ∧
    (∀ (rec : Cursor K V → Option (Cursor K V)) (node : Cursor K V),
      insertCase3 rec node
        = insertCase3 (fun g => if g.path.length + 2 = node.path.length then rec g else none)
            node) ∧
    (∀ (rec : Cursor K V → Option (Cursor K V)) (node : Cursor K V),
      deleteCase3 rec node
        = deleteCase3 (fun p => if p.path.length + 1 = node.path.length then rec p else none)
            node) ∧
    (∀ (fuel : Nat) (node : Cursor K V), node.path.length < fuel →
      insertCase1 fuel node = insertCase1 (node.path.length + 1) node ∧
      deleteCase1 fuel node = deleteCase1 (node.path.length + 1) node) := by
  have hi := ht.inv hc
  obtain ⟨t', hp, -⟩ := Put_spec hc t hi key value
  obtain ⟨t'', b, hr, -⟩ := Remove_spec hc t hi key
  refine ⟨⟨t', hp⟩, ⟨t'', b, hr⟩, ?_, ?_, insertCase3_depth, deleteCase3_depth, ?_⟩
  · simpa using descend_depth t.comparator key t.root []
  · intro hn
    exact ⟨_, putLoop_eq t.comparator key value t.root [] hn⟩
  · intro fuel node hlt
    exact ⟨insertCase1_fuel fuel _ node hlt (Nat.lt_succ_self _),
      deleteCase1_fuel fuel _ node hlt (Nat.lt_succ_self _)⟩

theorem put_remove_terminate_witness :
    StrictTotalOrder compareInt ∧ Reachable compareInt sampleTree ∧
    (∃ t', sampleTree.Put 4 40 = some t') ∧
    (∃ t' found, sampleTree.Remove 4 = some (t', found)) ∧
    (descend sampleTree.comparator 4 sampleTree.root []).path.length
      ≤ sampleTree.root.height ∧
    (sampleTree.root.isNil = false →
      ∃ r, putLoop sampleTree.comparator 4 40 sampleTree.root [] = some r) ∧
    (∀ (rec : Cursor Int Int → Option (Cursor Int Int)) (node : Cursor Int Int),
      insertCase3 rec node
        = insertCase3 (fun g => if g.path.length + 2 = node.path.length then rec g else none)
            node) ∧
    (∀ (rec : Cursor Int Int → Option (Cursor Int Int)) (node : Cursor Int Int),
      deleteCase3 rec node
        = deleteCase3 (fun p => if p.path.length + 1 = node.path.length then rec p else none)
            node) ∧
    (∀ (fuel : Nat) (node : Cursor Int Int), node.path.length < fuel →
      insertCase1 fuel node = insertCase1 (node.path.length + 1) node ∧
      deleteCase1 fuel node = deleteCase1 (node.path.length + 1) node) :=
  ⟨compareInt_strict, sampleTree_reachable,
    put_remove_terminate compareInt compareInt_strict sampleTree sampleTree_reachable 4 40⟩

/-- C38: under a strict total order, every sequence of `Put` and `Remove` calls on the
empty tree runs to its end, and on the tree it builds every further `Put` and every further
`Remove` returns and the insertion ladder returns on the node `Put` has just linked: no
statement of either operation dereferences a nil grandparent, sibling or rotation child,
which is the only way they fail. -/
theorem no_nil_dereference (cmp : K → K → Int) (hc : StrictTotalOrder cmp)
    (ops : List (Op K V)) :
    ∃ t, run (NewWith cmp) ops = some t ∧
      ∀ key value,
        (∃ t', t.Put key value = some t') ∧
        (∃ t' found, t.Remove key = some (t', found)) ∧
        (∀ node, putLoop t.comparator key value t.root [] = some (.inserted node) →
          ∃ done, insertCase1 (node.path.length + 1) node = some done) ∧
        (∀ node, t.lookup key = some node →
          ∃ pred r, (pred = node ∨ swapWithPredecessor node = some pred) ∧
            removeTail t pred = some r) := by
  obtain ⟨t, hrun, hi⟩ := run_inv hc ops (NewWith cmp) (Inv_new cmp)
  refine ⟨t, hrun, fun key value => ?_⟩
  obtain ⟨t', hp, -⟩ := Put_spec hc t hi key value
  obtain ⟨t'', b, hr, -⟩ := Remove_spec hc t hi key
  refine ⟨⟨t', hp⟩, ⟨t'', b, hr⟩, ?_, ?_⟩
  · intro node hloop
    have hn : t.root.isNil = false := by
      cases hroot : t.root with
      | nil => rw [hroot] at hloop; simp [putLoop] at hloop
      | mk _ _ _ _ _ => rfl
    simp only [Tree.Put, hn, hloop] at hp
    cases hd : insertCase1 (node.path.length + 1) node with
    | none => simp [hd] at hp
    | some done => exact ⟨done, rfl⟩
  · intro node hlook
    rw [Remove_eq, hlook] at hr
    obtain ⟨hroot, hnil, -⟩ := lookup_zip t key node hlook
    obtain ⟨n, path⟩ := node
    cases n with
    | nil => simp at hnil
    | mk k v c l r =>
      simp only [Node.getLeft, Node.getRight] at hr
      by_cases h : l.isNil = false ∧ r.isNil = false
      · cases hs : swapWithPredecessor ⟨.mk k v c l r, path⟩ with
        | none => simp [h, hs] at hr
        | some pred =>
          simp [h, hs] at hr
          exact ⟨pred, _, Or.inr rfl, hr⟩
      · have hr2 : removeTail t ⟨.mk k v c l r, path⟩ = some (t'', b) := by
          simpa [h] using hr
        exact ⟨_, _, Or.inl rfl, hr2⟩

theorem no_nil_dereference_witness :
    StrictTotalOrder compareInt ∧
    ∃ t, run (NewWith compareInt) [Op.put 2 20, Op.put 1 10, Op.remove 2, Op.put 3 30]
        = some t ∧
      ∀ (key : Int) (value : Int),
        (∃ t', t.Put key value = some t') ∧
        (∃ t' found, t.Remove key = some (t', found)) ∧
        (∀ node, putLoop t.comparator key value t.root [] = some (.inserted node) →
          ∃ done, insertCase1 (node.path.length + 1) node = some done) ∧
        (∀ node, t.lookup key = some node →
          ∃ pred r, (pred = node ∨ swapWithPredecessor node = some pred) ∧
            removeTail t pred = some r) :=
  ⟨compareInt_strict,
    no_nil_dereference compareInt compareInt_strict
      [Op.put 2 20, Op.put 1 10, Op.remove 2, Op.put 3 30]⟩

/-! ## Rotations on the pointer structure -/

theorem Linked_frame (cells cells' : Nat → Option (Cell K V)) (t : PNode K V)
    (parent : Option Nat) (h : ∀ a ∈ t.addrs, cells' a = cells a)
    (hl : Linked cells parent t) : Linked cells' parent t := by
  induction t generalizing parent with
  | nil => trivial
  | mk a k v c l r ihl ihr =>
    simp only [PNode.addrs, List.mem_cons, List.mem_append] at h
    obtain ⟨h1, h2, h3⟩ := hl
    exact ⟨by rw [h a (Or.inl rfl)]; exact h1,
      ihl _ (fun b hb => h b (Or.inr (Or.inl hb))) h2,
      ihr _ (fun b hb => h b (Or.inr (Or.inr hb))) h3⟩

theorem Linked_reparent (cells cells' : Nat → Option (Cell K V)) (a : Nat) (k : K) (v : V)
    (c : color) (l r : PNode K V) (parent parent' : Option Nat)
    (hroot : cells' a = some ⟨k, v, c, l.ptr, r.ptr, parent'⟩)
    (h : ∀ b ∈ l.addrs ++ r.addrs, cells' b = cells b)
    (hl : Linked cells parent (.mk a k v c l r)) : Linked cells' parent' (.mk a k v c l r) := by
  obtain ⟨-, h2, h3⟩ := hl
  exact ⟨hroot, Linked_frame cells cells' l _ (fun b hb => h b (List.mem_append_left _ hb)) h2,
    Linked_frame cells cells' r _ (fun b hb => h b (List.mem_append_right _ hb)) h3⟩

theorem LinkedPath_frame (cells cells' : Nat → Option (Cell K V)) (path : List (PFrame K V))
    (hole : Option Nat) (h : ∀ a ∈ pathAddrs path, cells' a = cells a)
    (hl : LinkedPath cells path hole) : LinkedPath cells' path hole := by
  induction path generalizing hole with
  | nil => trivial
  | cons f rest ih =>
    simp only [pathAddrs, List.mem_cons, List.mem_append] at h
    obtain ⟨h1, h2, h3⟩ := hl
    exact ⟨by rw [h f.addr (Or.inl rfl)]; exact h1,
      Linked_frame cells cells' f.other _ (fun b hb => h b (Or.inr (Or.inl hb))) h2,
      ih _ (fun b hb => h b (Or.inr (Or.inr hb))) h3⟩

theorem Linked_zipP (cells : Nat → Option (Cell K V)) (path : List (PFrame K V))
    (n : PNode K V) :
    Linked cells none (zipP path n) ↔
      Linked cells (parentPtr path) n ∧ LinkedPath cells path n.ptr := by
  induction path generalizing n with
  | nil => simp [zipP, parentPtr, LinkedPath]
  | cons f rest ih =>
    obtain ⟨d, a, k, v, c, o⟩ := f
    cases d <;> simp [zipP, ih, PFrame.plug, Linked, LinkedPath, parentPtr, PNode.ptr] <;> tauto

theorem addrs_zipP (path : List (PFrame K V)) (n : PNode K V) :
    (zipP path n).addrs.Perm (n.addrs ++ pathAddrs path) := by
  induction path generalizing n with
  | nil => simp [zipP, pathAddrs]
  | cons f rest ih =>
    obtain ⟨d, a, k, v, c, o⟩ := f
    refine (ih _).trans ?_
    cases d
    · simp only [PFrame.plug, PNode.addrs, pathAddrs, List.cons_append, List.append_assoc]
      exact (List.perm_middle.symm)
    · simp only [PFrame.plug, PNode.addrs, pathAddrs, List.cons_append, List.append_assoc]
      refine List.Perm.trans ?_ List.perm_middle.symm
      refine List.Perm.cons _ ?_
      rw [← List.append_assoc, ← List.append_assoc]
      exact List.Perm.append_right _ List.perm_append_comm

theorem ptr_zipP (path : List (PFrame K V)) (n n' : PNode K V) (h : n.ptr = n'.ptr) :
    (zipP path n).ptr = (zipP path n').ptr := by
  induction path generalizing n n' with
  | nil => exact h
  | cons f rest ih =>
    obtain ⟨d, a, k, v, c, o⟩ := f
    cases d <;> exact ih _ _ rfl

theorem zipP_append (p q : List (PFrame K V)) (n : PNode K V) :
    zipP (p ++ q) n = zipP q (zipP p n) := by
  induction p generalizing n with
  | nil => rfl
  | cons f rest ih => exact ih _

theorem mem_addrs_zipP (t : PNode K V) (x : Nat) (hx : x ∈ t.addrs) :
    ∃ path k v c l r, t = zipP path (.mk x k v c l r) := by
  induction t with
  | nil => simp [PNode.addrs] at hx
  | mk a k v c l r ihl ihr =>
    simp only [PNode.addrs, List.mem_cons, List.mem_append] at hx
    rcases hx with rfl | hx | hx
    · exact ⟨[], k, v, c, l, r, rfl⟩
    · obtain ⟨path, k', v', c', l', r', rfl⟩ := ihl hx
      exact ⟨path ++ [⟨.left, a, k, v, c, r⟩], k', v', c', l', r', by
        rw [zipP_append]; rfl⟩
    · obtain ⟨path, k', v', c', l', r', rfl⟩ := ihr hx
      exact ⟨path ++ [⟨.right, a, k, v, c, l⟩], k', v', c', l', r', by
        rw [zipP_append]; rfl⟩

theorem erase_zipP (path : List (PFrame K V)) (n : PNode K V) :
    (zipP path n).erase = zip (path.map PFrame.erase) n.erase := by
  induction path generalizing n with
  | nil => rfl
  | cons f rest ih =>
    obtain ⟨d, a, k, v, c, o⟩ := f
    cases d <;> simp [zipP, ih, PFrame.plug, PFrame.erase, PNode.erase]

theorem Heap.set_self (h : Heap K V) (a : Nat) (c : Cell K V) :
    (h.set a c).cells a = some c := by
  simp [Heap.set]

theorem Heap.set_ne (h : Heap K V) (a b : Nat) (c : Cell K V) (hne : b ≠ a) :
    (h.set a c).cells b = h.cells b := by
  simp [Heap.set, hne]

theorem Heap.set_root (h : Heap K V) (a : Nat) (c : Cell K V) :
    (h.set a c).root = h.root := rfl

theorem replaceNodeH_eval (h : Heap K V) (x r : Nat) (xc rc : Cell K V)
    (hx : h.cells x = some xc) (hr : h.cells r = some rc) (hxr : x ≠ r)
    (hpar : ∀ p, xc.Parent = some p → p ≠ x ∧ p ≠ r ∧ ∃ pc, h.cells p = some pc) :
    ∃ h1, replaceNodeH h x (some r) = some h1 ∧
      h1.root = (if xc.Parent = none then some r else h.root) ∧
      h1.cells x = some xc ∧
      h1.cells r = some { rc with Parent := xc.Parent } ∧
      (∀ p pc, xc.Parent = some p → h.cells p = some pc →
        h1.cells p = some (if pc.Left = some x then { pc with Left := some r }
          else { pc with Right := some r })) ∧
      (∀ b, b ≠ r → some b ≠ xc.Parent → h1.cells b = h.cells b) := by
  have hrx : r ≠ x := fun e => hxr e.symm
  cases hp : xc.Parent with
  | none =>
    refine ⟨_, by simp [replaceNodeH, hx, hr, hp]; rfl, ?_⟩
    simp [Heap.set_self, Heap.set_root, Heap.set_ne, hxr, hx]
    intro b h1
    simp [Heap.set_ne, h1]
  | some p =>
    obtain ⟨hpx, hpr, pc, hpc⟩ := hpar p hp
    have hxp : x ≠ p := fun e => hpx e.symm
    have hrp : r ≠ p := fun e => hpr e.symm
    by_cases hl : pc.Left = some x
    · refine ⟨_, by
        simp [replaceNodeH, hx, hr, hp, hpc, hl, Heap.set_self, Heap.set_ne, hxp, hrp]; rfl,
        ?_⟩
      simp [Heap.set_self, Heap.set_root, Heap.set_ne, hxr, hx, hxp, hpr, hpc, hl]
      constructor
      · rintro p1 pc1 rfl hpc1
        rw [hpc] at hpc1
        cases hpc1
        simp [Heap.set_self, Heap.set_ne, hpr, hl]
      · intro b h1 h2
        simp [Heap.set_ne, h1, h2]
    · refine ⟨_, by
        simp [replaceNodeH, hx, hr, hp, hpc, hl, Heap.set_self, Heap.set_ne, hxp, hrp]; rfl,
        ?_⟩
      simp [Heap.set_self, Heap.set_root, Heap.set_ne, hxr, hx, hxp, hpr, hpc, hl]
      constructor
      · rintro p1 pc1 rfl hpc1
        rw [hpc] at hpc1
        cases hpc1
        simp [Heap.set_self, Heap.set_ne, hpr, hl]
      · intro b h1 h2
        simp [Heap.set_ne, h1, h2]

theorem rotateLeftH_eval (h : Heap K V) (x r : Nat) (k : K) (v : V) (c : color)
    (lp par : Option Nat) (rk : K) (rv : V) (rc : color) (rlp rrp rpar : Option Nat)
    (hx : h.cells x = some ⟨k, v, c, lp, some r, par⟩)
    (hr : h.cells r = some ⟨rk, rv, rc, rlp, rrp, rpar⟩)
    (hxr : x ≠ r)
    (hpar : ∀ p, par = some p → p ≠ x ∧ p ≠ r ∧ ∃ pc, h.cells p = some pc)
    (hrl : ∀ a, rlp = some a → a ≠ x ∧ a ≠ r ∧ some a ≠ par ∧ ∃ ac, h.cells a = some ac) :
    ∃ h', rotateLeftH h x = some h' ∧
      h'.root = (if par = none then some r else h.root) ∧
      h'.cells x = some ⟨k, v, c, lp, rlp, some r⟩ ∧
      h'.cells r = some ⟨rk, rv, rc, some x, rrp, par⟩ ∧
      (∀ p pc, par = some p → h.cells p = some pc →
        h'.cells p = some (if pc.Left = some x then { pc with Left := some r }
          else { pc with Right := some r })) ∧
      (∀ a ac, rlp = some a → h.cells a = some ac →
        h'.cells a = some { ac with Parent := some x }) ∧
      (∀ b, b ≠ x → b ≠ r → some b ≠ par → some b ≠ rlp → h'.cells b = h.cells b) := by
  have hrx : r ≠ x := fun e => hxr e.symm
  obtain ⟨h1, hrep, g1, g2, g3, g4, g5⟩ := replaceNodeH_eval h x r _ _ hx hr hxr hpar
  simp only at g1 g3 g4 g5
  cases rlp with
  | none =>
    refine ⟨_, by
      simp [rotateLeftH, hx, hrep, g2, g3, Heap.set_self, Heap.set_ne, hxr, hrx]; rfl, ?_⟩
    simp only [Heap.set_self, Heap.set_root, g1, true_and]
    refine ⟨by simp [Heap.set_ne, hrx, Heap.set_self], ?_, by simp, ?_⟩
    · intro p pc hp hpc
      obtain ⟨hpx, hpr, -⟩ := hpar p hp
      simp [Heap.set_ne, hpx, hpr, g4 p pc hp hpc]
    · intro b h1' h2' h3' _
      simp [Heap.set_ne, h1', h2', g5 b h2' h3']
  | some a =>
    obtain ⟨hax, har, hap, ac, hac⟩ := hrl a rfl
    have hxa : x ≠ a := fun e => hax e.symm
    have hra : r ≠ a := fun e => har e.symm
    have ha1 : h1.cells a = some ac := by rw [g5 a har hap, hac]
    refine ⟨_, by
      simp [rotateLeftH, hx, hrep, g2, g3, ha1, Heap.set_self, Heap.set_ne, hxr, hrx, hax, har,
        hxa, hra]; rfl, ?_⟩
    simp only [Heap.set_self, Heap.set_root, g1, true_and]
    refine ⟨by simp [Heap.set_ne, hrx, Heap.set_self], ?_, ?_, ?_⟩
    · intro p pc hp hpc
      obtain ⟨hpx, hpr, -⟩ := hpar p hp
      have hpa : p ≠ a := fun e => hap (by rw [hp, e])
      simp [Heap.set_ne, hpx, hpr, hpa, g4 p pc hp hpc]
    · intro a' ac' ha' hac'
      simp only [Option.some.injEq] at ha'
      subst ha'
      rw [hac] at hac'
      cases hac'
      simp [Heap.set_ne, hax, har, Heap.set_self]
    · intro b h1' h2' h3' h4'
      have h4'' : b ≠ a := fun e => h4' (by rw [e])
      simp [Heap.set_ne, h1', h2', h4'', g5 b h2' h3']

theorem ptr_mk (a : Nat) (k : K) (v : V) (c : color) (l r : PNode K V) :
    (PNode.mk a k v c l r).ptr = some a := rfl

theorem ptr_mem {t : PNode K V} {a : Nat} (h : t.ptr = some a) : a ∈ t.addrs := by
  cases t with
  | nil => cases h
  | mk b k v c l r =>
    simp only [PNode.ptr, Option.some.injEq] at h
    subst h
    simp [PNode.addrs]

theorem parentPtr_mem {path : List (PFrame K V)} {a : Nat} (h : parentPtr path = some a) :
    a ∈ pathAddrs path := by
  cases path with
  | nil => cases h
  | cons f rest =>
    simp only [parentPtr, Option.some.injEq] at h
    subst h
    simp [pathAddrs]

theorem rotateLeftH_zip (h : Heap K V) (path : List (PFrame K V)) (x : Nat) (k : K) (v : V)
    (c : color) (l : PNode K V) (r : Nat) (rk : K) (rv : V) (rc : color) (rl rr : PNode K V)
    (hc : Consistent h (zipP path (.mk x k v c l (.mk r rk rv rc rl rr)))) :
    ∃ h', rotateLeftH h x = some h' ∧
      Consistent h' (zipP path (.mk r rk rv rc (.mk x k v c l rl) rr)) ∧
      h'.root = (if parentPtr path = none then some r else h.root) ∧
      h'.cells x = some ⟨k, v, c, l.ptr, rl.ptr, some r⟩ ∧
      h'.cells r = some ⟨rk, rv, rc, some x, rr.ptr, parentPtr path⟩ ∧
      (∀ a, (h'.cells a).map (fun d => (d.Key, d.Value, d.color))
        = (h.cells a).map (fun d => (d.Key, d.Value, d.color))) := by
  obtain ⟨hroot, hlinked, hnodup⟩ := hc
  rw [Linked_zipP] at hlinked
  obtain ⟨⟨hx, hl, hr, hrl, hrr⟩, hP⟩ := hlinked
  have hnd := (addrs_zipP path (.mk x k v c l (.mk r rk rv rc rl rr))).nodup_iff.1 hnodup
  simp only [PNode.addrs] at hnd
  simp only [ptr_mk] at hx hr hP
  simp only [List.cons_append, List.nodup_cons, List.nodup_append, List.mem_append,
    List.mem_cons, List.append_assoc, not_or] at hnd
  obtain ⟨⟨hxl, hxr, hxrl, hxrr, hxp⟩, hlnd, ⟨⟨hrrl, hrrr, hrp⟩, hrlnd,
    ⟨hrrnd, hpnd, hrrp⟩, hrld⟩, hld⟩ := hnd
  have hpar : ∀ p, parentPtr path = some p → p ≠ x ∧ p ≠ r ∧ ∃ pc, h.cells p = some pc := by
    intro p hp
    have hmem := parentPtr_mem hp
    refine ⟨fun e => hxp (e ▸ hmem), fun e => hrp (e ▸ hmem), ?_⟩
    cases path with
    | nil => cases hp
    | cons f rest =>
      simp only [parentPtr, Option.some.injEq] at hp
      subst hp
      exact ⟨_, hP.1⟩
  have hrlp : ∀ a, rl.ptr = some a →
      a ≠ x ∧ a ≠ r ∧ some a ≠ parentPtr path ∧ ∃ ac, h.cells a = some ac := by
    intro a ha
    have hmem := ptr_mem ha
    refine ⟨fun e => hxrl (e ▸ hmem), fun e => hrrl (e ▸ hmem), fun e => ?_, ?_⟩
    · exact hrld hmem (List.mem_append_right _ (parentPtr_mem e.symm))
    · cases rl with
      | nil => cases ha
      | mk b bk bv bc bl br =>
        simp only [PNode.ptr, Option.some.injEq] at ha
        subst ha
        exact ⟨_, hrl.1⟩
  obtain ⟨h', hrot, g1, g2, g3, g4, g5, g6⟩ :=
    rotateLeftH_eval h x r k v c l.ptr (parentPtr path) rk rv rc rl.ptr rr.ptr (some x)
      hx hr hxr hpar hrlp
  -- cells away from x, r, the parent and the top of rl are the ones before
  have hsame : ∀ b, b ≠ x → b ≠ r → some b ≠ parentPtr path → some b ≠ rl.ptr →
      h'.cells b = h.cells b := g6
  have hframe_l : ∀ b ∈ l.addrs, h'.cells b = h.cells b := by
    intro b hb
    refine hsame b (fun e => hxl (e ▸ hb)) (fun e => hld hb (e ▸ List.mem_cons_self _ _))
      (fun e => ?_) (fun e => ?_)
    · exact hld hb (List.mem_cons_of_mem _ (List.mem_append_right _
        (List.mem_append_right _ (parentPtr_mem e.symm))))
    · exact hld hb (List.mem_cons_of_mem _ (List.mem_append_left _ (ptr_mem e.symm)))
  have hframe_rr : ∀ b ∈ rr.addrs, h'.cells b = h.cells b := by
    intro b hb
    refine hsame b (fun e => hxrr (e ▸ hb)) (fun e => hrrr (e ▸ hb))
      (fun e => ?_) (fun e => ?_)
    · exact hrrp hb (parentPtr_mem e.symm)
    · exact hrld (ptr_mem e.symm) (List.mem_append_left _ hb)
  have hframe_p : ∀ b ∈ pathAddrs path, some b ≠ parentPtr path → h'.cells b = h.cells b := by
    intro b hb hne
    refine hsame b (fun e => hxp (e ▸ hb)) (fun e => hrp (e ▸ hb)) hne (fun e => ?_)
    exact hrld (ptr_mem e.symm) (List.mem_append_right _ hb)
  refine ⟨h', hrot, ⟨?_, ?_, ?_⟩, g1, g2, g3, ?_⟩
  · -- the root field
    rw [g1]
    cases path with
    | nil => simp [parentPtr, zipP, ptr_mk]
    | cons f rest =>
      obtain ⟨d, a, fk, fv, fc, fo⟩ := f
      simp only [parentPtr, if_false, hroot, zipP]
      exact ptr_zipP rest _ _ (by cases d <;> rfl)
  · -- the links
    rw [Linked_zipP]
    refine ⟨⟨by simpa [ptr_mk] using g3, ⟨g2, Linked_frame _ _ l _ hframe_l hl, ?_⟩,
      Linked_frame _ _ rr _ hframe_rr hrr⟩, ?_⟩
    · cases rl with
      | nil => trivial
      | mk a ak av ac al ar =>
        have ha := g5 a _ rfl hrl.1
        refine Linked_reparent h.cells h'.cells a ak av ac al ar (some r) (some x) ha ?_ hrl
        intro b hb
        have hb' : b ∈ (PNode.mk a ak av ac al ar).addrs := by
          simp only [PNode.addrs, List.mem_cons]
          exact Or.inr hb
        have hba : b ≠ a := by
          rintro rfl
          simp only [PNode.addrs, List.nodup_cons] at hrlnd
          exact hrlnd.1 hb
        refine hsame b (fun e => hxrl (e ▸ hb')) (fun e => hrrl (e ▸ hb')) (fun e => ?_)
          (fun e => hba (by simpa [PNode.ptr] using e))
        exact hrld hb' (List.mem_append_right _ (parentPtr_mem e.symm))
    · cases path with
      | nil => trivial
      | cons f rest =>
        obtain ⟨d, a, fk, fv, fc, fo⟩ := f
        obtain ⟨hp1, hp2, hp3⟩ := hP
        simp only [pathAddrs, List.mem_cons, List.mem_append, List.nodup_cons, not_or,
          List.nodup_append] at hxp hpnd
        have hcell := g4 a _ rfl hp1
        refine ⟨?_, ?_, ?_⟩
        · rw [hcell]
          cases d
          · simp [ptr_mk]
          · have hne : fo.ptr ≠ some x := fun e => hxp.2.1 (ptr_mem e)
            simp [hne, ptr_mk]
        · refine Linked_frame _ _ fo _ (fun b hb => ?_) hp2
          refine hframe_p b (by simp [pathAddrs, hb]) ?_
          simp only [parentPtr, ne_eq, Option.some.injEq]
          rintro rfl
          exact hpnd.1.1 hb
        · refine LinkedPath_frame _ _ rest _ (fun b hb => ?_) hp3
          refine hframe_p b (by simp [pathAddrs, hb]) ?_
          simp only [parentPtr, ne_eq, Option.some.injEq]
          rintro rfl
          exact hpnd.1.2 hb
  · -- no address twice
    refine (addrs_zipP path _).nodup_iff.2 ?_
    refine (List.Perm.nodup_iff ?_).1 ((addrs_zipP path _).nodup_iff.1 hnodup)
    refine List.Perm.append_right _ ?_
    rw [List.perm_iff_count]
    intro b
    simp only [PNode.addrs, List.count_cons, List.count_append]
    omega
  · -- keys, values and colours stay at their addresses
    intro b
    by_cases hbx : b = x
    · subst hbx; rw [g2, hx]; rfl
    by_cases hbr : b = r
    · subst hbr; rw [g3, hr]; rfl
    by_cases hbp : some b = parentPtr path
    · obtain ⟨-, -, pc, hpc⟩ := hpar b hbp.symm
      rw [g4 b pc hbp.symm hpc, hpc]
      split <;> rfl
    by_cases hbl : some b = rl.ptr
    · obtain ⟨-, -, -, ac, hac⟩ := hrlp b hbl.symm
      rw [g5 b ac hbl.symm hac, hac]
      rfl
    · rw [hsame b hbx hbr hbp hbl]

theorem rotateRightH_eval (h : Heap K V) (x l : Nat) (k : K) (v : V) (c : color)
    (rp par : Option Nat) (lk : K) (lv : V) (lc : color) (llp lrp lpar : Option Nat)
    (hx : h.cells x = some ⟨k, v, c, some l, rp, par⟩)
    (hl : h.cells l = some ⟨lk, lv, lc, llp, lrp, lpar⟩)
    (hxl : x ≠ l)
    (hpar : ∀ p, par = some p → p ≠ x ∧ p ≠ l ∧ ∃ pc, h.cells p = some pc)
    (hlr : ∀ a, lrp = some a → a ≠ x ∧ a ≠ l ∧ some a ≠ par ∧ ∃ ac, h.cells a = some ac) :
    ∃ h', rotateRightH h x = some h' ∧
      h'.root = (if par = none then some l else h.root) ∧
      h'.cells x = some ⟨k, v, c, lrp, rp, some l⟩ ∧
      h'.cells l = some ⟨lk, lv, lc, llp, some x, par⟩ ∧
      (∀ p pc, par = some p → h.cells p = some pc →
        h'.cells p = some (if pc.Left = some x then { pc with Left := some l }
          else { pc with Right := some l })) ∧
      (∀ a ac, lrp = some a → h.cells a = some ac →
        h'.cells a = some { ac with Parent := some x }) ∧
      (∀ b, b ≠ x → b ≠ l → some b ≠ par → some b ≠ lrp → h'.cells b = h.cells b) := by
  have hlx : l ≠ x := fun e => hxl e.symm
  obtain ⟨h1, hrep, g1, g2, g3, g4, g5⟩ := replaceNodeH_eval h x l _ _ hx hl hxl hpar
  simp only at g1 g3 g4 g5
  cases lrp with
  | none =>
    refine ⟨_, by
      simp [rotateRightH, hx, hrep, g2, g3, Heap.set_self, Heap.set_ne, hxl, hlx]; rfl, ?_⟩
    simp only [Heap.set_self, Heap.set_root, g1, true_and]
    refine ⟨by simp [Heap.set_ne, hlx, Heap.set_self], ?_, by simp, ?_⟩
    · intro p pc hp hpc
      obtain ⟨hpx, hpl, -⟩ := hpar p hp
      simp [Heap.set_ne, hpx, hpl, g4 p pc hp hpc]
    · intro b h1' h2' h3' _
      simp [Heap.set_ne, h1', h2', g5 b h2' h3']
  | some a =>
    obtain ⟨hax, hal, hap, ac, hac⟩ := hlr a rfl
    have hxa : x ≠ a := fun e => hax e.symm
    have hla : l ≠ a := fun e => hal e.symm
    have ha1 : h1.cells a = some ac := by rw [g5 a hal hap, hac]
    refine ⟨_, by
      simp [rotateRightH, hx, hrep, g2, g3, ha1, Heap.set_self, Heap.set_ne, hxl, hlx, hax,
        hal, hxa, hla]; rfl, ?_⟩
    simp only [Heap.set_self, Heap.set_root, g1, true_and]
    refine ⟨by simp [Heap.set_ne, hlx, Heap.set_self], ?_, ?_, ?_⟩
    · intro p pc hp hpc
      obtain ⟨hpx, hpl, -⟩ := hpar p hp
      have hpa : p ≠ a := fun e => hap (by rw [hp, e])
      simp [Heap.set_ne, hpx, hpl, hpa, g4 p pc hp hpc]
    · intro a' ac' ha' hac'
      simp only [Option.some.injEq] at ha'
      subst ha'
      rw [hac] at hac'
      cases hac'
      simp [Heap.set_ne, hax, hal, Heap.set_self]
    · intro b h1' h2' h3' h4'
      have h4'' : b ≠ a := fun e => h4' (by rw [e])
      simp [Heap.set_ne, h1', h2', h4'', g5 b h2' h3']

theorem rotateRightH_zip (h : Heap K V) (path : List (PFrame K V)) (x : Nat) (k : K) (v : V)
    (c : color) (l : Nat) (lk : K) (lv : V) (lc : color) (ll lr : PNode K V) (r : PNode K V)
    (hc : Consistent h (zipP path (.mk x k v c (.mk l lk lv lc ll lr) r))) :
    ∃ h', rotateRightH h x = some h' ∧
      Consistent h' (zipP path (.mk l lk lv lc ll (.mk x k v c lr r))) ∧
      h'.root = (if parentPtr path = none then some l else h.root) ∧
      h'.cells x = some ⟨k, v, c, lr.ptr, r.ptr, some l⟩ ∧
      h'.cells l = some ⟨lk, lv, lc, ll.ptr, some x, parentPtr path⟩ ∧
      (∀ a, (h'.cells a).map (fun d => (d.Key, d.Value, d.color))
        = (h.cells a).map (fun d => (d.Key, d.Value, d.color))) := by
  obtain ⟨hroot, hlinked, hnodup⟩ := hc
  rw [Linked_zipP] at hlinked
  obtain ⟨⟨hx, ⟨hl, hll, hlr⟩, hr⟩, hP⟩ := hlinked
  have hnd := (addrs_zipP path (.mk x k v c (.mk l lk lv lc ll lr) r)).nodup_iff.1 hnodup
  simp only [PNode.addrs] at hnd
  simp only [ptr_mk] at hx hl hP
  simp only [List.cons_append, List.nodup_cons, List.nodup_append, List.mem_append,
    List.mem_cons, List.append_assoc, not_or] at hnd
  obtain ⟨⟨hxl, hxll, hxlr, hxr, hxp⟩, ⟨hlll, hllr, hlr', hlp⟩, hllnd,
    ⟨hlrnd, ⟨hrnd, hpnd, hrp⟩, hlrd⟩, hlld⟩ := hnd
  have hpar : ∀ p, parentPtr path = some p → p ≠ x ∧ p ≠ l ∧ ∃ pc, h.cells p = some pc := by
    intro p hp
    have hmem := parentPtr_mem hp
    refine ⟨fun e => hxp (e ▸ hmem), fun e => hlp (e ▸ hmem), ?_⟩
    cases path with
    | nil => cases hp
    | cons f rest =>
      simp only [parentPtr, Option.some.injEq] at hp
      subst hp
      exact ⟨_, hP.1⟩
  have hlrp : ∀ a, lr.ptr = some a →
      a ≠ x ∧ a ≠ l ∧ some a ≠ parentPtr path ∧ ∃ ac, h.cells a = some ac := by
    intro a ha
    have hmem := ptr_mem ha
    refine ⟨fun e => hxlr (e ▸ hmem), fun e => hllr (e ▸ hmem), fun e => ?_, ?_⟩
    · exact hlrd hmem (List.mem_append_right _ (parentPtr_mem e.symm))
    · cases lr with
      | nil => cases ha
      | mk b bk bv bc bl br =>
        simp only [PNode.ptr, Option.some.injEq] at ha
        subst ha
        exact ⟨_, hlr.1⟩
  obtain ⟨h', hrot, g1, g2, g3, g4, g5, g6⟩ :=
    rotateRightH_eval h x l k v c r.ptr (parentPtr path) lk lv lc ll.ptr lr.ptr (some x)
      hx hl hxl hpar hlrp
  have hsame : ∀ b, b ≠ x → b ≠ l → some b ≠ parentPtr path → some b ≠ lr.ptr →
      h'.cells b = h.cells b := g6
  have hframe_ll : ∀ b ∈ ll.addrs, h'.cells b = h.cells b := by
    intro b hb
    refine hsame b (fun e => hxll (e ▸ hb)) (fun e => hlll (e ▸ hb))
      (fun e => ?_) (fun e => ?_)
    · exact hlld hb (List.mem_append_right _ (List.mem_append_right _ (parentPtr_mem e.symm)))
    · exact hlld hb (List.mem_append_left _ (ptr_mem e.symm))
  have hframe_r : ∀ b ∈ r.addrs, h'.cells b = h.cells b := by
    intro b hb
    refine hsame b (fun e => hxr (e ▸ hb)) (fun e => hlr' (e ▸ hb))
      (fun e => ?_) (fun e => ?_)
    · exact hrp hb (parentPtr_mem e.symm)
    · exact hlrd (ptr_mem e.symm) (List.mem_append_left _ hb)
  have hframe_p : ∀ b ∈ pathAddrs path, some b ≠ parentPtr path → h'.cells b = h.cells b := by
    intro b hb hne
    refine hsame b (fun e => hxp (e ▸ hb)) (fun e => hlp (e ▸ hb)) hne (fun e => ?_)
    exact hlrd (ptr_mem e.symm) (List.mem_append_right _ hb)
  refine ⟨h', hrot, ⟨?_, ?_, ?_⟩, g1, g2, g3, ?_⟩
  · rw [g1]
    cases path with
    | nil => simp [parentPtr, zipP, ptr_mk]
    | cons f rest =>
      obtain ⟨d, a, fk, fv, fc, fo⟩ := f
      simp only [parentPtr, if_false, hroot, zipP]
      exact ptr_zipP rest _ _ (by cases d <;> rfl)
  · rw [Linked_zipP]
    refine ⟨⟨by simpa [ptr_mk] using g3, Linked_frame _ _ ll _ hframe_ll hll,
      ⟨g2, ?_, Linked_frame _ _ r _ hframe_r hr⟩⟩, ?_⟩
    · cases lr with
      | nil => trivial
      | mk a ak av ac al ar =>
        have ha := g5 a _ rfl hlr.1
        refine Linked_reparent h.cells h'.cells a ak av ac al ar (some l) (some x) ha ?_ hlr
        intro b hb
        have hb' : b ∈ (PNode.mk a ak av ac al ar).addrs := by
          simp only [PNode.addrs, List.mem_cons]
          exact Or.inr hb
        have hba : b ≠ a := by
          rintro rfl
          simp only [PNode.addrs, List.nodup_cons] at hlrnd
          exact hlrnd.1 hb
        refine hsame b (fun e => hxlr (e ▸ hb')) (fun e => hllr (e ▸ hb')) (fun e => ?_)
          (fun e => hba (by simpa [PNode.ptr] using e))
        exact hlrd hb' (List.mem_append_right _ (parentPtr_mem e.symm))
    · cases path with
      | nil => trivial
      | cons f rest =>
        obtain ⟨d, a, fk, fv, fc, fo⟩ := f
        obtain ⟨hp1, hp2, hp3⟩ := hP
        simp only [pathAddrs, List.mem_cons, List.mem_append, List.nodup_cons, not_or,
          List.nodup_append] at hxp hpnd
        have hcell := g4 a _ rfl hp1
        refine ⟨?_, ?_, ?_⟩
        · rw [hcell]
          cases d
          · simp [ptr_mk]
          · have hne : fo.ptr ≠ some x := fun e => hxp.2.1 (ptr_mem e)
            simp [hne, ptr_mk]
        · refine Linked_frame _ _ fo _ (fun b hb => ?_) hp2
          refine hframe_p b (by simp [pathAddrs, hb]) ?_
          simp only [parentPtr, ne_eq, Option.some.injEq]
          rintro rfl
          exact hpnd.1.1 hb
        · refine LinkedPath_frame _ _ rest _ (fun b hb => ?_) hp3
          refine hframe_p b (by simp [pathAddrs, hb]) ?_
          simp only [parentPtr, ne_eq, Option.some.injEq]
          rintro rfl
          exact hpnd.1.2 hb
  · refine (addrs_zipP path _).nodup_iff.2 ?_
    refine (List.Perm.nodup_iff ?_).1 ((addrs_zipP path _).nodup_iff.1 hnodup)
    refine List.Perm.append_right _ ?_
    rw [List.perm_iff_count]
    intro b
    simp only [PNode.addrs, List.count_cons, List.count_append]
    omega
  · intro b
    by_cases hbx : b = x
    · subst hbx; rw [g2, hx]; rfl
    by_cases hbl : b = l
    · subst hbl; rw [g3, hl]; rfl
    by_cases hbp : some b = parentPtr path
    · obtain ⟨-, -, pc, hpc⟩ := hpar b hbp.symm
      rw [g4 b pc hbp.symm hpc, hpc]
      split <;> rfl
    by_cases hblr : some b = lr.ptr
    · obtain ⟨-, -, -, ac, hac⟩ := hlrp b hblr.symm
      rw [g5 b ac hblr.symm hac, hac]
      rfl
    · rw [hsame b hbx hbl hbp hblr]

theorem top_zipP (path : List (PFrame K V)) (n : PNode K V) (hne : path ≠ []) :
    ∃ a ∈ pathAddrs path, (zipP path n).ptr = some a := by
  induction path generalizing n with
  | nil => exact absurd rfl hne
  | cons f rest ih =>
    cases rest with
    | nil =>
      obtain ⟨d, a, k, v, c, o⟩ := f
      exact ⟨a, by simp [pathAddrs], by cases d <;> rfl⟩
    | cons g rest =>
      obtain ⟨a, ha, he⟩ := ih (f.plug n) (by simp)
      refine ⟨a, ?_, he⟩
      simp only [pathAddrs, List.mem_cons, List.mem_append] at ha ⊢
      tauto

theorem root_zipP (h : Heap K V) (path : List (PFrame K V)) (x : Nat) (k : K) (v : V)
    (c : color) (l r : PNode K V) (hc : Consistent h (zipP path (.mk x k v c l r))) :
    h.root = some x ↔ parentPtr path = none := by
  obtain ⟨hroot, -, hnodup⟩ := hc
  cases path with
  | nil => simp [hroot, zipP, parentPtr, ptr_mk]
  | cons f rest =>
    obtain ⟨a, ha, he⟩ := top_zipP (f :: rest) (.mk x k v c l r) (by simp)
    have hnd := (addrs_zipP (f :: rest) (.mk x k v c l r)).nodup_iff.1 hnodup
    simp only [PNode.addrs, List.cons_append, List.nodup_cons, List.mem_append, not_or] at hnd
    simp only [hroot, he, parentPtr, Option.some.injEq]
    constructor
    · rintro rfl
      exact absurd ha hnd.1.2
    · intro e
      cases e

theorem toList_rotated (path : List (Frame K V)) (k : K) (v : V) (c : color)
    (l : Node K V) (rk : K) (rv : V) (rc : color) (rl rr : Node K V) :
    (zip path (.mk rk rv rc (.mk k v c l rl) rr)).toList
      = (zip path (.mk k v c l (.mk rk rv rc rl rr))).toList := by
  simp [toList_zip]

/-- C36: on a memory whose `Left`, `Right` and `Parent` links are consistent, for a node `x`
of the tree with a non-nil right child `r`, `rotateLeft(x)` returns; afterwards the links are
consistent again over the same nodes, the in-order sequence of pairs is the one before, every
node has the key, value and colour it had, `x` is the left child of `r` and `r` its parent,
the `root` field is `r` when `x` was the root and is the one before otherwise, and the tree is
the one `rotateLeft` builds on the tree without addresses; and the mirror image holds for
`rotateRight(x)` when `x` has a non-nil left child `l`. -/
theorem rotations_keep_links (h : Heap K V) (t : PNode K V) (hc : Consistent h t) (x : Nat)
    (hx : x ∈ t.addrs) :
    (∀ cx r, h.cells x = some cx → cx.Right = some r →
      ∃ h' t', rotateLeftH h x = some h' ∧ Consistent h' t' ∧
        t'.erase.toList = t.erase.toList ∧ t'.addrs.Perm t.addrs ∧
        (∀ a, (h'.cells a).map (fun d => (d.Key, d.Value, d.color))
          = (h.cells a).map (fun d => (d.Key, d.Value, d.color))) ∧
        (∃ cr', h'.cells r = some cr' ∧ cr'.Left = some x) ∧
        (∃ cx', h'.cells x = some cx' ∧ cx'.Parent = some r ∧ cx'.Left = cx.Left) ∧
        (h.root = some x → h'.root = some r) ∧ (h.root ≠ some x → h'.root = h.root) ∧
        ∃ node node' : Cursor K V, node.root = t.erase ∧ rotateLeft node = some node' ∧
          node'.root = t'.erase) ∧
    (∀ cx l, h.cells x = some cx → cx.Left = some l →
      ∃ h' t', rotateRightH h x = some h' ∧ Consistent h' t' ∧
        t'.erase.toList = t.erase.toList ∧ t'.addrs.Perm t.addrs ∧
        (∀ a, (h'.cells a).map (fun d => (d.Key, d.Value, d.color))
          = (h.cells a).map (fun d => (d.Key, d.Value, d.color))) ∧
        (∃ cl', h'.cells l = some cl' ∧ cl'.Right = some x) ∧
        (∃ cx', h'.cells x = some cx' ∧ cx'.Parent = some l ∧ cx'.Right = cx.Right) ∧
        (h.root = some x → h'.root = some l) ∧ (h.root ≠ some x → h'.root = h.root) ∧
        ∃ node node' : Cursor K V, node.root = t.erase ∧ rotateRight node = some node' ∧
          node'.root = t'.erase) := by
  obtain ⟨path, k, v, c, l, r, rfl⟩ := mem_addrs_zipP t x hx
  have hlinked := (Linked_zipP h.cells path _).1 hc.2.1
  have hcell := hlinked.1.1
  have hrootiff := root_zipP h path x k v c l r hc
  constructor
  · intro cx ra hcx hra
    rw [hcell] at hcx
    cases hcx
    cases r with
    | nil => cases hra
    | mk r' rk rv rc rl rr =>
      simp only [PNode.ptr, Option.some.injEq] at hra
      subst hra
      obtain ⟨h', hrot, hcons, g1, g2, g3, g4⟩ :=
        rotateLeftH_zip h path x k v c l r' rk rv rc rl rr hc
      refine ⟨h', _, hrot, hcons, ?_, ?_, g4, ⟨_, g3, rfl⟩, ⟨_, g2, rfl, rfl⟩, ?_, ?_,
        ⟨.mk k v c l.erase (.mk rk rv rc rl.erase rr.erase), path.map PFrame.erase⟩, _, ?_,
        rfl, ?_⟩
      · simp only [erase_zipP, PNode.erase]
        exact toList_rotated _ _ _ _ _ _ _ _ _ _
      · refine (addrs_zipP path _).trans (List.Perm.trans ?_ (addrs_zipP path _).symm)
        refine List.Perm.append_right _ ?_
        rw [List.perm_iff_count]
        intro b
        simp only [PNode.addrs, List.count_cons, List.count_append]
        omega
      · intro hr
        rw [g1, if_pos (hrootiff.1 hr)]
      · intro hr
        rw [g1, if_neg (fun e => hr (hrootiff.2 e))]
      · simp [erase_zipP, PNode.erase]
      · simp [erase_zipP, PNode.erase]
  · intro cx la hcx hla
    rw [hcell] at hcx
    cases hcx
    cases l with
    | nil => cases hla
    | mk l' lk lv lc ll lr =>
      simp only [PNode.ptr, Option.some.injEq] at hla
      subst hla
      obtain ⟨h', hrot, hcons, g1, g2, g3, g4⟩ :=
        rotateRightH_zip h path x k v c l' lk lv lc ll lr r hc
      refine ⟨h', _, hrot, hcons, ?_, ?_, g4, ⟨_, g3, rfl⟩, ⟨_, g2, rfl, rfl⟩, ?_, ?_,
        ⟨.mk k v c (.mk lk lv lc ll.erase lr.erase) r.erase, path.map PFrame.erase⟩, _, ?_,
        rfl, ?_⟩
      · simp [erase_zipP, PNode.erase, toList_zip]
      · refine (addrs_zipP path _).trans (List.Perm.trans ?_ (addrs_zipP path _).symm)
        refine List.Perm.append_right _ ?_
        rw [List.perm_iff_count]
        intro b
        simp only [PNode.addrs, List.count_cons, List.count_append]
        omega
      · intro hr
        rw [g1, if_pos (hrootiff.1 hr)]
      · intro hr
        rw [g1, if_neg (fun e => hr (hrootiff.2 e))]
      · simp [erase_zipP, PNode.erase]
      · simp [erase_zipP, PNode.erase]

theorem rotations_keep_links_witness :
    Consistent sampleHeap samplePNode ∧ 0 ∈ samplePNode.addrs ∧
    ((∀ cx r, sampleHeap.cells 0 = some cx → cx.Right = some r →
      ∃ h' t', rotateLeftH sampleHeap 0 = some h' ∧ Consistent h' t' ∧
        t'.erase.toList = samplePNode.erase.toList ∧ t'.addrs.Perm samplePNode.addrs ∧
        (∀ a, (h'.cells a).map (fun d => (d.Key, d.Value, d.color))
          = (sampleHeap.cells a).map (fun d => (d.Key, d.Value, d.color))) ∧
        (∃ cr', h'.cells r = some cr' ∧ cr'.Left = some 0) ∧
        (∃ cx', h'.cells 0 = some cx' ∧ cx'.Parent = some r ∧ cx'.Left = cx.Left) ∧
        (sampleHeap.root = some 0 → h'.root = some r) ∧
        (sampleHeap.root ≠ some 0 → h'.root = sampleHeap.root) ∧
        ∃ node node' : Cursor Int Int, node.root = samplePNode.erase ∧
          rotateLeft node = some node' ∧ node'.root = t'.erase) ∧
    (∀ cx l, sampleHeap.cells 0 = some cx → cx.Left = some l →
      ∃ h' t', rotateRightH sampleHeap 0 = some h' ∧ Consistent h' t' ∧
        t'.erase.toList = samplePNode.erase.toList ∧ t'.addrs.Perm samplePNode.addrs ∧
        (∀ a, (h'.cells a).map (fun d => (d.Key, d.Value, d.color))
          = (sampleHeap.cells a).map (fun d => (d.Key, d.Value, d.color))) ∧
        (∃ cl', h'.cells l = some cl' ∧ cl'.Right = some 0) ∧
        (∃ cx', h'.cells 0 = some cx' ∧ cx'.Parent = some l ∧ cx'.Right = cx.Right) ∧
        (sampleHeap.root = some 0 → h'.root = some l) ∧
        (sampleHeap.root ≠ some 0 → h'.root = sampleHeap.root) ∧
        ∃ node node' : Cursor Int Int, node.root = samplePNode.erase ∧
          rotateRight node = some node' ∧ node'.root = t'.erase)) :=
  ⟨by simp [Consistent, sampleHeap, samplePNode, Linked, PNode.ptr, PNode.addrs],
    by simp [samplePNode, PNode.addrs],
    rotations_keep_links sampleHeap samplePNode
      (by simp [Consistent, sampleHeap, samplePNode, Linked, PNode.ptr, PNode.addrs]) 0
      (by simp [samplePNode, PNode.addrs])⟩

end rbtree
